import Mathlib

/-!
Verification of the TheWorkshop control-plane scripts against their
natural-language specification.

The Python sources under `scripts/` are shallowly embedded as executable
Lean definitions: dictionaries become association lists or lookup
functions, Python `sorted` becomes a stable insertion sort over the same
order, floats carrying hour estimates and modification times become
rationals, and the filesystem becomes an explicit finite map from paths
to file metadata.  Each embedded definition mirrors one Python function
and keeps its name.
-/

namespace TheWorkshop

/-! ## List utilities shared by the embeddings

`sortStr` embeds Python `sorted(...)` on strings (stable insertion sort,
lexicographic string order); `sortedDedup` embeds `sorted(set(...))`. -/

/-- Lexicographic code-point order on characters lists: the order Python
uses to compare strings. -/
def charListLt : List Char → List Char → Bool
  | [], [] => false
  | [], _ :: _ => true
  | _ :: _, [] => false
  | a :: as, b :: bs =>
    if a.toNat < b.toNat then true
    else if b.toNat < a.toNat then false
    else charListLt as bs

def strLt (a b : String) : Bool := charListLt a.data b.data

def strLe (a b : String) : Bool := !(strLt b a)

def insertStr (x : String) : List String → List String
  | [] => [x]
  | y :: ys => if strLe x y then x :: y :: ys else y :: insertStr x ys

def sortStr (l : List String) : List String :=
  l.foldr insertStr []

def sortedDedup (l : List String) : List String :=
  sortStr l.dedup

/-! ## `plan_sync.py` and `plan_check.py`: status rollup -/

namespace PlanSync

/-- Embeds `rollup_status` from `scripts/plan_sync.py` (lines 49–56):
`in_progress` if any state is `in_progress`; else `blocked` if any is
`blocked`; else `done` if the list is nonempty (`states and ...`) and
all states are `done` or `cancelled`; else `planned`. -/
def rollup_status (states : List String) : String :=
  if states.any (· == "in_progress") then "in_progress"
  else if states.any (· == "blocked") then "blocked"
  else if !states.isEmpty && states.all (fun s => s == "done" || s == "cancelled") then "done"
  else "planned"

end PlanSync

namespace PlanCheck

/-- Embeds `rollup_status` from `scripts/plan_check.py` (lines 50–57),
textually identical to the `plan_sync.py` copy. -/
def rollup_status (states : List String) : String :=
  if states.any (· == "in_progress") then "in_progress"
  else if states.any (· == "blocked") then "blocked"
  else if !states.isEmpty && states.all (fun s => s == "done" || s == "cancelled") then "done"
  else "planned"

end PlanCheck

/-- The rollup rule as the specification words it, with "all children are
`done` or `cancelled`" read as a universal quantification (vacuously true
on the empty multiset). -/
def rollupStatusSpec (states : List String) : String :=
  if states.any (· == "in_progress") then "in_progress"
  else if states.any (· == "blocked") then "blocked"
  else if states.all (fun s => s == "done" || s == "cancelled") then "done"
  else "planned"

/-! ## Python string helpers shared by the scripts

`pyStrip`/`pyLower` embed `str.strip()`/`str.lower()` (ASCII case folding
suffices for the status and gate strings these scripts manipulate);
`strStarts`/`strContains` embed `str.startswith` and the `in` operator;
`pyOr` embeds `x or default` on strings; `normalize_str_list` embeds
`twlib.normalize_str_list` on an already list-shaped value. -/

def pyIsSpace (c : Char) : Bool :=
  c == ' ' || c == '\t' || c == '\n' || c == '\r' || c == '\x0b' || c == '\x0c'

def pyStrip (s : String) : String :=
  ⟨((s.data.dropWhile pyIsSpace).reverse.dropWhile pyIsSpace).reverse⟩

def pyLower (s : String) : String :=
  ⟨s.data.map Char.toLower⟩

def pyOr (s d : String) : String :=
  if s = "" then d else s

def listIsPre : List Char → List Char → Bool
  | [], _ => true
  | _ :: _, [] => false
  | a :: as, b :: bs => a == b && listIsPre as bs

def listContainsSub (needle : List Char) : List Char → Bool
  | [] => listIsPre needle []
  | c :: cs => listIsPre needle (c :: cs) || listContainsSub needle cs

def strStarts (s pre : String) : Bool :=
  listIsPre pre.data s.data

def strContains (s sub : String) : Bool :=
  listContainsSub sub.data s.data

def normalize_str_list (l : List String) : List String :=
  l.foldr (fun v acc =>
    let s := pyStrip v
    if s == "" || s == "[]" || s == "\x7b\x7d" then acc else s :: acc) []

/-! ## `invalidate_downstream.py`: snapshot fingerprints and comparison

Snapshot entries carry the fields `invalidate_downstream.py` records per
(dependency job, declared output) pair.  Modification times and sizes are
rationals/integers standing for the Python floats/ints; the JSON-shape
plumbing of `normalize_snapshot_entries` (the `dependencies` / `inputs` /
`entries` layouts and the on-disk indirection) is collapsed to an already
parsed entry list. -/

namespace Invalidate

structure SnapEntry where
  dependency_work_item_id : String
  declared_output : String
  exists_flag : Bool
  sha256 : String
  mtime : Option ℚ
  size_bytes : Option ℤ
deriving DecidableEq

/-- Embeds Python `round(x, 6)` (half-to-even) used by `normalize_mtime`. -/
def round6 (q : ℚ) : ℚ :=
  let x := q * 1000000
  let n : ℤ := ⌊x⌋
  let r : ℚ := x - n
  let k : ℤ :=
    if r > 1 / 2 then n + 1
    else if r < 1 / 2 then n
    else if n % 2 = 0 then n else n + 1
  (k : ℚ) / 1000000

/-- Embeds `normalize_mtime` (lines 239–245): `None` stays `None`, a
numeric value is rounded to six decimal places. -/
def normalize_mtime : Option ℚ → Option ℚ
  | none => none
  | some q => some (round6 q)

/-- Stable insertion for the `entries.sort(key=(dep_id, declared_output))`
calls: lexicographic on the (dependency id, declared output) pair. -/
def entryKeyLe (a b : SnapEntry) : Bool :=
  strLt a.dependency_work_item_id b.dependency_work_item_id ||
    (a.dependency_work_item_id == b.dependency_work_item_id &&
      strLe a.declared_output b.declared_output)

def insertEntry (x : SnapEntry) : List SnapEntry → List SnapEntry
  | [] => [x]
  | y :: ys => if entryKeyLe x y then x :: y :: ys else y :: insertEntry x ys

def sortEntries (l : List SnapEntry) : List SnapEntry :=
  l.foldr insertEntry []

/-- Embeds `normalize_snapshot_entries` (lines 151–236) on an already
parsed entry list: keep entries with a nonempty dependency id, sort by
(dependency id, declared output). -/
def normalize_snapshot_entries : Option (List SnapEntry) → List SnapEntry
  | none => []
  | some items => sortEntries (items.filter (fun e => e.dependency_work_item_id ≠ ""))

/-- The value `canonicalize` stores per key (lines 248–260). -/
structure CanonEntry where
  exists_flag : Bool
  sha256 : String
  mtime : Option ℚ
  size_bytes : Option ℤ
deriving DecidableEq

def canonKey (e : SnapEntry) : String :=
  e.dependency_work_item_id ++ "::" ++ e.declared_output

def canonVal (e : SnapEntry) : CanonEntry :=
  ⟨e.exists_flag, e.sha256, normalize_mtime e.mtime, e.size_bytes⟩

/-- Python dict insert: overwrite in place if the key exists, else append. -/
def upsert (k : String) (v : CanonEntry) :
    List (String × CanonEntry) → List (String × CanonEntry)
  | [] => [(k, v)]
  | (k0, v0) :: rest =>
    if k0 = k then (k0, v) :: rest else (k0, v0) :: upsert k v rest

/-- Embeds `canonicalize` (lines 248–260): a dict keyed by
`dep_id::declared_output` holding the comparable fields. -/
def canonicalize (entries : List SnapEntry) : List (String × CanonEntry) :=
  entries.foldl (fun m e => upsert (canonKey e) (canonVal e) m) []

def lookupCanon (m : List (String × CanonEntry)) (k : String) : CanonEntry :=
  (m.lookup k).getD ⟨false, "", none, none⟩

def pyBool (b : Bool) : String := if b then "True" else "False"

/-- One key of the comparison loop in `compare_snapshot` (lines 285–293):
`exists` flip, then hash, then mtime. -/
def entryVerdict (key : String) (c s : CanonEntry) : Option String :=
  if c.exists_flag ≠ s.exists_flag then
    some (key ++ " exists changed (" ++ pyBool s.exists_flag ++ " -> " ++ pyBool c.exists_flag ++ ")")
  else if c.sha256 ≠ s.sha256 then some (key ++ " hash changed")
  else if c.mtime ≠ s.mtime then some (key ++ " mtime changed")
  else none

/-- Embeds the `for key in current_keys:` loop of `compare_snapshot`. -/
def compareKeysLoop (current_map stored_map : List (String × CanonEntry)) :
    List String → Bool × String
  | [] => (true, "")
  | key :: rest =>
    match entryVerdict key (lookupCanon current_map key) (lookupCanon stored_map key) with
    | some reason => (false, reason)
    | none => compareKeysLoop current_map stored_map rest

/-- Embeds the key-set mismatch message of `compare_snapshot`
(lines 276–283). -/
def keysetReason (only_current only_stored : List String) : String :=
  let parts :=
    (if only_current ≠ [] then
        ["new inputs: " ++ String.intercalate ", " (only_current.take 3)] else []) ++
    (if only_stored ≠ [] then
        ["removed inputs: " ++ String.intercalate ", " (only_stored.take 3)] else [])
  if parts = [] then "input key set changed" else String.intercalate "; " parts

/-- Embeds `compare_snapshot` (lines 263–295). -/
def compare_snapshot (current_entries : List SnapEntry)
    (truth_snapshot_value : Option (List SnapEntry)) : Bool × String :=
  let stored_entries := normalize_snapshot_entries truth_snapshot_value
  if stored_entries = [] ∧ current_entries = [] then (true, "")
  else if stored_entries = [] then (false, "truth_input_snapshot has no comparable entries")
  else
    let current_map := canonicalize current_entries
    let stored_map := canonicalize stored_entries
    let current_keys := sortStr (current_map.map Prod.fst)
    let stored_keys := sortStr (stored_map.map Prod.fst)
    if current_keys ≠ stored_keys then
      let only_current := sortedDedup (current_keys.filter (fun k => !(stored_keys.contains k)))
      let only_stored := sortedDedup (stored_keys.filter (fun k => !(current_keys.contains k)))
      (false, keysetReason only_current only_stored)
    else
      compareKeysLoop current_map stored_map current_keys

/-- The staleness check as the claim words it: after the key-set
comparison, ANY `exists` flip (over all keys) fails first, otherwise ANY
hash mismatch, otherwise ANY mtime mismatch — a global precedence over
mismatch categories. -/
def compare_snapshot_claim (current_entries : List SnapEntry)
    (truth_snapshot_value : Option (List SnapEntry)) : Bool × String :=
  let stored_entries := normalize_snapshot_entries truth_snapshot_value
  if stored_entries = [] ∧ current_entries = [] then (true, "")
  else if stored_entries = [] then (false, "truth_input_snapshot has no comparable entries")
  else
    let current_map := canonicalize current_entries
    let stored_map := canonicalize stored_entries
    let current_keys := sortStr (current_map.map Prod.fst)
    let stored_keys := sortStr (stored_map.map Prod.fst)
    if current_keys ≠ stored_keys then
      let only_current := sortedDedup (current_keys.filter (fun k => !(stored_keys.contains k)))
      let only_stored := sortedDedup (stored_keys.filter (fun k => !(current_keys.contains k)))
      (false, keysetReason only_current only_stored)
    else
      match current_keys.find? (fun k =>
          decide ((lookupCanon current_map k).exists_flag ≠ (lookupCanon stored_map k).exists_flag)) with
      | some k =>
        (false, k ++ " exists changed (" ++ pyBool (lookupCanon stored_map k).exists_flag ++
          " -> " ++ pyBool (lookupCanon current_map k).exists_flag ++ ")")
      | none =>
        match current_keys.find? (fun k =>
            decide ((lookupCanon current_map k).sha256 ≠ (lookupCanon stored_map k).sha256)) with
        | some k => (false, k ++ " hash changed")
        | none =>
          match current_keys.find? (fun k =>
              decide ((lookupCanon current_map k).mtime ≠ (lookupCanon stored_map k).mtime)) with
          | some k => (false, k ++ " mtime changed")
          | none => (true, "")

/-- The staleness check with the amended (per-key) precedence: the first
key in ascending key order showing any difference decides the failure,
and within that single key `exists` flip beats hash mismatch beats mtime
mismatch. -/
def compare_snapshot_perkey (current_entries : List SnapEntry)
    (truth_snapshot_value : Option (List SnapEntry)) : Bool × String :=
  let stored_entries := normalize_snapshot_entries truth_snapshot_value
  if stored_entries = [] ∧ current_entries = [] then (true, "")
  else if stored_entries = [] then (false, "truth_input_snapshot has no comparable entries")
  else
    let current_map := canonicalize current_entries
    let stored_map := canonicalize stored_entries
    let current_keys := sortStr (current_map.map Prod.fst)
    let stored_keys := sortStr (stored_map.map Prod.fst)
    if current_keys ≠ stored_keys then
      let only_current := sortedDedup (current_keys.filter (fun k => !(stored_keys.contains k)))
      let only_stored := sortedDedup (stored_keys.filter (fun k => !(current_keys.contains k)))
      (false, keysetReason only_current only_stored)
    else
      match current_keys.findSome? (fun k =>
          entryVerdict k (lookupCanon current_map k) (lookupCanon stored_map k)) with
      | some reason => (false, reason)
      | none => (true, "")

/-! ### The invalidation scan (`main`, lines 316–419)

A job record carries the frontmatter fields the scan reads and writes;
its `truth_input_snapshot` is the already-parsed entry list (`none` for
a missing snapshot, matching the `in (None, "", [], \x7b\x7d)` skip).  The
disk is `fs dep_id output_rel`: `none` for a missing or non-regular
file, `some m` for a readable file with its hash and stat, keying the
path `dep.job_dir / output_rel` by the dependency id. -/

structure FileMeta where
  sha256 : String
  mtime : ℚ
  size_bytes : ℤ
deriving DecidableEq

structure JobRec where
  work_item_id : String
  status : String
  depends_on : List String
  outputs : List String
  truth_input_snapshot : Option (List SnapEntry)
  completed_at : String
  updated_at : String
  truth_last_status : String
  truth_last_checked_at : String
  truth_last_failures : List String
  progress_log : List String
deriving DecidableEq

def findRec (jobs : List JobRec) (wi : String) : Option JobRec :=
  jobs.find? (fun j => j.work_item_id == wi)

def depsOfRec (jobs : List JobRec) (wi : String) : List String :=
  match findRec jobs wi with
  | some j => j.depends_on
  | none => []

/-- `build_reverse_deps` (lines 82–92) as a function from a dependency id
to its sorted deduplicated reverse dependencies (`rev.get(cur, [])`
returns `[]` off the recorded keys, which this function reproduces). -/
def build_reverse_deps (jobs : List JobRec) (dep_id : String) : List String :=
  sortedDedup ((sortStr (jobs.map (·.work_item_id))).foldr (fun wi acc =>
    ((depsOfRec jobs wi).filterMap (fun dep =>
      let d := pyStrip dep
      if d = "" then none else if d = dep_id then some wi else none)) ++ acc) [])

/-- The BFS of `downstream_closure` (lines 95–107), fueled; the state is
(queue, seen, out) and `seen = start :: out` throughout. -/
def closureLoop (rd : String → List String) :
    ℕ → List String → List String → List String → List String
  | 0, _, _, out => out
  | fuel + 1, q, seen, out =>
    match q with
    | [] => out
    | cur :: rest =>
      let s := (rd cur).foldl
        (fun (a : List String × List String × List String) nxt =>
          if a.2.1.contains nxt then a
          else (a.1 ++ [nxt], a.2.1 ++ [nxt], a.2.2 ++ [nxt])) (rest, seen, out)
      closureLoop rd fuel s.1 s.2.1 s.2.2

def downstream_closure (start : String) (rd : String → List String) (fuel : ℕ) :
    List String :=
  sortStr (closureLoop rd fuel [start] [start] [])

/-- Reference reading of one BFS expansion: the first occurrences among
`ns` of ids not yet seen, in order. -/
def newOf (seen : List String) : List String → List String
  | [] => []
  | n :: ns => if seen.contains n then newOf seen ns else n :: newOf (seen ++ [n]) ns

/-- `make_current_input_entries` (lines 110–148) against the abstract
disk. -/
def make_current_input_entries (jobs : List JobRec)
    (fs : String → String → Option FileMeta) (wi : String) : List SnapEntry :=
  sortEntries ((sortedDedup (depsOfRec jobs wi)).foldr (fun dep_id acc =>
    (match findRec jobs dep_id with
     | none => []
     | some dep =>
       (normalize_str_list dep.outputs).map (fun output_rel =>
         match fs dep_id output_rel with
         | none => ⟨dep_id, output_rel, false, "", none, none⟩
         | some m => ⟨dep_id, output_rel, true, m.sha256, some m.mtime, some m.size_bytes⟩)) ++
    acc) [])

/-- The stale transition applied to a record (lines 370–381). -/
def markStale (ts reason : String) (j : JobRec) : JobRec :=
  { j with
    status := "blocked"
    completed_at := ""
    updated_at := ts
    truth_last_status := "fail"
    truth_last_checked_at := ts
    truth_last_failures := ["freshness_inputs: " ++ reason]
    progress_log := j.progress_log ++
      [ts ++ " invalidate_downstream: done -> blocked (stale truth_input_snapshot: " ++
        reason ++ ")"] }

/-- Rewriting one job record in the store (`write_md(rec.plan_path, doc)`). -/
def updateJob (jobs : List JobRec) (wi : String) (f : JobRec → JobRec) : List JobRec :=
  jobs.map (fun j => if j.work_item_id = wi then f j else j)

/-- One `wi` of the scan loop (lines 349–389), threading the job store
and the collected stale ids. -/
def scanStep (fs : String → String → Option FileMeta) (ts : String)
    (a : List JobRec × List String) (wi : String) : List JobRec × List String :=
  match findRec a.1 wi with
  | none => a
  | some rec =>
    if pyStrip (pyOr rec.status "planned") ≠ "done" then a
    else
      match rec.truth_input_snapshot with
      | none => a
      | some [] => a
      | some (e :: es) =>
        let r := compare_snapshot (make_current_input_entries a.1 fs wi) (some (e :: es))
        if r.1 then a
        else (updateJob a.1 wi (markStale ts r.2), a.2 ++ [wi])

def invalidate_scan (fs : String → String → Option FileMeta) (ts : String)
    (jobs : List JobRec) (scope : List String) : List JobRec × List String :=
  scope.foldl (scanStep fs ts) (jobs, [])

/-- `main` scoped to a trigger work item (lines 333–389); `none` models
the `SystemExit` on an unknown trigger. -/
def invalidate_main (fs : String → String → Option FileMeta) (ts : String)
    (jobs : List JobRec) (trigger : String) : Option (List JobRec × List String) :=
  if (findRec jobs trigger).isSome then
    some (invalidate_scan fs ts jobs
      (downstream_closure trigger (build_reverse_deps jobs) (jobs.length + 1)))
  else none

/-- The fields of a record the scan READS (identity, dependencies,
declared outputs, stored snapshot); `markStale` never changes them. -/
def skel (j : JobRec) : String × List String × List String × Option (List SnapEntry) :=
  (j.work_item_id, j.depends_on, j.outputs, j.truth_input_snapshot)

end Invalidate

/-! ## `job_complete.py`: the completion transaction

The job record's frontmatter becomes `JobFM` (only the fields this
script reads or writes); `Env` carries the two external observations the
gates make: each dependency's status (`none` when the glob does not match
exactly one job directory, `some raw` with the raw status field
otherwise, `""` standing for an absent field so that the `or "planned"`
default applies) and each declared path's file size (`none` when the
file is missing or not a regular file).  The `reward_eval.py` /
`truth_eval.py` / `input_snapshot.py` subprocesses that rewrite the
record between the dependency gate and the final gate re-evaluation are
abstracted as an arbitrary record transformer `evalStep`; timestamps
become one opaque `ts` string; the section-aware progress-log insertion
becomes appending the audit line to a log list. -/

namespace JobComplete

structure JobFM where
  status : String
  depends_on : List String
  reward_target : ℤ
  reward_last_score : ℤ
  reward_last_eval_at : String
  truth_last_status : String
  truth_last_failures : List String
  outputs : List String
  verification_evidence : List String
  started_at : String
  iteration : ℤ
  completed_at : String
  progress_log : List String
deriving DecidableEq

structure Env where
  dep_status : String → Option String
  file_size : String → Option ℤ

/-- Embeds `file_exists_nonempty` (lines 35–39). -/
def file_exists_nonempty (env : Env) (path : String) : Bool :=
  match env.file_size path with
  | some n => decide (0 < n)
  | none => false

/-- Embeds `dependency_gate_errors` (lines 63–74). -/
def dependency_gate_errors (env : Env) (fm : JobFM) : List String :=
  (normalize_str_list fm.depends_on).foldr (fun dep acc =>
    match env.dep_status dep with
    | none => ("dependency gate: required dependency " ++ dep ++ " missing") :: acc
    | some raw =>
      let dep_status := pyStrip (pyOr raw "planned")
      if dep_status ≠ "done" then
        ("dependency gate: " ++ dep ++ " status is " ++ dep_status ++ ", expected done") :: acc
      else acc) []

/-- Embeds `gating_errors` (lines 77–113), in the source's error order:
reward score, reward timestamp, truth status, truth failures, dependency
gate, declared outputs, verification evidence. -/
def gating_errors (env : Env) (fm : JobFM) : List String :=
  (if fm.reward_last_score < fm.reward_target then
      ["reward_last_score " ++ toString fm.reward_last_score ++
        " < reward_target " ++ toString fm.reward_target]
    else []) ++
  (if pyStrip fm.reward_last_eval_at = "" then ["reward_last_eval_at is empty"] else []) ++
  (if pyLower (pyStrip fm.truth_last_status) ≠ "pass" then
      ["truth_last_status is \x27" ++ pyLower (pyStrip fm.truth_last_status) ++
        "\x27, expected \x27pass\x27"]
    else []) ++
  (let tf := normalize_str_list fm.truth_last_failures
   if tf ≠ [] then ["truth failures present: " ++ String.intercalate "; " (tf.take 3)] else []) ++
  dependency_gate_errors env fm ++
  (fm.outputs.filter (fun o => !(file_exists_nonempty env o))).map
    (fun o => "missing/empty declared output " ++ o) ++
  (fm.verification_evidence.filter (fun e => !(file_exists_nonempty env e))).map
    (fun e => "missing/empty verification evidence " ++ e)

inductive CompleteResult where
  | agreement_failed
  | aborted_cancelled
  | dep_gate_failed (doc : JobFM) (errors : List String)
  | gate_failed (doc : JobFM) (errors : List String)
  | completed (doc : JobFM)
deriving DecidableEq

/-- The `started_at`/`iteration` bookkeeping write of `main`
(lines 222–233). -/
def bookkeep (ts : String) (doc0 : JobFM) : JobFM :=
  { doc0 with
    started_at := if pyStrip doc0.started_at = "" then ts else doc0.started_at,
    iteration := if doc0.iteration ≤ 0 then 1 else doc0.iteration }

/-- The record written when the early dependency gate fails
(lines 236–245): revert to `blocked`, clear `completed_at`, audit. -/
def dep_fail_doc (ts : String) (doc1 : JobFM) (dep_errors : List String) : JobFM :=
  { doc1 with
    status := "blocked", completed_at := "",
    progress_log := doc1.progress_log ++
      [ts ++ " job_complete: FAILED dependency gate; status=blocked; errors: " ++
        String.intercalate ", " (dep_errors.take 5)] }

/-- The attempt audit line written before the evaluators run
(lines 257–261). -/
def attempt_log (ts prev_status : String) (doc1 : JobFM) : JobFM :=
  { doc1 with
    progress_log := doc1.progress_log ++
      [ts ++ " job_complete: attempting completion (prev_status=" ++ prev_status ++ ")"] }

/-- The revert target when gates fail (line 272): `blocked` for
dependency-gate or snapshot-staleness failures, `in_progress` otherwise. -/
def fail_status_of (errors : List String) : String :=
  if errors.any (fun e => strStarts e "dependency gate" || strContains e "snapshot stale")
  then "blocked" else "in_progress"

/-- The record written when the gate re-evaluation fails (lines 269–280):
revert status (kept unchanged when the job was already `done`), clear
`completed_at`, audit. -/
def gate_fail_doc (ts prev_status : String) (doc3 : JobFM) (errors : List String) : JobFM :=
  { doc3 with
    status := if prev_status ≠ "done" then fail_status_of errors else prev_status,
    completed_at := "",
    progress_log := doc3.progress_log ++
      [ts ++ " job_complete: FAILED gate; reverting to " ++
        (if prev_status ≠ "done" then fail_status_of errors else prev_status) ++
        "; errors: " ++ String.intercalate ", " (errors.take 5)] }

/-- The record written when every gate passes (lines 286–292). -/
def complete_doc (ts : String) (doc3 : JobFM) : JobFM :=
  { doc3 with
    status := "done", completed_at := ts,
    progress_log := doc3.progress_log ++
      [ts ++ " job_complete: gate PASSED; status=done confirmed"] }

/-- Embeds the completion transaction of `main` (lines 204–292): the
agreement gate, the cancelled-job guard, the `started_at`/`iteration`
bookkeeping write, the early dependency gate (revert to `blocked`), the
external evaluators (`evalStep`), the gate re-evaluation, the revert on
failure, and the final `status=done` + `completed_at` write when every
gate passes. -/
def job_complete_txn (env : Env) (agreement_status : String) (ts : String)
    (doc0 : JobFM) (evalStep : JobFM → JobFM) : CompleteResult :=
  if pyStrip agreement_status ≠ "agreed" then .agreement_failed
  else if pyStrip (pyOr doc0.status "planned") = "cancelled" then .aborted_cancelled
  else
    let prev_status := pyStrip (pyOr doc0.status "planned")
    let doc1 := bookkeep ts doc0
    let dep_errors := dependency_gate_errors env doc1
    if dep_errors ≠ [] then .dep_gate_failed (dep_fail_doc ts doc1 dep_errors) dep_errors
    else
      let doc3 := evalStep (attempt_log ts prev_status doc1)
      let errors := gating_errors env doc3
      if errors ≠ [] then .gate_failed (gate_fail_doc ts prev_status doc3 errors) errors
      else .completed (complete_doc ts doc3)

end JobComplete

/-! ## `loop_job.py`: the bounded retry loop

The while-loop of `main` (lines 732–971) is embedded as a recursion over
a script of per-attempt observations: the two top-of-iteration
conditions (wall-time budget, cancellation marker), the external
runner's result (exit code and emitted promise), the combined gate
subprocess outcome (`run_gates`), the job record as `completion_ready`
re-reads it, the disk state its file checks see, and the exit code of
the `job_complete.py` invocation.  The loop's configuration (mode, cap,
target promise) arrives already resolved, as in the source at loop
entry.  `none` is returned when the modeled script is shorter than the
run; the artifact writes (`state.json`, summary, dashboards) are not
modeled. -/

namespace Loop

/-- Embeds `file_nonempty` from `loop_job.py` (lines 163–167), the same
existence/size check as `job_complete.file_exists_nonempty`. -/
def file_nonempty (env : JobComplete.Env) (path : String) : Bool :=
  match env.file_size path with
  | some n => decide (0 < n)
  | none => false

/-- Python `str.split()` on whitespace runs, dropping empty pieces. -/
def splitWSAux : List Char → List Char → List (List Char)
  | [], acc => if acc = [] then [] else [acc.reverse]
  | c :: cs, acc =>
    if pyIsSpace c then
      (if acc = [] then splitWSAux cs [] else acc.reverse :: splitWSAux cs [])
    else splitWSAux cs (c :: acc)

/-- Embeds `normalize_promise` (lines 94–95):
`" ".join((raw or "").strip().split())`. -/
def normalize_promise (raw : String) : String :=
  String.intercalate " " ((splitWSAux (pyStrip raw).data []).map (fun l => ⟨l⟩))

/-- Embeds `completion_ready` (lines 494–517). -/
def completion_ready (env : JobComplete.Env) (fm : JobComplete.JobFM)
    (require_promise : Bool) (target_promise last_promise : String) : Bool :=
  if fm.reward_last_score < fm.reward_target then false
  else if pyLower (pyStrip fm.truth_last_status) ≠ "pass" then false
  else
    let outputs := normalize_str_list fm.outputs
    let evidence := normalize_str_list fm.verification_evidence
    if outputs = [] || evidence = [] then false
    else if outputs.any (fun rel => !(file_nonempty env rel)) then false
    else if evidence.any (fun rel => !(file_nonempty env rel)) then false
    else if require_promise && target_promise ≠ "" then
      normalize_promise last_promise == normalize_promise target_promise
    else true

structure IterationResult where
  exit_code : ℤ
  last_promise : String
deriving DecidableEq

/-- The observations one loop iteration makes of its environment. -/
structure AttemptEnv where
  walltime_exceeded : Bool
  cancel_marker : Bool
  result : IterationResult
  gates_ok : Bool
  gate_stage : String
  fm : JobComplete.JobFM
  fsenv : JobComplete.Env
  job_complete_exit : ℤ

structure LoopOutcome where
  loop_status : String
  stop_reason : String
  final_code : ℤ
  loop_done : Bool
  last_attempt : ℤ
  wrote_done : Bool
  complete_exit : Option ℤ
deriving DecidableEq

/-- Embeds the `while True:` loop of `main` (lines 732–879): top-of-loop
wall-time / attempt-cap / cancel checks, one runner execution, immediate
`error` termination on a nonzero runner exit, gate re-evaluation,
completion-readiness evaluation, and the `job_complete.py` invocation
whose success alone writes `status="done"` (`wrote_done`). -/
def loop_run (require_promise : Bool) (completion_promise : String) (max_loops : ℤ) :
    ℤ → ℤ → List AttemptEnv → Option LoopOutcome
  | _attempt, _last_attempt, [] => none
  | attempt, last_attempt, e :: rest =>
    if e.walltime_exceeded then
      some ⟨"blocked", "timeout", 0, false, last_attempt, false, none⟩
    else if max_loops > 0 ∧ attempt > max_loops then
      some ⟨"blocked", "max_iterations", 0, false, last_attempt, false, none⟩
    else if e.cancel_marker then
      some ⟨"stopped", "cancel", 0, false, last_attempt, false, none⟩
    else
      if e.result.exit_code ≠ 0 then
        some ⟨"error", "exit_code_" ++ toString e.result.exit_code, e.result.exit_code,
          false, attempt, false, none⟩
      else if !e.gates_ok then
        loop_run require_promise completion_promise max_loops (attempt + 1) attempt rest
      else if completion_ready e.fsenv e.fm require_promise completion_promise
          e.result.last_promise then
        if e.job_complete_exit = 0 then
          some ⟨"completed",
            (if require_promise && e.result.last_promise ≠ "" then "promise_detected"
              else "completed"),
            0, true, attempt, true, some 0⟩
        else
          some ⟨"error", "job_complete_failed", e.job_complete_exit, false, attempt,
            false, some e.job_complete_exit⟩
      else
        loop_run require_promise completion_promise max_loops (attempt + 1) attempt rest

/-- Embeds the terminal exit-code mapping of `main` (lines 954–971):
return 0 when the loop completed, `SystemExit(1)` for `blocked`, the
(`or 1`-guarded) final code for `error`, `SystemExit(1)` otherwise. -/
def process_exit (out : LoopOutcome) : ℤ :=
  if out.loop_done then 0
  else if out.loop_status = "blocked" then 1
  else if out.loop_status = "error" then (if out.final_code = 0 then 1 else out.final_code)
  else 1

end Loop

/-! ## `orchestrate_plan.py`: critical path and execution waves

Jobs arrive as scanned by `scan_jobs` (work item id, stripped status,
positive rational `estimate_hours`, `normalize_str_list`-normalized
`depends_on`); Python dicts keyed by id become first-match lookup over
the job list plus update functions `String → _`. -/

namespace Orchestrate

structure JobNode where
  work_item_id : String
  status : String
  estimate_hours : ℚ
  depends_on : List String
deriving DecidableEq

/-- `RUNNABLE_STATUSES` (line 14). -/
def RUNNABLE_STATUSES : List String := ["blocked", "in_progress", "planned"]

def findJob (jobs : List JobNode) (wi : String) : Option JobNode :=
  jobs.find? (fun j => j.work_item_id == wi)

/-- `node_ids = sorted(jobs.keys())` (line 163). -/
def node_ids (jobs : List JobNode) : List String :=
  sortStr (jobs.map (·.work_item_id))

/-- `active_ids` (line 176): ids of jobs whose status is runnable, in
sorted order. -/
def active_ids (jobs : List JobNode) : List String :=
  (node_ids jobs).filter (fun wi =>
    match findJob jobs wi with
    | some j => RUNNABLE_STATUSES.contains j.status
    | none => false)

/-- The indegree / adjacency / blocked-reason accumulator of the loop at
lines 179–200. -/
structure DepAnalysis where
  indeg : String → ℤ
  adj : String → List String
  missing : String → List String
  not_done : String → List String

/-- One `dep` iteration of the loop at lines 186–200. -/
def analyzeStep (jobs : List JobNode) (active_set : List String) (wi : String)
    (st : DepAnalysis) (dep : String) : DepAnalysis :=
  let dep_id := pyStrip dep
  if dep_id = "" then st
  else
    match findJob jobs dep_id with
    | none =>
      { st with missing := fun w => if w = wi then st.missing wi ++ [dep_id] else st.missing w }
    | some dep_node =>
      if dep_node.status = "done" then st
      else if active_set.contains dep_id then
        { st with
          indeg := fun w => if w = wi then st.indeg wi + 1 else st.indeg w,
          adj := fun d => if d = dep_id then st.adj dep_id ++ [wi] else st.adj d }
      else
        { st with
          not_done := fun w => if w = wi then st.not_done wi ++ [dep_id] else st.not_done w }

/-- The inner `for dep in jobs[wi].depends_on:` loop (lines 186–200) for
one active job. -/
def analyzeJob (jobs : List JobNode) (active_set : List String)
    (st : DepAnalysis) (wi : String) : DepAnalysis :=
  match findJob jobs wi with
  | some j => j.depends_on.foldl (analyzeStep jobs active_set wi) st
  | none => st

/-- Embeds the loop at lines 185–200 over all active jobs. -/
def analyze (jobs : List JobNode) : DepAnalysis :=
  (active_ids jobs).foldl (analyzeJob jobs (active_ids jobs))
    ⟨fun _ => 0, fun _ => [], fun _ => [], fun _ => []⟩

/-- The `depends_on` list of a job id (empty when the id is unknown). -/
def depsOf (jobs : List JobNode) (wi : String) : List String :=
  match findJob jobs wi with
  | some j => j.depends_on
  | none => []

/-- Reference reading of the loop at lines 186–200, per job: the
dependency occurrences that create in-edges (resolvable, not `done`, in
the active set), in order. -/
def activeDepOcc (jobs : List JobNode) (active_set : List String)
    (deps : List String) : List String :=
  deps.filterMap (fun dep =>
    let dep_id := pyStrip dep
    if dep_id = "" then none
    else match findJob jobs dep_id with
      | none => none
      | some dn =>
        if dn.status = "done" then none
        else if active_set.contains dep_id then some dep_id else none)

/-- Reference reading: the dependency ids recorded under
`missing_dependencies`, in order. -/
def missingDepList (jobs : List JobNode) (deps : List String) : List String :=
  deps.filterMap (fun dep =>
    let dep_id := pyStrip dep
    if dep_id = "" then none
    else match findJob jobs dep_id with
      | none => some dep_id
      | some _ => none)

/-- Reference reading: the dependency ids recorded under
`not_done_dependencies` (resolvable, not `done`, outside the active
set), in order. -/
def notDoneDepList (jobs : List JobNode) (active_set : List String)
    (deps : List String) : List String :=
  deps.filterMap (fun dep =>
    let dep_id := pyStrip dep
    if dep_id = "" then none
    else match findJob jobs dep_id with
      | none => none
      | some dn =>
        if dn.status = "done" then none
        else if active_set.contains dep_id then none else some dep_id)

/-- The blocked-reason check reused at lines 211–215 and 229–230: no
missing and no not-done dependencies recorded. -/
def blockedOk (st : DepAnalysis) (wi : String) : Bool :=
  decide (st.missing wi = []) && decide (st.not_done wi = [])

/-- The initial ready set (lines 208–216). -/
def initial_frontier (jobs : List JobNode) : List String :=
  (active_ids jobs).filter (fun wi =>
    decide ((analyze jobs).indeg wi = 0) && blockedOk (analyze jobs) wi)

/-- Scheduling one wave member `wi` (lines 224–231): add it to
`scheduled`, decrement each child of `sorted(set(adj[wi]))`, and append
children that reach indegree zero and have no blockers. -/
def waveNode (adjS : String → List String) (ok : String → Bool)
    (acc : (String → ℤ) × List String × List String) (wi : String) :
    (String → ℤ) × List String × List String :=
  let c := (adjS wi).foldl (fun (a : (String → ℤ) × List String) child =>
      let ind2 := fun w => if w = child then a.1 child - 1 else a.1 w
      if ind2 child = 0 ∧ ok child = true then (ind2, a.2 ++ [child])
      else (ind2, a.2)) (acc.1, acc.2.1)
  (c.1, c.2, acc.2.2 ++ [wi])

/-- The `while frontier:` wave loop (lines 220–232), fueled; state is
(frontier, waves so far, scheduled so far, indegrees). -/
def waveLoop (adjS : String → List String) (ok : String → Bool) (limit : ℕ) :
    ℕ → List String → List (List String) → List String → (String → ℤ) →
    List (List String) × List String
  | 0, _, waves, scheduled, _ => (waves, scheduled)
  | fuel + 1, frontier, waves, scheduled, indeg =>
    match frontier with
    | [] => (waves, scheduled)
    | _ :: _ =>
      let current_wave := frontier.take limit
      let rest := frontier.drop limit
      let r := current_wave.foldl (waveNode adjS ok) (indeg, rest, scheduled)
      waveLoop adjS ok limit fuel (sortedDedup r.2.1) (waves ++ [current_wave]) r.2.2 r.1

/-- Embeds the wave computation of `main` (lines 176–232), returning the
wave list and the scheduled ids in scheduling order. -/
def schedule (jobs : List JobNode) (limit : ℕ) : List (List String) × List String :=
  let st := analyze jobs
  waveLoop (fun d => sortedDedup (st.adj d)) (blockedOk st) limit
    ((active_ids jobs).length + 1) (initial_frontier jobs) [] [] st.indeg

/-- The dependency occurrences of one job that the wave scheduler must
see satisfied (nonempty, resolvable, not `done`, active). -/
def occOf (jobs : List JobNode) (w : String) : List String :=
  activeDepOcc jobs (active_ids jobs) (depsOf jobs w)

/-- Invariant of the wave loop: frontier and scheduled ids are active
and mutually distinct, every one of them has indegree zero with all its
active dependency occurrences already scheduled, and every active id's
indegree equals its occurrence count minus its distinct scheduled
dependencies. -/
def WaveInv (jobs : List JobNode) (frontier scheduled : List String)
    (indeg : String → ℤ) : Prop :=
  (∀ w ∈ frontier, w ∈ active_ids jobs) ∧
  (∀ w ∈ scheduled, w ∈ active_ids jobs) ∧
  (frontier ++ scheduled).Nodup ∧
  (∀ w ∈ frontier ++ scheduled, indeg w = 0 ∧ ∀ d ∈ occOf jobs w, d ∈ scheduled) ∧
  (∀ c ∈ active_ids jobs, indeg c = ((occOf jobs c).length : ℤ) -
    (((occOf jobs c).dedup.filter (fun d => decide (d ∈ scheduled))).length : ℤ))

/-- A wave list is topologically ordered: every member's active
dependency occurrences appear in strictly earlier waves. -/
def GoodWaves (jobs : List JobNode) (ws : List (List String)) : Prop :=
  ∀ (k : ℕ) (wi : String), k < ws.length → wi ∈ ws.getD k [] →
    ∀ d ∈ occOf jobs wi, ∃ k2, k2 < k ∧ d ∈ ws.getD k2 []

/-- The deduplicated sorted adjacency passed to the wave loop by
`schedule` (lines 202–203). -/
def waveAdj (jobs : List JobNode) : String → List String :=
  fun d => sortedDedup ((analyze jobs).adj d)

/-- The children appended to the frontier when `w` is scheduled at
indegrees `indeg` (lines 226–231). -/
def newKids (jobs : List JobNode) (indeg : String → ℤ) (w : String) : List String :=
  (waveAdj jobs w).filter (fun c => decide (indeg c - 1 = 0) && blockedOk (analyze jobs) c)

/-! ### Whole-graph critical path (lines 70–126) -/

/-- Pair order for `sorted(set(edges))` on (from, to) string pairs. -/
def pairLe (a b : String × String) : Bool :=
  strLt a.1 b.1 || (a.1 == b.1 && strLe a.2 b.2)

def insertPair (x : String × String) : List (String × String) → List (String × String)
  | [] => [x]
  | y :: ys => if pairLe x y then x :: y :: ys else y :: insertPair x ys

def sortPairs (l : List (String × String)) : List (String × String) :=
  l.foldr insertPair []

/-- `all_edges = sorted(set(...))` (lines 166–172): one (dep, wi) edge
per resolvable dependency reference, deduplicated and sorted. -/
def all_edges (jobs : List JobNode) : List (String × String) :=
  sortPairs (((node_ids jobs).foldr (fun wi acc =>
    (match findJob jobs wi with
      | some j => j.depends_on.foldr (fun dep acc2 =>
          let dep_id := pyStrip dep
          if (findJob jobs dep_id).isSome then (dep_id, wi) :: acc2 else acc2) []
      | none => []) ++ acc) []).dedup)

structure CPState where
  indeg : String → ℤ
  adj : String → List String
  preds : String → List String

/-- The edge pass of `critical_path` (lines 75–83): skip edges whose
endpoints are not nodes, accumulate indegree, adjacency and
predecessors. -/
def cpBuild (nodeIds : List String) (edges : List (String × String)) : CPState :=
  edges.foldl (fun st e =>
    if nodeIds.contains e.1 && nodeIds.contains e.2 then
      { indeg := fun w => if w = e.2 then st.indeg e.2 + 1 else st.indeg w,
        adj := fun w => if w = e.1 then st.adj e.1 ++ [e.2] else st.adj w,
        preds := fun w => if w = e.2 then st.preds e.2 ++ [e.1] else st.preds w }
    else st) ⟨fun _ => 0, fun _ => [], fun _ => []⟩

/-- The Kahn loop of `critical_path` (lines 85–94), fueled. -/
def kahnLoop (adjS : String → List String) :
    ℕ → List String → (String → ℤ) → List String → List String
  | 0, _, _, topo => topo
  | fuel + 1, frontier, indeg, topo =>
    match frontier with
    | [] => topo
    | cur :: rest =>
      let r := (sortStr (adjS cur)).foldl (fun (a : (String → ℤ) × List String) child =>
          let ind2 := fun w => if w = child then a.1 child - 1 else a.1 w
          if ind2 child = 0 then (ind2, a.2 ++ [child]) else (ind2, a.2)) (indeg, rest)
      kahnLoop adjS fuel (sortStr r.2) r.1 (topo ++ [cur])

/-- The longest-distance pass of `critical_path` (lines 99–113): in
topological order, `dist[n] = weights[n] + max(dist[p])` over already
scored predecessors, strictly-greater comparisons keeping the
first-seen maximal predecessor; returns the insertion-ordered `dist`
and `parent` association lists. -/
def distFold (preds : String → List String) (weights : String → ℚ) (topo : List String) :
    List (String × ℚ) × List (String × Option String) :=
  topo.foldl (fun (acc : List (String × ℚ) × List (String × Option String)) node =>
    let node_weight := weights node
    let r := (preds node).foldl (fun (b : ℚ × Option String) pred =>
        match acc.1.lookup pred with
        | none => b
        | some dp => if dp + node_weight > b.1 then (dp + node_weight, some pred) else b)
      (node_weight, none)
    (acc.1 ++ [(node, r.1)], acc.2 ++ [(node, r.2)])) ([], [])

/-- Python `max(dist.keys(), key=lambda wi: dist[wi])`: the first
maximal entry in insertion order. -/
def firstArgmax (dist : List (String × ℚ)) : Option (String × ℚ) :=
  dist.foldl (fun best e =>
    match best with
    | none => some e
    | some b => if e.2 > b.2 then some e else some b) none

/-- The parent-pointer walk of `critical_path` (lines 120–124), fueled;
`while cur:` stops on a missing parent entry, a `None` parent, or an
empty id. -/
def parentChain (parent : List (String × Option String)) : ℕ → String → List String
  | 0, _ => []
  | fuel + 1, cur =>
    if cur = "" then []
    else cur :: (match parent.lookup cur with
      | some (some p) => parentChain parent fuel p
      | _ => [])

/-- A directed path along predecessor edges, ending at its last node:
`PredPath preds l n` says `l` is nonempty, ends in `n`, and every
consecutive pair steps along an edge (`p ∈ preds n`). -/
inductive PredPath (preds : String → List String) : List String → String → Prop
  | single (n : String) : PredPath preds [n] n
  | snoc {l : List String} {p n : String} :
      PredPath preds l p → p ∈ preds n → PredPath preds (l ++ [n]) n

/-- A node list is topologically ordered for `preds`: every predecessor
of a member appears strictly before it. -/
def TopoOrdered (preds : String → List String) (topo : List String) : Prop :=
  ∀ pre n post, topo = pre ++ n :: post → ∀ p ∈ preds n, p ∈ pre

/-- Invariant of the Kahn loop (lines 85–94): frontier and emitted order
are nodes and mutually distinct, every one of them has indegree zero
with all its predecessors already emitted, and every node's indegree
counts its not-yet-emitted predecessors. -/
def KahnInv (nodeIds : List String) (preds : String → List String)
    (frontier topo : List String) (indeg : String → ℤ) : Prop :=
  (∀ x ∈ frontier, x ∈ nodeIds) ∧
  (∀ x ∈ topo, x ∈ nodeIds) ∧
  (frontier ++ topo).Nodup ∧
  (∀ x ∈ frontier ++ topo, indeg x = 0 ∧ ∀ p ∈ preds x, p ∈ topo) ∧
  (∀ c ∈ nodeIds, indeg c = ((preds c).length : ℤ) -
    (((preds c).filter (fun p => decide (p ∈ topo))).length : ℤ)) ∧
  (∀ c ∈ nodeIds, indeg c = 0 → c ∈ frontier ++ topo)

/-- `a` occurs strictly before `b` in the list `topo`. -/
def Before (topo : List String) (a b : String) : Prop :=
  ∃ pre post, topo = pre ++ b :: post ∧ a ∈ pre

/-- The inner candidate fold of the distance pass (lines 103–109): the
best (distance, parent) pair over the already scored predecessors,
starting from the node's own weight with no parent. -/
def bestPred (D : List (String × ℚ)) (w : String → ℚ) (n : String)
    (ps : List String) : ℚ × Option String :=
  ps.foldl (fun (b : ℚ × Option String) pred =>
    match D.lookup pred with
    | none => b
    | some dp => if dp + w n > b.1 then (dp + w n, some pred) else b) (w n, none)

/-- One node of the longest-distance pass (lines 100–112), phrased with
`bestPred`; definitionally equal to the `distFold` step. -/
def distStep (preds : String → List String) (weights : String → ℚ)
    (acc : List (String × ℚ) × List (String × Option String)) (node : String) :
    List (String × ℚ) × List (String × Option String) :=
  (acc.1 ++ [(node, (bestPred acc.1 weights node (preds node)).1)],
   acc.2 ++ [(node, (bestPred acc.1 weights node (preds node)).2)])

/-- Embeds `critical_path` (lines 70–126): Kahn topological sort over
the whole graph; on an incomplete order (cycle) report unavailable
(empty path, zero hours, `available=False`); otherwise compute the
weighted longest path and walk parent pointers back from the
first-encountered node of greatest distance. -/
def critical_path (nodeIds : List String) (edges : List (String × String))
    (weights : String → ℚ) : List String × ℚ × Bool :=
  let st := cpBuild nodeIds edges
  let frontier0 := sortStr (nodeIds.filter (fun n => decide (st.indeg n = 0)))
  let topo := kahnLoop st.adj (nodeIds.length + edges.length + 1) frontier0 st.indeg []
  if topo.length ≠ nodeIds.length then ([], 0, false)
  else
    let d := distFold st.preds weights topo
    match firstArgmax d.1 with
    | none => ([], 0, true)
    | some e => ((parentChain d.2 (d.1.length + 1) e.1).reverse, e.2, true)

/-- The topological order produced by the Kahn phase of `critical_path`
(lines 85–94), named for use in statements. -/
def kahnTopo (nodeIds : List String) (edges : List (String × String)) : List String :=
  let st := cpBuild nodeIds edges
  kahnLoop st.adj (nodeIds.length + edges.length + 1)
    (sortStr (nodeIds.filter (fun n => decide (st.indeg n = 0)))) st.indeg []

/-- The `dist` association list computed by `critical_path` (lines 99–113). -/
def distD (nodeIds : List String) (edges : List (String × String))
    (weights : String → ℚ) : List (String × ℚ) :=
  (distFold (cpBuild nodeIds edges).preds weights (kahnTopo nodeIds edges)).1

/-- The `parent` association list computed by `critical_path` (lines 99–113). -/
def distP (nodeIds : List String) (edges : List (String × String))
    (weights : String → ℚ) : List (String × Option String) :=
  (distFold (cpBuild nodeIds edges).preds weights (kahnTopo nodeIds edges)).2

/-- The `dist` map read as a total function (`0` for unscored nodes). -/
def dval (nodeIds : List String) (edges : List (String × String))
    (weights : String → ℚ) (n : String) : ℚ :=
  ((distD nodeIds edges weights).lookup n).getD 0

end Orchestrate

namespace DependencyGraph

/-- Embeds `critical_path` from `scripts/dependency_graph.py`
(lines 143–179): the same longest-path pass, but over a caller-supplied
topological order, with predecessors read off the raw edge list and an
empty order returning `([], 0)`. -/
def critical_path (topo_order : List String) (edges : List (String × String))
    (weights : String → ℚ) : List String × ℚ :=
  if topo_order = [] then ([], 0)
  else
    let preds := fun d => ((edges.filter (fun e => e.2 = d)).map (fun e => e.1))
    let d := Orchestrate.distFold preds weights topo_order
    match Orchestrate.firstArgmax d.1 with
    | none => ([], 0)
    | some e => ((Orchestrate.parentChain d.2 (d.1.length + 1) e.1).reverse, e.2)

end DependencyGraph

/-! ## Concrete fixtures used by witnesses and counterexamples -/

/-- The four-job wave-scheduling example: A(1h), B(1h, depends A),
C(3h, depends A), D(1h, depends B and C), all `planned`. -/
def abcdJobs : List Orchestrate.JobNode :=
  [⟨"WI-A", "planned", 1, []⟩,
   ⟨"WI-B", "planned", 1, ["WI-A"]⟩,
   ⟨"WI-C", "planned", 3, ["WI-A"]⟩,
   ⟨"WI-D", "planned", 1, ["WI-B", "WI-C"]⟩]

/-- The `weights` dict of `orchestrate_plan.main` for `abcdJobs`
(estimate hours per id, defaulting to 1). -/
def abcdWeights : String → ℚ :=
  fun wi => ((Orchestrate.findJob abcdJobs wi).map (·.estimate_hours)).getD 1

/-- Two jobs where the dependency is present but `cancelled`. -/
def c6jobs : List Orchestrate.JobNode :=
  [⟨"WI-P", "cancelled", 1, []⟩, ⟨"WI-Q", "planned", 1, ["WI-P"]⟩]

/-- Two jobs where the dependency is `done`. -/
def c6okJobs : List Orchestrate.JobNode :=
  [⟨"WI-A", "done", 1, []⟩, ⟨"WI-B", "planned", 1, ["WI-A"]⟩]

/-- An environment with no resolvable dependencies and no files. -/
def c7env : JobComplete.Env := ⟨fun _ => none, fun _ => none⟩

/-- An already-`done` job whose truth gate now fails. -/
def c7doc : JobComplete.JobFM :=
  { status := "done", depends_on := [], reward_target := 0, reward_last_score := 0,
    reward_last_eval_at := "t", truth_last_status := "fail", truth_last_failures := [],
    outputs := [], verification_evidence := [], started_at := "s", iteration := 1,
    completed_at := "c", progress_log := [] }

/-- The record `job_complete_txn` leaves behind for `c7doc`. -/
def c7out : JobComplete.JobFM :=
  { c7doc with
    status := "done", completed_at := "",
    progress_log :=
      ["T job_complete: attempting completion (prev_status=done)",
       "T job_complete: FAILED gate; reverting to done; errors: truth_last_status is \x27fail\x27, expected \x27pass\x27"] }

def c7errs : List String :=
  ["truth_last_status is \x27fail\x27, expected \x27pass\x27"]

/-- An environment where every declared path is a 5-byte file. -/
def c1env : JobComplete.Env := ⟨fun _ => none, fun _ => some 5⟩

/-- A job whose gates all pass. -/
def c1doc : JobComplete.JobFM :=
  { status := "in_progress", depends_on := [], reward_target := 0, reward_last_score := 0,
    reward_last_eval_at := "t", truth_last_status := "pass", truth_last_failures := [],
    outputs := ["o.txt"], verification_evidence := ["e.txt"], started_at := "s",
    iteration := 1, completed_at := "", progress_log := [] }

/-- The record `job_complete_txn` leaves behind for `c1doc`. -/
def c1done : JobComplete.JobFM :=
  { c1doc with
    status := "done", completed_at := "T",
    progress_log :=
      ["T job_complete: attempting completion (prev_status=in_progress)",
       "T job_complete: gate PASSED; status=done confirmed"] }

/-- A job record satisfying `completion_ready` against `c1env`. -/
def c8fm : JobComplete.JobFM :=
  { status := "in_progress", depends_on := [], reward_target := 0, reward_last_score := 0,
    reward_last_eval_at := "t", truth_last_status := "pass", truth_last_failures := [],
    outputs := ["o.txt"], verification_evidence := ["e.txt"], started_at := "s",
    iteration := 1, completed_at := "", progress_log := [] }

/-- A loop attempt whose runner exits 0 with a matching promise, whose
gates pass, and whose `job_complete.py` invocation exits 3. -/
def c8att : Loop.AttemptEnv :=
  { walltime_exceeded := false, cancel_marker := false,
    result := ⟨0, "WI-DONE"⟩, gates_ok := true, gate_stage := "",
    fm := c8fm, fsenv := c1env, job_complete_exit := 3 }

/-- The snapshot entry `WI-C` stored when it completed: `WI-U`'s declared
output `out.txt` existed with hash `h1`. -/
def c3snapEntry : Invalidate.SnapEntry :=
  ⟨"WI-U", "out.txt", true, "h1", some 10, some 5⟩

/-- The upstream job: `done`, declaring output `out.txt`. -/
def c3jobU : Invalidate.JobRec :=
  { work_item_id := "WI-U", status := "done", depends_on := [], outputs := ["out.txt"],
    truth_input_snapshot := none, completed_at := "t0", updated_at := "t0",
    truth_last_status := "pass", truth_last_checked_at := "t0",
    truth_last_failures := [], progress_log := [] }

/-- The downstream consumer: `done`, depending on `WI-U`, with the
stored snapshot `c3snapEntry`. -/
def c3jobC : Invalidate.JobRec :=
  { work_item_id := "WI-C", status := "done", depends_on := ["WI-U"], outputs := [],
    truth_input_snapshot := some [c3snapEntry], completed_at := "t1", updated_at := "t1",
    truth_last_status := "pass", truth_last_checked_at := "t1",
    truth_last_failures := [], progress_log := [] }

def c3jobs : List Invalidate.JobRec := [c3jobU, c3jobC]

/-- The disk after mutating `WI-U`'s output: `out.txt` still exists with
the same stat but its content hash is now `h2` ≠ `h1`. -/
def c3fs : String → String → Option Invalidate.FileMeta :=
  fun dep out => if dep = "WI-U" ∧ out = "out.txt" then some ⟨"h2", 10, 5⟩ else none

/-- The invalidation run scoped to `WI-U` over the mutated disk. -/
def c3res : List Invalidate.JobRec × List String :=
  Invalidate.invalidate_scan c3fs "T" c3jobs
    (Invalidate.downstream_closure "WI-U" (Invalidate.build_reverse_deps c3jobs)
      (c3jobs.length + 1))

/-! # Theorems -/

theorem mem_insertStr {x a : String} {l : List String} :
    a ∈ insertStr x l ↔ a = x ∨ a ∈ l := by
  induction l with
  | nil => simp [insertStr]
  | cons y ys ih =>
    by_cases h : strLe x y = true
    · simp [insertStr, h]
    · simp [insertStr, h, ih]
      tauto

theorem insertStr_perm (x : String) (l : List String) :
    (insertStr x l).Perm (x :: l) := by
  induction l with
  | nil => simp [insertStr]
  | cons y ys ih =>
    by_cases h : strLe x y = true
    · simp [insertStr, h]
    · simp only [insertStr, if_neg h]
      exact (ih.cons y).trans (List.Perm.swap x y ys)

theorem sortStr_perm (l : List String) : (sortStr l).Perm l := by
  induction l with
  | nil => simp [sortStr]
  | cons y ys ih =>
    exact (insertStr_perm y (sortStr ys)).trans (ih.cons y)

theorem mem_sortStr {a : String} {l : List String} : a ∈ sortStr l ↔ a ∈ l :=
  (sortStr_perm l).mem_iff

theorem sortStr_nodup {l : List String} (h : l.Nodup) : (sortStr l).Nodup :=
  (sortStr_perm l).nodup_iff.mpr h

theorem mem_sortedDedup {a : String} {l : List String} :
    a ∈ sortedDedup l ↔ a ∈ l := by
  simp [sortedDedup, mem_sortStr]

theorem sortedDedup_nodup (l : List String) : (sortedDedup l).Nodup :=
  sortStr_nodup l.nodup_dedup


theorem rollup_any_congr {l1 l2 : List String} (h : l1.Perm l2) (p : String → Bool) :
    l1.any p = l2.any p := by
  apply Bool.eq_iff_iff.mpr
  simp only [List.any_eq_true]
  constructor
  · rintro ⟨x, hx, hpx⟩
    exact ⟨x, h.mem_iff.mp hx, hpx⟩
  · rintro ⟨x, hx, hpx⟩
    exact ⟨x, h.mem_iff.mpr hx, hpx⟩

theorem rollup_all_congr {l1 l2 : List String} (h : l1.Perm l2) (p : String → Bool) :
    l1.all p = l2.all p := by
  apply Bool.eq_iff_iff.mpr
  simp only [List.all_eq_true]
  constructor
  · intro hall x hx
    exact hall x (h.mem_iff.mpr hx)
  · intro hall x hx
    exact hall x (h.mem_iff.mp hx)

/-- C10 counterexample: on the empty child multiset the code returns
`planned` while the claimed rule ("done if all children are done or
cancelled", vacuously true over no children) returns `done`. -/
theorem C10_rollup_empty_counterexample :
    PlanSync.rollup_status [] = "planned" ∧ rollupStatusSpec [] = "done" ∧
      PlanSync.rollup_status [] ≠ rollupStatusSpec [] := by
  refine ⟨by decide, by decide, by decide⟩

/-- C10 (amended): a parent's rolled-up status is a pure function of the
child-status multiset, computed identically by `plan_sync.rollup_status`
and `plan_check.rollup_status`: `in_progress` if any child is
`in_progress`; else `blocked` if any child is `blocked`; else, for a
NONEMPTY multiset, `done` if all children are `done` or `cancelled`; else
`planned` — and the empty multiset rolls up to `planned`, not `done`. -/
theorem C10_rollup_status_pure_function :
    (∀ states, PlanCheck.rollup_status states = PlanSync.rollup_status states) ∧
    (∀ l1 l2 : List String, l1.Perm l2 →
      PlanSync.rollup_status l1 = PlanSync.rollup_status l2) ∧
    (∀ states, states ≠ [] → PlanSync.rollup_status states = rollupStatusSpec states) ∧
    PlanSync.rollup_status [] = "planned" := by
  refine ⟨fun states => rfl, ?_, ?_, by decide⟩
  · intro l1 l2 h
    unfold PlanSync.rollup_status
    rw [rollup_any_congr h, rollup_any_congr h, rollup_all_congr h,
      show l1.isEmpty = l2.isEmpty by
        cases l1 with
        | nil => rw [h.symm.eq_nil]
        | cons a t =>
          cases l2 with
          | nil => exact absurd h.eq_nil (by simp)
          | cons b t2 => rfl]
  · intro states hne
    unfold PlanSync.rollup_status rollupStatusSpec
    have : states.isEmpty = false := by
      cases states with
      | nil => exact absurd rfl hne
      | cons a t => rfl
    rw [this]
    simp

/-- C10 witness: the amended rollup rule evaluated on a concrete
nonempty multiset, and invariance under a concrete permutation. -/
theorem C10_rollup_witness :
    PlanSync.rollup_status ["done", "cancelled", "done"] =
        rollupStatusSpec ["done", "cancelled", "done"] ∧
      PlanSync.rollup_status ["blocked", "planned"] =
        PlanSync.rollup_status ["planned", "blocked"] :=
  ⟨C10_rollup_status_pure_function.2.2.1 _ (by decide),
    C10_rollup_status_pure_function.2.1 _ _ (by decide)⟩


theorem Invalidate.compareKeysLoop_eq_findSome (cm sm : List (String × Invalidate.CanonEntry)) (keys : List String) :
    Invalidate.compareKeysLoop cm sm keys =
      match keys.findSome? (fun k => Invalidate.entryVerdict k (Invalidate.lookupCanon cm k) (Invalidate.lookupCanon sm k)) with
      | some reason => (false, reason)
      | none => (true, "") := by
  induction keys with
  | nil => rfl
  | cons k rest ih =>
    simp only [Invalidate.compareKeysLoop, List.findSome?]
    cases Invalidate.entryVerdict k (Invalidate.lookupCanon cm k) (Invalidate.lookupCanon sm k) with
    | some r => rfl
    | none => exact ih


/-- C4 counterexample: with keys `a::x` (hash mismatch only) and `b::y`
(`exists` flip only), the code reports the hash mismatch of the smaller
key, while the claimed global precedence would report the `exists` flip;
so the claimed check differs from the implemented one at this input. -/
theorem C4_global_precedence_counterexample :
    Invalidate.compare_snapshot
        [⟨"a", "x", true, "h2", none, none⟩, ⟨"b", "y", false, "", none, none⟩]
        (some [⟨"a", "x", true, "h1", none, none⟩, ⟨"b", "y", true, "h3", none, none⟩]) =
      (false, "a::x hash changed") ∧
    Invalidate.compare_snapshot_claim
        [⟨"a", "x", true, "h2", none, none⟩, ⟨"b", "y", false, "", none, none⟩]
        (some [⟨"a", "x", true, "h1", none, none⟩, ⟨"b", "y", true, "h3", none, none⟩]) =
      (false, "b::y exists changed (True -> False)") ∧
    Invalidate.compare_snapshot
        [⟨"a", "x", true, "h2", none, none⟩, ⟨"b", "y", false, "", none, none⟩]
        (some [⟨"a", "x", true, "h1", none, none⟩, ⟨"b", "y", true, "h3", none, none⟩]) ≠
      Invalidate.compare_snapshot_claim
        [⟨"a", "x", true, "h2", none, none⟩, ⟨"b", "y", false, "", none, none⟩]
        (some [⟨"a", "x", true, "h1", none, none⟩, ⟨"b", "y", true, "h3", none, none⟩]) := by
  refine ⟨by decide, by decide, by decide⟩

/-- C4 (amended): `compare_snapshot` compares key-for-key with key-set
mismatches failing first; otherwise the FIRST key in ascending key order
exhibiting any difference decides the failure, with `exists` flip over
hash mismatch over mtime mismatch WITHIN that key (not globally across
keys); a job with no current entries and no stored entries trivially
passes; and the check passes exactly when the key sets agree and every
key agrees on `exists`, hash and mtime. -/
theorem C4_compare_snapshot_perkey_precedence :
    (∀ cur sto, Invalidate.compare_snapshot cur sto = Invalidate.compare_snapshot_perkey cur sto) ∧
    (∀ (cur : List Invalidate.SnapEntry) (sto : Option (List Invalidate.SnapEntry)),
      Invalidate.normalize_snapshot_entries sto = [] → cur = [] →
      Invalidate.compare_snapshot cur sto = (true, "")) ∧
    (∀ cur sto,
      ((Invalidate.compare_snapshot cur sto).1 = true ↔
        ((Invalidate.normalize_snapshot_entries sto = [] ∧ cur = []) ∨
          (Invalidate.normalize_snapshot_entries sto ≠ [] ∧
            sortStr ((Invalidate.canonicalize cur).map Prod.fst) =
              sortStr ((Invalidate.canonicalize
                (Invalidate.normalize_snapshot_entries sto)).map Prod.fst) ∧
            ∀ k ∈ sortStr ((Invalidate.canonicalize cur).map Prod.fst),
              Invalidate.entryVerdict k
                (Invalidate.lookupCanon (Invalidate.canonicalize cur) k)
                (Invalidate.lookupCanon (Invalidate.canonicalize
                  (Invalidate.normalize_snapshot_entries sto)) k) = none)))) := by
  refine ⟨?_, ?_, ?_⟩
  · intro cur sto
    simp only [Invalidate.compare_snapshot, Invalidate.compare_snapshot_perkey]
    split
    · rfl
    · split
      · rfl
      · split
        · rfl
        · exact Invalidate.compareKeysLoop_eq_findSome _ _ _
  · intro cur sto h1 h2
    simp only [Invalidate.compare_snapshot]
    simp [h1, h2]
  · intro cur sto
    simp only [Invalidate.compare_snapshot]
    split
    · rename_i h
      constructor
      · intro _
        exact Or.inl h
      · intro _
        rfl
    · rename_i hne
      split
      · rename_i hs
        constructor
        · intro h
          simp at h
        · rintro (h | h)
          · exact absurd h hne
          · exact absurd hs h.1
      · rename_i hs
        split
        · rename_i hkeys
          constructor
          · intro h
            simp at h
          · rintro (h | h)
            · exact absurd h hne
            · exact absurd h.2.1 hkeys
        · rename_i hkeys
          rw [not_not] at hkeys
          rw [Invalidate.compareKeysLoop_eq_findSome]
          rcases hfind : (sortStr ((Invalidate.canonicalize cur).map Prod.fst)).findSome?
              (fun k => Invalidate.entryVerdict k
                (Invalidate.lookupCanon (Invalidate.canonicalize cur) k)
                (Invalidate.lookupCanon (Invalidate.canonicalize
                  (Invalidate.normalize_snapshot_entries sto)) k)) with _ | reason
          · simp only [hfind]
            rw [List.findSome?_eq_none_iff] at hfind
            constructor
            · intro _
              right
              exact ⟨hs, hkeys, fun k hk => hfind k hk⟩
            · intro _
              trivial
          · simp only [hfind]
            constructor
            · intro h
              simp at h
            · rintro (h | h)
              · exact absurd h hne
              · obtain ⟨-, -, hall⟩ := h
                obtain ⟨k, hk, hvk⟩ := List.exists_of_findSome?_eq_some hfind
                rw [hall k hk] at hvk
                exact absurd hvk (by simp)


/-- C4 witness: the amended comparison on a concrete mismatching pair and
the trivial pass on the empty snapshot. -/
theorem C4_compare_snapshot_witness :
    Invalidate.compare_snapshot [⟨"a", "x", true, "h2", none, none⟩]
        (some [⟨"a", "x", true, "h1", none, none⟩]) =
      Invalidate.compare_snapshot_perkey [⟨"a", "x", true, "h2", none, none⟩]
        (some [⟨"a", "x", true, "h1", none, none⟩]) ∧
    Invalidate.compare_snapshot [] none = (true, "") :=
  ⟨C4_compare_snapshot_perkey_precedence.1 _ _,
    C4_compare_snapshot_perkey_precedence.2.1 [] none rfl rfl⟩


/-! ### BFS closure and scan lemmas for `invalidate_downstream.py` -/

namespace Invalidate

theorem mem_foldr_append {α β : Type} (f : α → List β) :
    ∀ (l : List α) (x : β),
      (x ∈ l.foldr (fun a acc => f a ++ acc) []) ↔ ∃ a ∈ l, x ∈ f a := by
  intro l x
  induction l with
  | nil => simp
  | cons a l ih => simp [List.foldr_cons, List.mem_append, ih]

theorem nodup_subset_length {l1 l2 : List String} (h1 : l1.Nodup)
    (h : ∀ x ∈ l1, x ∈ l2) : l1.length ≤ l2.length := by
  calc l1.length = l1.toFinset.card := (List.toFinset_card_of_nodup h1).symm
  _ ≤ l2.toFinset.card := Finset.card_le_card
      (fun x hx => List.mem_toFinset.mpr (h x (List.mem_toFinset.mp hx)))
  _ ≤ l2.length := l2.toFinset_card_le

theorem newOf_mem : ∀ (ns seen : List String) (x : String),
    x ∈ newOf seen ns → x ∈ ns ∧ x ∉ seen := by
  intro ns
  induction ns with
  | nil =>
    intro seen x h
    simp only [newOf] at h
    cases h
  | cons n ns ih =>
    intro seen x h
    simp only [newOf] at h
    by_cases hc : seen.contains n = true
    · rw [if_pos hc] at h
      obtain ⟨h1, h2⟩ := ih seen x h
      exact ⟨List.mem_cons_of_mem n h1, h2⟩
    · rw [if_neg hc] at h
      rcases List.mem_cons.mp h with rfl | h2
      · refine ⟨List.mem_cons_self _ _, ?_⟩
        intro hmm
        exact hc (by simpa using hmm)
      · obtain ⟨h3, h4⟩ := ih (seen ++ [n]) x h2
        exact ⟨List.mem_cons_of_mem n h3, fun hmm => h4 (List.mem_append_left _ hmm)⟩

theorem newOf_covers : ∀ (ns seen : List String) (x : String),
    x ∈ ns → x ∈ seen ++ newOf seen ns := by
  intro ns
  induction ns with
  | nil =>
    intro seen x h
    cases h
  | cons n ns ih =>
    intro seen x h
    simp only [newOf]
    by_cases hc : seen.contains n = true
    · rw [if_pos hc]
      rcases List.mem_cons.mp h with rfl | h2
      · exact List.mem_append_left _ (by simpa using hc)
      · exact ih seen x h2
    · rw [if_neg hc]
      rcases List.mem_cons.mp h with rfl | h2
      · exact List.mem_append_right _ (List.mem_cons_self _ _)
      · have h3 := ih (seen ++ [n]) x h2
        rw [List.append_assoc] at h3
        simpa using h3

theorem newOf_nodup : ∀ (ns seen : List String), seen.Nodup →
    (seen ++ newOf seen ns).Nodup := by
  intro ns
  induction ns with
  | nil =>
    intro seen h
    simpa [newOf] using h
  | cons n ns ih =>
    intro seen h
    simp only [newOf]
    by_cases hc : seen.contains n = true
    · rw [if_pos hc]
      exact ih seen h
    · rw [if_neg hc]
      have hn : n ∉ seen := fun hmm => hc (by simpa using hmm)
      have h2 : (seen ++ [n]).Nodup :=
        List.Nodup.append h (List.nodup_singleton n)
          (fun a ha hb => hn (by rwa [List.mem_singleton.mp hb] at ha))
      have h3 := ih (seen ++ [n]) h2
      rw [List.append_assoc] at h3
      simpa using h3

theorem closureFold (ns : List String) :
    ∀ (q seen out : List String),
    ns.foldl (fun (a : List String × List String × List String) nxt =>
        if a.2.1.contains nxt then a
        else (a.1 ++ [nxt], a.2.1 ++ [nxt], a.2.2 ++ [nxt])) (q, seen, out) =
      (q ++ newOf seen ns, seen ++ newOf seen ns, out ++ newOf seen ns) := by
  induction ns with
  | nil =>
    intro q seen out
    simp [newOf]
  | cons n ns ih =>
    intro q seen out
    rw [List.foldl_cons]
    show ns.foldl (fun (a : List String × List String × List String) nxt =>
        if a.2.1.contains nxt then a
        else (a.1 ++ [nxt], a.2.1 ++ [nxt], a.2.2 ++ [nxt]))
      ((fun (a : List String × List String × List String) nxt =>
        if a.2.1.contains nxt then a
        else (a.1 ++ [nxt], a.2.1 ++ [nxt], a.2.2 ++ [nxt])) (q, seen, out) n) = _
    by_cases hc : seen.contains n = true
    · have hstep : (fun (a : List String × List String × List String) nxt =>
          if a.2.1.contains nxt then a
          else (a.1 ++ [nxt], a.2.1 ++ [nxt], a.2.2 ++ [nxt])) (q, seen, out) n =
          (q, seen, out) := by
        show (if seen.contains n then (q, seen, out)
          else (q ++ [n], seen ++ [n], out ++ [n])) = _
        rw [if_pos hc]
      rw [hstep, ih q seen out]
      have hmem : n ∈ seen := by simpa using hc
      simp [newOf, hmem]
    · have hstep : (fun (a : List String × List String × List String) nxt =>
          if a.2.1.contains nxt then a
          else (a.1 ++ [nxt], a.2.1 ++ [nxt], a.2.2 ++ [nxt])) (q, seen, out) n =
          (q ++ [n], seen ++ [n], out ++ [n]) := by
        show (if seen.contains n then (q, seen, out)
          else (q ++ [n], seen ++ [n], out ++ [n])) = _
        rw [if_neg hc]
      rw [hstep, ih (q ++ [n]) (seen ++ [n]) (out ++ [n])]
      have hmem : n ∉ seen := by simpa using hc
      simp [newOf, hmem, List.append_assoc]

theorem closureLoop_spec (rd : String → List String) (U : List String)
    (hU : ∀ a b, b ∈ rd a → b ∈ U) (start : String) :
    ∀ (fuel : ℕ) (q seen out : List String),
    seen = start :: out →
    seen.Nodup →
    (∀ x ∈ seen, x ∈ start :: U) →
    q.Nodup →
    (∀ x ∈ q, x ∈ seen) →
    (∀ x ∈ seen, x ∉ q → ∀ y ∈ rd x, y ∈ seen) →
    (∀ x ∈ seen, Relation.ReflTransGen (fun a b => b ∈ rd a) start x) →
    q.length + (U.length + 1) ≤ fuel + seen.length →
    (∀ x ∈ seen, x ∈ start :: closureLoop rd fuel q seen out) ∧
    (∀ x ∈ start :: closureLoop rd fuel q seen out,
      Relation.ReflTransGen (fun a b => b ∈ rd a) start x) ∧
    (∀ x ∈ start :: closureLoop rd fuel q seen out, ∀ y ∈ rd x,
      y ∈ start :: closureLoop rd fuel q seen out) ∧
    (start :: closureLoop rd fuel q seen out).Nodup := by
  intro fuel
  induction fuel with
  | zero =>
    intro q seen out hso hnd hsub hqnd hqseen hclosed hsound hfuel
    have hlen : seen.length ≤ U.length + 1 := by
      have := nodup_subset_length hnd hsub
      simpa using this
    have hq : q = [] := by
      have : q.length = 0 := by omega
      exact List.eq_nil_of_length_eq_zero this
    rw [show closureLoop rd 0 q seen out = out from rfl, ← hso]
    refine ⟨fun x hx => hx, hsound, ?_, hnd⟩
    intro x hx y hy
    refine hclosed x hx ?_ y hy
    rw [hq]
    exact List.not_mem_nil x
  | succ fuel ih =>
    intro q seen out hso hnd hsub hqnd hqseen hclosed hsound hfuel
    rcases q with _ | ⟨cur, rest⟩
    · rw [show closureLoop rd (fuel + 1) [] seen out = out from rfl, ← hso]
      refine ⟨fun x hx => hx, hsound, ?_, hnd⟩
      intro x hx y hy
      exact hclosed x hx (List.not_mem_nil x) y hy
    · have hloop : closureLoop rd (fuel + 1) (cur :: rest) seen out =
          closureLoop rd fuel (rest ++ newOf seen (rd cur))
            (seen ++ newOf seen (rd cur)) (out ++ newOf seen (rd cur)) := by
        show closureLoop rd fuel
            (((rd cur).foldl (fun (a : List String × List String × List String) nxt =>
              if a.2.1.contains nxt then a
              else (a.1 ++ [nxt], a.2.1 ++ [nxt], a.2.2 ++ [nxt])) (rest, seen, out)).1)
            (((rd cur).foldl (fun (a : List String × List String × List String) nxt =>
              if a.2.1.contains nxt then a
              else (a.1 ++ [nxt], a.2.1 ++ [nxt], a.2.2 ++ [nxt])) (rest, seen, out)).2.1)
            (((rd cur).foldl (fun (a : List String × List String × List String) nxt =>
              if a.2.1.contains nxt then a
              else (a.1 ++ [nxt], a.2.1 ++ [nxt], a.2.2 ++ [nxt])) (rest, seen, out)).2.2) = _
        rw [closureFold]
      rw [hloop]
      rcases List.nodup_cons.mp hqnd with ⟨hcurrest, hrestnd⟩
      have hcurseen : cur ∈ seen := hqseen cur (List.mem_cons_self cur rest)
      have hnewmem : ∀ x ∈ newOf seen (rd cur), x ∈ rd cur ∧ x ∉ seen :=
        fun x hx => newOf_mem (rd cur) seen x hx
      have hseen' : (seen ++ newOf seen (rd cur)).Nodup := newOf_nodup (rd cur) seen hnd
      have hnewnd : (newOf seen (rd cur)).Nodup := (List.nodup_append.mp hseen').2.1
      have i1 : seen ++ newOf seen (rd cur) = start :: (out ++ newOf seen (rd cur)) := by
        rw [hso]
        rfl
      have i3 : ∀ x ∈ seen ++ newOf seen (rd cur), x ∈ start :: U := by
        intro x hx
        rcases List.mem_append.mp hx with h2 | h2
        · exact hsub x h2
        · exact List.mem_cons_of_mem start (hU cur x (hnewmem x h2).1)
      have i4 : (rest ++ newOf seen (rd cur)).Nodup := by
        refine List.Nodup.append hrestnd hnewnd ?_
        intro a ha hb
        exact (hnewmem a hb).2 (hqseen a (List.mem_cons_of_mem cur ha))
      have i5 : ∀ x ∈ rest ++ newOf seen (rd cur), x ∈ seen ++ newOf seen (rd cur) := by
        intro x hx
        rcases List.mem_append.mp hx with h2 | h2
        · exact List.mem_append_left _ (hqseen x (List.mem_cons_of_mem cur h2))
        · exact List.mem_append_right _ h2
      have i6 : ∀ x ∈ seen ++ newOf seen (rd cur), x ∉ rest ++ newOf seen (rd cur) →
          ∀ y ∈ rd x, y ∈ seen ++ newOf seen (rd cur) := by
        intro x hx hnx y hy
        rcases List.mem_append.mp hx with h2 | h2
        · by_cases hxc : x = cur
          · subst hxc
            exact newOf_covers (rd x) seen y hy
          · have hxq : x ∉ cur :: rest := by
              intro hmm
              rcases List.mem_cons.mp hmm with h3 | h3
              · exact hxc h3
              · exact hnx (List.mem_append_left _ h3)
            exact List.mem_append_left _ (hclosed x h2 hxq y hy)
        · exact absurd (List.mem_append_right rest h2) hnx
      have i7 : ∀ x ∈ seen ++ newOf seen (rd cur),
          Relation.ReflTransGen (fun a b => b ∈ rd a) start x := by
        intro x hx
        rcases List.mem_append.mp hx with h2 | h2
        · exact hsound x h2
        · exact Relation.ReflTransGen.tail (hsound cur hcurseen) (hnewmem x h2).1
      have i8 : (rest ++ newOf seen (rd cur)).length + (U.length + 1) ≤
          fuel + (seen ++ newOf seen (rd cur)).length := by
        have h1 : (rest ++ newOf seen (rd cur)).length =
            rest.length + (newOf seen (rd cur)).length := List.length_append _ _
        have h2 : (seen ++ newOf seen (rd cur)).length =
            seen.length + (newOf seen (rd cur)).length := List.length_append _ _
        have h3 : (cur :: rest).length = rest.length + 1 := by simp
        omega
      obtain ⟨m1, m2, m3, m4⟩ := ih (rest ++ newOf seen (rd cur))
        (seen ++ newOf seen (rd cur)) (out ++ newOf seen (rd cur))
        i1 hseen' i3 i4 i5 i6 i7 i8
      exact ⟨fun x hx => m1 x (List.mem_append_left _ hx), m2, m3, m4⟩

theorem downstream_closure_spec (rd : String → List String) (U : List String)
    (hU : ∀ a b, b ∈ rd a → b ∈ U) (start : String) (fuel : ℕ)
    (hfuel : U.length + 1 ≤ fuel) :
    (∀ x, x ∈ downstream_closure start rd fuel ↔
      x ≠ start ∧ Relation.ReflTransGen (fun a b => b ∈ rd a) start x) ∧
    (downstream_closure start rd fuel).Nodup := by
  obtain ⟨hmono, hsound, hclosed, hnd⟩ := closureLoop_spec rd U hU start fuel
    [start] [start] [] rfl (List.nodup_singleton start)
    (by
      intro x hx
      rw [List.mem_singleton.mp hx]
      exact List.mem_cons_self _ _)
    (List.nodup_singleton start)
    (fun x hx => hx)
    (fun x hx hnx => absurd hx hnx)
    (by
      intro x hx
      rw [List.mem_singleton.mp hx])
    (by simp; omega)
  have hcomp : ∀ x, Relation.ReflTransGen (fun a b => b ∈ rd a) start x →
      x ∈ start :: closureLoop rd fuel [start] [start] [] := by
    intro x hx
    induction hx with
    | refl => exact List.mem_cons_self _ _
    | tail hab hbc ih2 => exact hclosed _ ih2 _ hbc
  constructor
  · intro x
    simp only [downstream_closure, mem_sortStr]
    constructor
    · intro hx
      refine ⟨?_, hsound x (List.mem_cons_of_mem start hx)⟩
      intro heq
      subst heq
      exact (List.nodup_cons.mp hnd).1 hx
    · rintro ⟨hne, hrtg⟩
      rcases List.mem_cons.mp (hcomp x hrtg) with h | h
      · exact absurd h hne
      · exact h
  · exact sortStr_nodup (List.nodup_cons.mp hnd).2

theorem mem_build_reverse_deps {jobs : List JobRec} {a b : String} :
    b ∈ build_reverse_deps jobs a ↔
      (b ∈ jobs.map (·.work_item_id) ∧ a ≠ "" ∧
        ∃ dep ∈ depsOfRec jobs b, pyStrip dep = a) := by
  unfold build_reverse_deps
  rw [mem_sortedDedup,
    mem_foldr_append (fun wi => (depsOfRec jobs wi).filterMap (fun dep =>
      let d := pyStrip dep
      if d = "" then none else if d = a then some wi else none))]
  constructor
  · rintro ⟨wi, hwi, hb⟩
    rcases List.mem_filterMap.mp hb with ⟨dep, hdep, hres⟩
    by_cases h0 : pyStrip dep = ""
    · simp [h0] at hres
    · by_cases h1 : pyStrip dep = a
      · have hres2 : ¬a = "" ∧ wi = b := by simpa [h0, h1] using hres
        obtain ⟨-, hwib⟩ := hres2
        subst hwib
        exact ⟨mem_sortStr.mp hwi, h1 ▸ h0, dep, hdep, h1⟩
      · simp [h0, h1] at hres
  · rintro ⟨hb, ha, dep, hdep, hda⟩
    refine ⟨b, mem_sortStr.mpr hb, List.mem_filterMap.mpr ⟨dep, hdep, ?_⟩⟩
    simp [hda, ha]

theorem foldr_congr_fun {α β : Type} {f g : α → β → β} (h : ∀ a b, f a b = g a b) :
    ∀ (l : List α) (i : β), l.foldr f i = l.foldr g i := by
  intro l i
  induction l with
  | nil => rfl
  | cons a l ih => rw [List.foldr_cons, List.foldr_cons, ih, h]

theorem findRec_cons_pos {a : JobRec} {wi : String} (l : List JobRec)
    (h : (a.work_item_id == wi) = true) : findRec (a :: l) wi = some a := by
  show List.find? (fun j => j.work_item_id == wi) (a :: l) = some a
  exact List.find?_cons_of_pos l h

theorem findRec_cons_neg {a : JobRec} {wi : String} (l : List JobRec)
    (h : ¬((a.work_item_id == wi) = true)) : findRec (a :: l) wi = findRec l wi := by
  show List.find? (fun j => j.work_item_id == wi) (a :: l) =
    List.find? (fun j => j.work_item_id == wi) l
  exact List.find?_cons_of_neg l h

theorem skel_markStale (ts r : String) (j : JobRec) : skel (markStale ts r j) = skel j :=
  rfl

theorem markStale_id (ts r : String) (j : JobRec) :
    (markStale ts r j).work_item_id = j.work_item_id :=
  rfl

theorem updateJob_skel (jobs : List JobRec) (wi : String) (f : JobRec → JobRec)
    (hf : ∀ j, skel (f j) = skel j) :
    (updateJob jobs wi f).map skel = jobs.map skel := by
  unfold updateJob
  rw [List.map_map]
  refine List.map_congr_left ?_
  intro j _
  show skel (if j.work_item_id = wi then f j else j) = skel j
  split
  · exact hf j
  · rfl

theorem findRec_skel : ∀ (l1 l2 : List JobRec), l1.map skel = l2.map skel →
    ∀ wi, Option.map skel (findRec l1 wi) = Option.map skel (findRec l2 wi) := by
  intro l1
  induction l1 with
  | nil =>
    intro l2 h wi
    cases l2 with
    | nil => rfl
    | cons b l2 => simp at h
  | cons a l1 ih =>
    intro l2 h wi
    cases l2 with
    | nil => simp at h
    | cons b l2 =>
      simp only [List.map_cons, List.cons.injEq] at h
      obtain ⟨hab, htl⟩ := h
      have hid : a.work_item_id = b.work_item_id := congrArg Prod.fst hab
      by_cases hp : (a.work_item_id == wi) = true
      · have hp2 : (b.work_item_id == wi) = true := by
          rw [← hid]
          exact hp
        rw [findRec_cons_pos l1 hp, findRec_cons_pos l2 hp2]
        simp [hab]
      · have hp2 : ¬((b.work_item_id == wi) = true) := by
          rw [← hid]
          exact hp
        rw [findRec_cons_neg l1 hp, findRec_cons_neg l2 hp2]
        exact ih l2 htl wi

theorem depsOfRec_skel {l1 l2 : List JobRec} (h : l1.map skel = l2.map skel)
    (wi : String) : depsOfRec l1 wi = depsOfRec l2 wi := by
  have hf := findRec_skel l1 l2 h wi
  unfold depsOfRec
  rcases h1 : findRec l1 wi with _ | j1
  · rcases h2 : findRec l2 wi with _ | j2
    · rfl
    · rw [h1, h2] at hf
      simp at hf
  · rcases h2 : findRec l2 wi with _ | j2
    · rw [h1, h2] at hf
      simp at hf
    · rw [h1, h2] at hf
      have h3 : skel j1 = skel j2 := by simpa using hf
      show j1.depends_on = j2.depends_on
      exact congrArg (fun s => s.2.1) h3

theorem make_current_skel {l1 l2 : List JobRec} (h : l1.map skel = l2.map skel)
    (fs : String → String → Option FileMeta) (wi : String) :
    make_current_input_entries l1 fs wi = make_current_input_entries l2 fs wi := by
  unfold make_current_input_entries
  rw [depsOfRec_skel h wi]
  refine congrArg sortEntries (foldr_congr_fun ?_ _ _)
  intro dep_id acc
  have hf := findRec_skel l1 l2 h dep_id
  rcases h1 : findRec l1 dep_id with _ | d1
  · rcases h2 : findRec l2 dep_id with _ | d2
    · rfl
    · rw [h1, h2] at hf
      simp at hf
  · rcases h2 : findRec l2 dep_id with _ | d2
    · rw [h1, h2] at hf
      simp at hf
    · rw [h1, h2] at hf
      have h3 : skel d1 = skel d2 := by simpa using hf
      have houts : d1.outputs = d2.outputs := congrArg (fun s => s.2.2.1) h3
      show ((normalize_str_list d1.outputs).map _) ++ acc =
        ((normalize_str_list d2.outputs).map _) ++ acc
      rw [houts]

theorem build_reverse_deps_skel {l1 l2 : List JobRec} (h : l1.map skel = l2.map skel) :
    build_reverse_deps l1 = build_reverse_deps l2 := by
  funext dep_id
  unfold build_reverse_deps
  have hids : l1.map (fun j => j.work_item_id) = l2.map (fun j => j.work_item_id) := by
    have h1 := congrArg (List.map Prod.fst) h
    rwa [List.map_map, List.map_map] at h1
  rw [show (l1.map (·.work_item_id)) = (l2.map (·.work_item_id)) from hids]
  refine congrArg sortedDedup (foldr_congr_fun ?_ _ _)
  intro wi acc
  rw [depsOfRec_skel h wi]

theorem findRec_updateJob (jobs : List JobRec) (wi x : String) (f : JobRec → JobRec)
    (hid : ∀ j, (f j).work_item_id = j.work_item_id) :
    findRec (updateJob jobs wi f) x =
      (findRec jobs x).map (fun j => if j.work_item_id = wi then f j else j) := by
  induction jobs with
  | nil => rfl
  | cons a l ih =>
    show findRec ((if a.work_item_id = wi then f a else a) :: updateJob l wi f) x = _
    have hidg : (if a.work_item_id = wi then f a else a).work_item_id = a.work_item_id := by
      split
      · exact hid a
      · rfl
    by_cases hp : (a.work_item_id == x) = true
    · have hp2 : ((if a.work_item_id = wi then f a else a).work_item_id == x) = true := by
        rw [hidg]
        exact hp
      rw [findRec_cons_pos (updateJob l wi f) hp2]
      have h2 : findRec (a :: l) x = some a := findRec_cons_pos l hp
      rw [h2]
      rfl
    · have hp2 : ¬(((if a.work_item_id = wi then f a else a).work_item_id == x) = true) := by
        rw [hidg]
        exact hp
      rw [findRec_cons_neg (updateJob l wi f) hp2]
      have h2 : findRec (a :: l) x = findRec l x := findRec_cons_neg l hp
      rw [h2]
      exact ih

theorem findRec_updateJob_ne (jobs : List JobRec) (wi x : String) (f : JobRec → JobRec)
    (hid : ∀ j, (f j).work_item_id = j.work_item_id) (hx : x ≠ wi) :
    findRec (updateJob jobs wi f) x = findRec jobs x := by
  rw [findRec_updateJob jobs wi x f hid]
  rcases hfind : findRec jobs x with _ | j
  · rfl
  · have hfind2 : jobs.find? (fun j => j.work_item_id == x) = some j := hfind
    have hj : j.work_item_id = x := by simpa using List.find?_some hfind2
    have hne : ¬(j.work_item_id = wi) := by
      rw [hj]
      exact hx
    simp [hne]

theorem findRec_updateJob_self (jobs : List JobRec) (wi : String) (f : JobRec → JobRec)
    (hid : ∀ j, (f j).work_item_id = j.work_item_id) :
    findRec (updateJob jobs wi f) wi = (findRec jobs wi).map f := by
  rw [findRec_updateJob jobs wi wi f hid]
  rcases hfind : findRec jobs wi with _ | j
  · rfl
  · have hfind2 : jobs.find? (fun j => j.work_item_id == wi) = some j := hfind
    have hj : j.work_item_id = wi := by simpa using List.find?_some hfind2
    simp [hj]

theorem scanStep_skel (fs : String → String → Option FileMeta) (ts : String)
    (a : List JobRec × List String) (wi : String) :
    (scanStep fs ts a wi).1.map skel = a.1.map skel := by
  simp only [scanStep]
  split
  · rfl
  · split
    · rfl
    · split
      · rfl
      · rfl
      · split
        · rfl
        · exact updateJob_skel a.1 wi _ (skel_markStale ts _)

theorem scanStep_untouched (fs : String → String → Option FileMeta) (ts : String)
    (a : List JobRec × List String) (s x : String) (hx : x ≠ s) :
    findRec (scanStep fs ts a s).1 x = findRec a.1 x := by
  simp only [scanStep]
  split
  · rfl
  · split
    · rfl
    · split
      · rfl
      · rfl
      · split
        · rfl
        · exact findRec_updateJob_ne a.1 s x _ (markStale_id ts _) hx

theorem scanFold_skel (fs : String → String → Option FileMeta) (ts : String) :
    ∀ (l : List String) (a : List JobRec × List String),
    (l.foldl (scanStep fs ts) a).1.map skel = a.1.map skel := by
  intro l
  induction l with
  | nil =>
    intro a
    rfl
  | cons s l ih =>
    intro a
    rw [List.foldl_cons, ih (scanStep fs ts a s), scanStep_skel]

theorem scanFold_untouched (fs : String → String → Option FileMeta) (ts : String) :
    ∀ (l : List String) (a : List JobRec × List String) (x : String), x ∉ l →
    findRec (l.foldl (scanStep fs ts) a).1 x = findRec a.1 x := by
  intro l
  induction l with
  | nil =>
    intro a x _
    rfl
  | cons s l ih =>
    intro a x hx
    rw [List.foldl_cons, ih (scanStep fs ts a s) x (fun hh => hx (List.mem_cons_of_mem s hh)),
      scanStep_untouched fs ts a s x (fun hh => hx (hh ▸ List.mem_cons_self s l))]

theorem scanFold_stale_prefix (fs : String → String → Option FileMeta) (ts : String) :
    ∀ (l : List String) (a : List JobRec × List String),
    ∃ m, (l.foldl (scanStep fs ts) a).2 = a.2 ++ m := by
  intro l
  induction l with
  | nil =>
    intro a
    exact ⟨[], (List.append_nil a.2).symm⟩
  | cons s l ih =>
    intro a
    rw [List.foldl_cons]
    obtain ⟨m, hm⟩ := ih (scanStep fs ts a s)
    have hstep : ∃ m0, (scanStep fs ts a s).2 = a.2 ++ m0 := by
      simp only [scanStep]
      split
      · exact ⟨[], (List.append_nil a.2).symm⟩
      · split
        · exact ⟨[], (List.append_nil a.2).symm⟩
        · split
          · exact ⟨[], (List.append_nil a.2).symm⟩
          · exact ⟨[], (List.append_nil a.2).symm⟩
          · split
            · exact ⟨[], (List.append_nil a.2).symm⟩
            · exact ⟨[s], rfl⟩
    obtain ⟨m0, hm0⟩ := hstep
    exact ⟨m0 ++ m, by rw [hm, hm0, List.append_assoc]⟩

theorem scanStep_char (fs : String → String → Option FileMeta) (ts : String)
    (a : List JobRec × List String) (s : String) (rec : JobRec)
    (hfind : findRec a.1 s = some rec) :
    (pyStrip (pyOr rec.status "planned") = "done" →
      ∀ e es, rec.truth_input_snapshot = some (e :: es) →
      (compare_snapshot (make_current_input_entries a.1 fs s) (some (e :: es))).1 = false →
      scanStep fs ts a s = (updateJob a.1 s (markStale ts
        (compare_snapshot (make_current_input_entries a.1 fs s) (some (e :: es))).2),
        a.2 ++ [s])) ∧
    (pyStrip (pyOr rec.status "planned") ≠ "done" → scanStep fs ts a s = a) ∧
    (rec.truth_input_snapshot = none → scanStep fs ts a s = a) ∧
    (rec.truth_input_snapshot = some [] → scanStep fs ts a s = a) ∧
    (∀ e es, rec.truth_input_snapshot = some (e :: es) →
      (compare_snapshot (make_current_input_entries a.1 fs s) (some (e :: es))).1 = true →
      scanStep fs ts a s = a) := by
  refine ⟨?_, ?_, ?_, ?_, ?_⟩
  · intro hdone e es hsnap hcmp
    simp only [scanStep, hfind, hsnap]
    rw [if_neg (not_not_intro hdone), if_neg (by rw [hcmp]; exact Bool.false_ne_true)]
  · intro hne
    simp only [scanStep, hfind]
    rw [if_pos hne]
  · intro hsnap
    simp only [scanStep, hfind, hsnap]
    split
    · rfl
    · rfl
  · intro hsnap
    simp only [scanStep, hfind, hsnap]
    split
    · rfl
    · rfl
  · intro e es hsnap hcmp
    by_cases hdone : pyStrip (pyOr rec.status "planned") = "done"
    · simp only [scanStep, hfind, hsnap]
      rw [if_neg (not_not_intro hdone), if_pos hcmp]
    · simp only [scanStep, hfind]
      rw [if_pos hdone]

theorem scan_skip (fs : String → String → Option FileMeta) (ts : String) :
    ∀ (l : List String) (a : List JobRec × List String),
    (∀ wi ∈ l, scanStep fs ts a wi = a) →
    l.foldl (scanStep fs ts) a = a := by
  intro l
  induction l with
  | nil =>
    intro a _
    rfl
  | cons s l ih =>
    intro a h
    rw [List.foldl_cons, h s (List.mem_cons_self s l)]
    exact ih a (fun wi hwi => h wi (List.mem_cons_of_mem s hwi))

theorem scan_spec (fs : String → String → Option FileMeta) (ts : String)
    (jobs : List JobRec) :
    ∀ (scope : List String), scope.Nodup →
    ∀ (a : List JobRec × List String), a.1.map skel = jobs.map skel →
    ∀ wi ∈ scope, ∀ rec, findRec a.1 wi = some rec →
    ((pyStrip (pyOr rec.status "planned") = "done" →
      ∀ e es, rec.truth_input_snapshot = some (e :: es) →
      (compare_snapshot (make_current_input_entries jobs fs wi) (some (e :: es))).1 = false →
      findRec ((scope.foldl (scanStep fs ts) a).1) wi =
        some (markStale ts
          (compare_snapshot (make_current_input_entries jobs fs wi)
            (some (e :: es))).2 rec) ∧
      wi ∈ (scope.foldl (scanStep fs ts) a).2) ∧
     (pyStrip (pyOr rec.status "planned") ≠ "done" →
      findRec ((scope.foldl (scanStep fs ts) a).1) wi = some rec) ∧
     (rec.truth_input_snapshot = none →
      findRec ((scope.foldl (scanStep fs ts) a).1) wi = some rec) ∧
     (rec.truth_input_snapshot = some [] →
      findRec ((scope.foldl (scanStep fs ts) a).1) wi = some rec) ∧
     (∀ e es, rec.truth_input_snapshot = some (e :: es) →
      (compare_snapshot (make_current_input_entries jobs fs wi) (some (e :: es))).1 = true →
      findRec ((scope.foldl (scanStep fs ts) a).1) wi = some rec)) := by
  intro scope
  induction scope with
  | nil =>
    intro _ a _ wi hwi
    cases hwi
  | cons s l ih =>
    intro hnd a hskel wi hwi rec hfind
    rcases List.nodup_cons.mp hnd with ⟨hsl, hlnd⟩
    have hentries : make_current_input_entries a.1 fs wi =
        make_current_input_entries jobs fs wi := make_current_skel hskel fs wi
    rcases List.mem_cons.mp hwi with rfl | hwl
    · -- wi = s: the step itself decides; the tail leaves wi untouched
      have hchar := scanStep_char fs ts a wi rec hfind
      refine ⟨?_, ?_, ?_, ?_, ?_⟩
      · intro hdone e es hsnap hcmp
        have hstep := hchar.1 hdone e es hsnap (by rw [hentries]; exact hcmp)
        rw [List.foldl_cons, hstep]
        constructor
        · rw [scanFold_untouched fs ts l _ wi hsl]
          show findRec (updateJob a.1 wi (markStale ts _)) wi = _
          rw [findRec_updateJob_self a.1 wi _ (markStale_id ts _), hfind]
          rw [hentries]
          rfl
        · obtain ⟨m, hm⟩ := scanFold_stale_prefix fs ts l
            (updateJob a.1 wi (markStale ts
              (compare_snapshot (make_current_input_entries a.1 fs wi)
                (some (e :: es))).2), a.2 ++ [wi])
          rw [hm]
          show wi ∈ (a.2 ++ [wi]) ++ m
          rw [List.append_assoc]
          exact List.mem_append_right _ (List.mem_append_left _ (List.mem_singleton_self wi))
      · intro hne
        rw [List.foldl_cons, hchar.2.1 hne, scanFold_untouched fs ts l a wi hsl]
        exact hfind
      · intro hsnap
        rw [List.foldl_cons, hchar.2.2.1 hsnap, scanFold_untouched fs ts l a wi hsl]
        exact hfind
      · intro hsnap
        rw [List.foldl_cons, hchar.2.2.2.1 hsnap, scanFold_untouched fs ts l a wi hsl]
        exact hfind
      · intro e es hsnap hcmp
        rw [List.foldl_cons, hchar.2.2.2.2 e es hsnap (by rw [hentries]; exact hcmp),
          scanFold_untouched fs ts l a wi hsl]
        exact hfind
    · -- wi strictly later: the head step does not touch wi
      have hwis : wi ≠ s := fun hh => hsl (hh ▸ hwl)
      have hfind' : findRec (scanStep fs ts a s).1 wi = some rec := by
        rw [scanStep_untouched fs ts a s wi hwis]
        exact hfind
      have hskel' : (scanStep fs ts a s).1.map skel = jobs.map skel := by
        rw [scanStep_skel]
        exact hskel
      have := ih hlnd (scanStep fs ts a s) hskel' wi hwl rec hfind'
      rw [List.foldl_cons]
      exact this

end Invalidate

/-! ### Gate decomposition lemmas for `job_complete.py` -/

theorem ite_cons_nil_eq_nil {c : Prop} [Decidable c] {x : String} :
    ((if c then [x] else []) = []) ↔ ¬c := by
  split <;> simp_all

theorem dependency_gate_errors_eq_nil {env : JobComplete.Env} {fm : JobComplete.JobFM} :
    JobComplete.dependency_gate_errors env fm = [] ↔
      ∀ dep ∈ normalize_str_list fm.depends_on,
        ∃ raw, env.dep_status dep = some raw ∧ pyStrip (pyOr raw "planned") = "done" := by
  unfold JobComplete.dependency_gate_errors
  generalize normalize_str_list fm.depends_on = l
  induction l with
  | nil => simp
  | cons dep rest ih =>
    simp only [List.foldr_cons, List.mem_cons]
    rcases hd : env.dep_status dep with _ | raw
    · simp only []
      constructor
      · intro h
        exact absurd h (by simp)
      · intro h
        obtain ⟨raw, hraw, -⟩ := h dep (Or.inl rfl)
        rw [hd] at hraw
        exact absurd hraw (by simp)
    · simp only []
      by_cases hst : pyStrip (pyOr raw "planned") ≠ "done"
      · rw [if_pos hst]
        constructor
        · intro h
          exact absurd h (by simp)
        · intro h
          obtain ⟨raw2, hraw2, h2⟩ := h dep (Or.inl rfl)
          rw [hd] at hraw2
          cases hraw2
          exact absurd h2 hst
      · rw [if_neg hst]
        rw [not_not] at hst
        rw [ih]
        constructor
        · intro h
          rintro d (rfl | hdm)
          · exact ⟨raw, hd, hst⟩
          · exact h d hdm
        · intro h d hdm
          exact h d (Or.inr hdm)

theorem gating_errors_eq_nil {env : JobComplete.Env} {fm : JobComplete.JobFM} :
    JobComplete.gating_errors env fm = [] ↔
      (fm.reward_target ≤ fm.reward_last_score ∧
       pyStrip fm.reward_last_eval_at ≠ "" ∧
       pyLower (pyStrip fm.truth_last_status) = "pass" ∧
       normalize_str_list fm.truth_last_failures = [] ∧
       (∀ dep ∈ normalize_str_list fm.depends_on,
         ∃ raw, env.dep_status dep = some raw ∧ pyStrip (pyOr raw "planned") = "done") ∧
       (∀ o ∈ fm.outputs, JobComplete.file_exists_nonempty env o = true) ∧
       (∀ e ∈ fm.verification_evidence, JobComplete.file_exists_nonempty env e = true)) := by
  unfold JobComplete.gating_errors
  simp only [List.append_eq_nil, ite_cons_nil_eq_nil, not_lt, ne_eq, not_not,
    List.map_eq_nil_iff, List.filter_eq_nil_iff, Bool.not_eq_true, Bool.not_eq_false,
    Bool.not_eq_true', Bool.not_eq_false', dependency_gate_errors_eq_nil]
  tauto

/-! ### Loop invariants -/

theorem loop_run_invariants (rp : Bool) (cp : String) (ml : ℤ) :
    ∀ (script : List Loop.AttemptEnv) (attempt la : ℤ) (out : Loop.LoopOutcome),
      Loop.loop_run rp cp ml attempt la script = some out →
      (out.loop_done = true ↔ out.loop_status = "completed") ∧
      (out.loop_status = "error" → out.final_code ≠ 0 ∧
        (out.stop_reason = "exit_code_" ++ toString out.final_code ∨
         out.stop_reason = "job_complete_failed")) ∧
      (out.wrote_done = true → out.complete_exit = some 0 ∧ out.loop_status = "completed") ∧
      (out.loop_status = "completed" ∨ out.loop_status = "blocked" ∨
       out.loop_status = "stopped" ∨ out.loop_status = "error") := by
  intro script
  induction script with
  | nil =>
    intro a la out h
    simp [Loop.loop_run] at h
  | cons e rest ih =>
    intro a la out h
    simp only [Loop.loop_run] at h
    split at h
    · cases h
      refine ⟨by simp, by simp, by simp, by simp⟩
    · split at h
      · cases h
        refine ⟨by simp, by simp, by simp, by simp⟩
      · split at h
        · cases h
          refine ⟨by simp, by simp, by simp, by simp⟩
        · split at h
          · rename_i hexit
            cases h
            refine ⟨by simp, ?_, by simp, by simp⟩
            intro _
            exact ⟨hexit, Or.inl rfl⟩
          · split at h
            · exact ih _ _ _ h
            · split at h
              · split at h
                · cases h
                  refine ⟨by simp, by simp, ?_, by simp⟩
                  intro _
                  exact ⟨rfl, rfl⟩
                · rename_i hce
                  cases h
                  refine ⟨by simp, ?_, by simp, by simp⟩
                  intro _
                  exact ⟨hce, Or.inr rfl⟩
              · exact ih _ _ _ h

/-- C1: a job record acquires status `done` only through a completion
decision whose gates all held at that moment: in `job_complete.py`'s
transaction, reaching the `completed` result requires every dependency
to resolve to a unique job with status `done`, the last truth status to
be `pass` with no recorded truth failures, the last reward score to meet
the reward target, and every declared output and verification-evidence
file to exist with nonzero size — and in the loop executor the
`status="done"` write happens only in the branch where the completion
transaction's invocation returned exit code 0. -/
theorem C1_done_requires_gates :
    (∀ (env : JobComplete.Env) (ag ts : String) (doc0 : JobComplete.JobFM)
        (evalStep : JobComplete.JobFM → JobComplete.JobFM) (doc : JobComplete.JobFM),
      JobComplete.job_complete_txn env ag ts doc0 evalStep = .completed doc →
      doc.status = "done" ∧
      (∀ dep ∈ normalize_str_list doc.depends_on,
        ∃ raw, env.dep_status dep = some raw ∧ pyStrip (pyOr raw "planned") = "done") ∧
      pyLower (pyStrip doc.truth_last_status) = "pass" ∧
      normalize_str_list doc.truth_last_failures = [] ∧
      doc.reward_target ≤ doc.reward_last_score ∧
      (∀ o ∈ doc.outputs, JobComplete.file_exists_nonempty env o = true) ∧
      (∀ e ∈ doc.verification_evidence, JobComplete.file_exists_nonempty env e = true)) ∧
    (∀ (rp : Bool) (cp : String) (ml attempt la : ℤ) (script : List Loop.AttemptEnv)
        (out : Loop.LoopOutcome),
      Loop.loop_run rp cp ml attempt la script = some out →
      out.wrote_done = true →
      out.complete_exit = some 0 ∧ out.loop_status = "completed") := by
  constructor
  · intro env ag ts doc0 evalStep doc h
    simp only [JobComplete.job_complete_txn] at h
    split at h
    · exact absurd h (by simp)
    · split at h
      · exact absurd h (by simp)
      · split at h
        · exact absurd h (by simp)
        · rename_i herr
          rw [ne_eq, not_not] at herr
          split at h
          · exact absurd h (by simp)
          · rename_i hgate
            rw [ne_eq, not_not] at hgate
            rw [JobComplete.CompleteResult.completed.injEq] at h
            subst h
            have hg := gating_errors_eq_nil.mp hgate
            exact ⟨rfl, hg.2.2.2.2.1, hg.2.2.1, hg.2.2.2.1, hg.1, hg.2.2.2.2.2.1,
              hg.2.2.2.2.2.2⟩
  · intro rp cp ml attempt la script out h hw
    exact (loop_run_invariants rp cp ml script attempt la out h).2.2.1 hw

/-- C1 witness: a concrete completed transaction, with two of the gate
conclusions instantiated. -/
theorem C1_done_requires_gates_witness :
    c1done.status = "done" ∧ pyLower (pyStrip c1done.truth_last_status) = "pass" ∧
      (∀ o ∈ c1done.outputs, JobComplete.file_exists_nonempty c1env o = true) :=
  have H := C1_done_requires_gates.1 c1env "agreed" "T" c1doc id c1done (by decide)
  ⟨H.1, H.2.2.1, H.2.2.2.2.2.1⟩

/-- C7 counterexample: a job that was already `done` before the
completion attempt keeps status `done` when the gates fail (here a truth
failure, so the claim would demand `in_progress`); the status is not
reverted to `blocked` or `in_progress`. -/
theorem C7_already_done_counterexample :
    JobComplete.job_complete_txn c7env "agreed" "T" c7doc id = .gate_failed c7out c7errs ∧
    c7out.status = "done" ∧ c7out.status ≠ "in_progress" ∧ c7out.status ≠ "blocked" ∧
    c7errs ≠ [] := by
  refine ⟨by decide, by decide, by decide, by decide, by decide⟩

/-- C7 (amended): when the gate re-evaluation fails the transaction
aborts with the full (nonempty) failure list, clears `completed_at`, and
reverts status to `blocked` when a failure is a dependency-gate or
snapshot-staleness failure and to `in_progress` otherwise — UNLESS the
job was already `done` before the attempt, in which case its status
stays `done`; the early dependency gate always reverts to `blocked`; and
the `completed` result is reached only with an empty gate-error list
(never speculatively). -/
theorem C7_gate_failure_reverts :
    (∀ (env : JobComplete.Env) (ag ts : String) (doc0 : JobComplete.JobFM)
        (evalStep : JobComplete.JobFM → JobComplete.JobFM) (doc : JobComplete.JobFM)
        (errs : List String),
      JobComplete.job_complete_txn env ag ts doc0 evalStep = .gate_failed doc errs →
      errs ≠ [] ∧ doc.completed_at = "" ∧
      doc.status =
        (if pyStrip (pyOr doc0.status "planned") ≠ "done" then JobComplete.fail_status_of errs
         else pyStrip (pyOr doc0.status "planned"))) ∧
    (∀ (env : JobComplete.Env) (ag ts : String) (doc0 : JobComplete.JobFM)
        (evalStep : JobComplete.JobFM → JobComplete.JobFM) (doc : JobComplete.JobFM)
        (errs : List String),
      JobComplete.job_complete_txn env ag ts doc0 evalStep = .dep_gate_failed doc errs →
      errs ≠ [] ∧ doc.status = "blocked" ∧ doc.completed_at = "") ∧
    (∀ (env : JobComplete.Env) (ag ts : String) (doc0 : JobComplete.JobFM)
        (evalStep : JobComplete.JobFM → JobComplete.JobFM) (doc : JobComplete.JobFM),
      JobComplete.job_complete_txn env ag ts doc0 evalStep = .completed doc →
      JobComplete.gating_errors env doc = []) := by
  refine ⟨?_, ?_, ?_⟩
  · intro env ag ts doc0 evalStep doc errs h
    simp only [JobComplete.job_complete_txn] at h
    split at h
    · exact absurd h (by simp)
    · split at h
      · exact absurd h (by simp)
      · split at h
        · exact absurd h (by simp)
        · split at h
          · rename_i hgate
            rw [JobComplete.CompleteResult.gate_failed.injEq] at h
            obtain ⟨h1, h2⟩ := h
            subst h1
            subst h2
            exact ⟨hgate, rfl, rfl⟩
          · exact absurd h (by simp)
  · intro env ag ts doc0 evalStep doc errs h
    simp only [JobComplete.job_complete_txn] at h
    split at h
    · exact absurd h (by simp)
    · split at h
      · exact absurd h (by simp)
      · split at h
        · rename_i hdep
          rw [JobComplete.CompleteResult.dep_gate_failed.injEq] at h
          obtain ⟨h1, h2⟩ := h
          subst h1
          subst h2
          exact ⟨hdep, rfl, rfl⟩
        · split at h
          · exact absurd h (by simp)
          · exact absurd h (by simp)
  · intro env ag ts doc0 evalStep doc h
    simp only [JobComplete.job_complete_txn] at h
    split at h
    · exact absurd h (by simp)
    · split at h
      · exact absurd h (by simp)
      · split at h
        · exact absurd h (by simp)
        · split at h
          · exact absurd h (by simp)
          · rename_i hgate
            rw [ne_eq, not_not] at hgate
            rw [JobComplete.CompleteResult.completed.injEq] at h
            subst h
            exact hgate

/-- C7 witness: the amended revert rule at a concrete input (the
already-`done` job with a truth failure). -/
theorem C7_gate_failure_reverts_witness :
    c7errs ≠ [] ∧ c7out.completed_at = "" ∧ c7out.status = "done" :=
  have H := C7_gate_failure_reverts.1 c7env "agreed" "T" c7doc id c7out c7errs (by decide)
  ⟨H.1, H.2.1, by
    have := H.2.2
    simpa using this⟩

/-- C8 counterexample: a loop whose runner exits 0 with the right
promise and whose gates pass, but whose `job_complete.py` invocation
exits 3, terminates as `error` with process exit code 3 — not the
runner's own exit code (0), refuting the claimed exit-code mapping for
`error` outcomes. -/
theorem C8_error_exit_counterexample :
    Loop.loop_run true "WI-DONE" 2 1 1 [c8att] =
      some ⟨"error", "job_complete_failed", 3, false, 1, false, some 3⟩ ∧
    c8att.result.exit_code = 0 ∧
    Loop.process_exit ⟨"error", "job_complete_failed", 3, false, 1, false, some 3⟩ = 3 := by
  refine ⟨by decide, by decide, by decide⟩

/-- C8 (amended): a nonzero runner exit code immediately terminates the
loop in state `error` with stop reason `exit_code_N`, surfacing that
code and consuming no further attempts (the result does not depend on
the remaining script); terminal outcomes map to process exit codes as:
`completed` to 0, `blocked`/`stopped` to 1, and `error` to the nonzero
exit code of the failing step — the runner's own code for a runner
failure, the completion transaction's code when `job_complete` failed. -/
theorem C8_loop_error_and_exit_codes :
    (∀ (rp : Bool) (cp : String) (ml attempt la : ℤ) (e : Loop.AttemptEnv)
        (rest : List Loop.AttemptEnv),
      e.walltime_exceeded = false → ¬(ml > 0 ∧ attempt > ml) → e.cancel_marker = false →
      e.result.exit_code ≠ 0 →
      Loop.loop_run rp cp ml attempt la (e :: rest) =
        some ⟨"error", "exit_code_" ++ toString e.result.exit_code, e.result.exit_code,
          false, attempt, false, none⟩) ∧
    (∀ (rp : Bool) (cp : String) (ml attempt la : ℤ) (script : List Loop.AttemptEnv)
        (out : Loop.LoopOutcome),
      Loop.loop_run rp cp ml attempt la script = some out →
      (out.loop_status = "completed" → Loop.process_exit out = 0) ∧
      (out.loop_status = "blocked" ∨ out.loop_status = "stopped" →
        Loop.process_exit out = 1) ∧
      (out.loop_status = "error" →
        Loop.process_exit out = out.final_code ∧ out.final_code ≠ 0 ∧
        (out.stop_reason = "exit_code_" ++ toString out.final_code ∨
          out.stop_reason = "job_complete_failed"))) := by
  constructor
  · intro rp cp ml attempt la e rest hw hm hc hx
    simp only [Loop.loop_run, hw, hc, if_neg hm, hx]
    rw [if_pos hx]
    simp
  · intro rp cp ml attempt la script out h
    have H := loop_run_invariants rp cp ml script attempt la out h
    refine ⟨?_, ?_, ?_⟩
    · intro hst
      unfold Loop.process_exit
      rw [if_pos (H.1.mpr hst)]
    · intro hst
      have hdone : out.loop_done = false := by
        rcases Bool.eq_false_or_eq_true out.loop_done with hb | hb
        · have := H.1.mp hb
          rcases hst with hst | hst <;> rw [hst] at this <;> exact absurd this (by decide)
        · exact hb
      unfold Loop.process_exit
      rw [hdone]
      rcases hst with hst | hst
      · simp [hst]
      · rw [hst]
        simp
    · intro hst
      obtain ⟨hfc, hreason⟩ := H.2.1 hst
      have hdone : out.loop_done = false := by
        rcases Bool.eq_false_or_eq_true out.loop_done with hb | hb
        · have := H.1.mp hb
          rw [hst] at this
          exact absurd this (by decide)
        · exact hb
      refine ⟨?_, hfc, hreason⟩
      unfold Loop.process_exit
      rw [hdone, hst]
      simp [hfc]

/-! ### Characterizing `orchestrate_plan.analyze` -/

namespace Orchestrate

theorem proj_if_id {α : Type} (f : String → α) (wi w : String) :
    f w = if w = wi then f wi else f w := by
  split
  · rename_i h
    rw [h]
  · rfl

theorem filterMap_cons_split {α β : Type} (f : α → Option β) (a : α) (l : List α) :
    List.filterMap f (a :: l) = List.filterMap f [a] ++ List.filterMap f l := by
  rw [show a :: l = [a] ++ l from rfl, List.filterMap_append]

theorem analyzeStep_spec (jobs : List JobNode) (act : List String) (wi : String)
    (st : DepAnalysis) (dep : String) :
    (∀ w, (analyzeStep jobs act wi st dep).indeg w =
      if w = wi then st.indeg wi + ((activeDepOcc jobs act [dep]).length : ℤ)
      else st.indeg w) ∧
    (∀ w, (analyzeStep jobs act wi st dep).missing w =
      if w = wi then st.missing wi ++ missingDepList jobs [dep] else st.missing w) ∧
    (∀ w, (analyzeStep jobs act wi st dep).not_done w =
      if w = wi then st.not_done wi ++ notDoneDepList jobs act [dep] else st.not_done w) ∧
    (∀ d c, c ∈ (analyzeStep jobs act wi st dep).adj d ↔
      c ∈ st.adj d ∨ (c = wi ∧ d ∈ activeDepOcc jobs act [dep])) := by
  simp only [analyzeStep]
  by_cases h0 : pyStrip dep = ""
  · have hocc : activeDepOcc jobs act [dep] = [] := by simp [activeDepOcc, h0]
    have hmiss : missingDepList jobs [dep] = [] := by simp [missingDepList, h0]
    have hnd : notDoneDepList jobs act [dep] = [] := by simp [notDoneDepList, h0]
    rw [if_pos h0, hocc, hmiss, hnd]
    refine ⟨fun w => by simpa using proj_if_id st.indeg wi w,
      fun w => by simpa using proj_if_id st.missing wi w,
      fun w => by simpa using proj_if_id st.not_done wi w,
      fun d c => by simp⟩
  · rw [if_neg h0]
    rcases hf : findJob jobs (pyStrip dep) with _ | dn
    · simp only [hf]
      have hocc : activeDepOcc jobs act [dep] = [] := by simp [activeDepOcc, h0, hf]
      have hmiss : missingDepList jobs [dep] = [pyStrip dep] := by
        simp [missingDepList, h0, hf]
      have hnd : notDoneDepList jobs act [dep] = [] := by simp [notDoneDepList, h0, hf]
      rw [hocc, hmiss, hnd]
      refine ⟨fun w => by simpa using proj_if_id st.indeg wi w, fun w => rfl,
        fun w => by simpa using proj_if_id st.not_done wi w, fun d c => by simp⟩
    · simp only [hf]
      by_cases hdone : dn.status = "done"
      · simp only [if_pos hdone]
        have hocc : activeDepOcc jobs act [dep] = [] := by
          simp [activeDepOcc, h0, hf, hdone]
        have hmiss : missingDepList jobs [dep] = [] := by simp [missingDepList, h0, hf]
        have hnd : notDoneDepList jobs act [dep] = [] := by
          simp [notDoneDepList, h0, hf, hdone]
        rw [hocc, hmiss, hnd]
        refine ⟨fun w => by simpa using proj_if_id st.indeg wi w,
          fun w => by simpa using proj_if_id st.missing wi w,
          fun w => by simpa using proj_if_id st.not_done wi w,
          fun d c => by simp⟩
      · simp only [if_neg hdone]
        by_cases hact : act.contains (pyStrip dep) = true
        · have hmem : pyStrip dep ∈ act := by simpa using hact
          simp only [if_pos hact]
          have hocc : activeDepOcc jobs act [dep] = [pyStrip dep] := by
            simp [activeDepOcc, h0, hf, hdone, hmem]
          have hmiss : missingDepList jobs [dep] = [] := by simp [missingDepList, h0, hf]
          have hnd : notDoneDepList jobs act [dep] = [] := by
            simp [notDoneDepList, h0, hf, hdone, hmem]
          rw [hocc, hmiss, hnd]
          refine ⟨fun w => ?_, fun w => by simpa using proj_if_id st.missing wi w,
            fun w => by simpa using proj_if_id st.not_done wi w, fun d c => ?_⟩
          · show (if w = wi then st.indeg wi + 1 else st.indeg w) = _
            simp
          · show c ∈ (if d = pyStrip dep then st.adj (pyStrip dep) ++ [wi] else st.adj d) ↔ _
            by_cases hd : d = pyStrip dep
            · subst hd
              simp
            · rw [if_neg hd]
              simp only [List.mem_singleton]
              constructor
              · intro hmm
                exact Or.inl hmm
              · rintro (hmm | ⟨-, rfl⟩)
                · exact hmm
                · exact absurd rfl hd
        · have hnmem : pyStrip dep ∉ act := by simpa using hact
          simp only [if_neg hact]
          have hocc : activeDepOcc jobs act [dep] = [] := by
            simp [activeDepOcc, h0, hf, hdone, hnmem]
          have hmiss : missingDepList jobs [dep] = [] := by simp [missingDepList, h0, hf]
          have hnd : notDoneDepList jobs act [dep] = [pyStrip dep] := by
            simp [notDoneDepList, h0, hf, hdone, hnmem]
          rw [hocc, hmiss, hnd]
          refine ⟨fun w => by simpa using proj_if_id st.indeg wi w,
            fun w => by simpa using proj_if_id st.missing wi w, fun w => rfl,
            fun d c => by simp⟩

theorem analyzeStep_indeg (jobs : List JobNode) (act : List String) (wi : String)
    (st : DepAnalysis) (dep : String) (w : String) :
    (analyzeStep jobs act wi st dep).indeg w =
      if w = wi then
        st.indeg wi + ((activeDepOcc jobs act [dep]).length : ℤ)
      else st.indeg w :=
  (analyzeStep_spec jobs act wi st dep).1 w

theorem analyzeStep_missing (jobs : List JobNode) (act : List String) (wi : String)
    (st : DepAnalysis) (dep : String) (w : String) :
    (analyzeStep jobs act wi st dep).missing w =
      if w = wi then st.missing wi ++ missingDepList jobs [dep] else st.missing w :=
  (analyzeStep_spec jobs act wi st dep).2.1 w

theorem analyzeStep_not_done (jobs : List JobNode) (act : List String) (wi : String)
    (st : DepAnalysis) (dep : String) (w : String) :
    (analyzeStep jobs act wi st dep).not_done w =
      if w = wi then st.not_done wi ++ notDoneDepList jobs act [dep] else st.not_done w :=
  (analyzeStep_spec jobs act wi st dep).2.2.1 w

theorem analyzeStep_adj (jobs : List JobNode) (act : List String) (wi : String)
    (st : DepAnalysis) (dep : String) (d c : String) :
    (c ∈ (analyzeStep jobs act wi st dep).adj d ↔
      c ∈ st.adj d ∨ (c = wi ∧ d ∈ activeDepOcc jobs act [dep])) :=
  (analyzeStep_spec jobs act wi st dep).2.2.2 d c

theorem inner_fold_indeg (jobs : List JobNode) (act : List String) (wi : String) :
    ∀ (deps : List String) (st : DepAnalysis) (w : String),
    (deps.foldl (analyzeStep jobs act wi) st).indeg w =
      if w = wi then st.indeg wi + ((activeDepOcc jobs act deps).length : ℤ)
      else st.indeg w := by
  intro deps
  induction deps with
  | nil =>
    intro st w
    simpa [activeDepOcc] using proj_if_id st.indeg wi w
  | cons dep deps ih =>
    intro st w
    rw [List.foldl_cons, ih]
    have hocc : activeDepOcc jobs act (dep :: deps) =
        activeDepOcc jobs act [dep] ++ activeDepOcc jobs act deps := by
      simp only [activeDepOcc]
      exact filterMap_cons_split _ _ _
    rw [hocc]
    by_cases h : w = wi
    · subst h
      rw [if_pos rfl, if_pos rfl, analyzeStep_indeg, if_pos rfl]
      push_cast [List.length_append]
      ring
    · rw [if_neg h, if_neg h, analyzeStep_indeg, if_neg h]

theorem inner_fold_missing (jobs : List JobNode) (act : List String) (wi : String) :
    ∀ (deps : List String) (st : DepAnalysis) (w : String),
    (deps.foldl (analyzeStep jobs act wi) st).missing w =
      if w = wi then st.missing wi ++ missingDepList jobs deps else st.missing w := by
  intro deps
  induction deps with
  | nil =>
    intro st w
    simpa [missingDepList] using proj_if_id st.missing wi w
  | cons dep deps ih =>
    intro st w
    rw [List.foldl_cons, ih]
    have hocc : missingDepList jobs (dep :: deps) =
        missingDepList jobs [dep] ++ missingDepList jobs deps := by
      simp only [missingDepList]
      exact filterMap_cons_split _ _ _
    rw [hocc]
    by_cases h : w = wi
    · subst h
      rw [if_pos rfl, if_pos rfl, analyzeStep_missing, if_pos rfl, List.append_assoc]
    · rw [if_neg h, if_neg h, analyzeStep_missing, if_neg h]

theorem inner_fold_not_done (jobs : List JobNode) (act : List String) (wi : String) :
    ∀ (deps : List String) (st : DepAnalysis) (w : String),
    (deps.foldl (analyzeStep jobs act wi) st).not_done w =
      if w = wi then st.not_done wi ++ notDoneDepList jobs act deps else st.not_done w := by
  intro deps
  induction deps with
  | nil =>
    intro st w
    simpa [notDoneDepList] using proj_if_id st.not_done wi w
  | cons dep deps ih =>
    intro st w
    rw [List.foldl_cons, ih]
    have hocc : notDoneDepList jobs act (dep :: deps) =
        notDoneDepList jobs act [dep] ++ notDoneDepList jobs act deps := by
      simp only [notDoneDepList]
      exact filterMap_cons_split _ _ _
    rw [hocc]
    by_cases h : w = wi
    · subst h
      rw [if_pos rfl, if_pos rfl, analyzeStep_not_done, if_pos rfl, List.append_assoc]
    · rw [if_neg h, if_neg h, analyzeStep_not_done, if_neg h]

theorem inner_fold_adj (jobs : List JobNode) (act : List String) (wi : String) :
    ∀ (deps : List String) (st : DepAnalysis) (d c : String),
    (c ∈ (deps.foldl (analyzeStep jobs act wi) st).adj d ↔
      c ∈ st.adj d ∨ (c = wi ∧ d ∈ activeDepOcc jobs act deps)) := by
  intro deps
  induction deps with
  | nil =>
    intro st d c
    simp [activeDepOcc]
  | cons dep deps ih =>
    intro st d c
    rw [List.foldl_cons, ih]
    have hocc : activeDepOcc jobs act (dep :: deps) =
        activeDepOcc jobs act [dep] ++ activeDepOcc jobs act deps := by
      simp only [activeDepOcc]
      exact filterMap_cons_split _ _ _
    rw [hocc, analyzeStep_adj]
    simp only [List.mem_append]
    tauto

theorem analyzeJob_indeg (jobs : List JobNode) (act : List String)
    (st : DepAnalysis) (wi w : String) :
    (analyzeJob jobs act st wi).indeg w =
      if w = wi then st.indeg wi + ((activeDepOcc jobs act (depsOf jobs wi)).length : ℤ)
      else st.indeg w := by
  unfold analyzeJob depsOf
  rcases findJob jobs wi with _ | j
  · simpa [activeDepOcc] using proj_if_id st.indeg wi w
  · exact inner_fold_indeg jobs act wi j.depends_on st w

theorem analyzeJob_missing (jobs : List JobNode) (act : List String)
    (st : DepAnalysis) (wi w : String) :
    (analyzeJob jobs act st wi).missing w =
      if w = wi then st.missing wi ++ missingDepList jobs (depsOf jobs wi)
      else st.missing w := by
  unfold analyzeJob depsOf
  rcases findJob jobs wi with _ | j
  · simpa [missingDepList] using proj_if_id st.missing wi w
  · exact inner_fold_missing jobs act wi j.depends_on st w

theorem analyzeJob_not_done (jobs : List JobNode) (act : List String)
    (st : DepAnalysis) (wi w : String) :
    (analyzeJob jobs act st wi).not_done w =
      if w = wi then st.not_done wi ++ notDoneDepList jobs act (depsOf jobs wi)
      else st.not_done w := by
  unfold analyzeJob depsOf
  rcases findJob jobs wi with _ | j
  · simpa [notDoneDepList] using proj_if_id st.not_done wi w
  · exact inner_fold_not_done jobs act wi j.depends_on st w

theorem analyzeJob_adj (jobs : List JobNode) (act : List String)
    (st : DepAnalysis) (wi d c : String) :
    (c ∈ (analyzeJob jobs act st wi).adj d ↔
      c ∈ st.adj d ∨ (c = wi ∧ d ∈ activeDepOcc jobs act (depsOf jobs wi))) := by
  unfold analyzeJob depsOf
  rcases findJob jobs wi with _ | j
  · simp [activeDepOcc]
  · exact inner_fold_adj jobs act wi j.depends_on st d c

theorem outer_fold_indeg (jobs : List JobNode) (act : List String) :
    ∀ (l : List String), l.Nodup → ∀ (st : DepAnalysis) (w : String),
    (l.foldl (analyzeJob jobs act) st).indeg w =
      if w ∈ l then st.indeg w + ((activeDepOcc jobs act (depsOf jobs w)).length : ℤ)
      else st.indeg w := by
  intro l
  induction l with
  | nil => simp
  | cons u l ih =>
    intro hl st w
    rw [List.foldl_cons, ih (List.Nodup.of_cons hl)]
    by_cases hw : w = u
    · subst hw
      have hnw : w ∉ l := (List.nodup_cons.mp hl).1
      rw [if_neg hnw, analyzeJob_indeg, if_pos rfl]
      simp
    · rw [analyzeJob_indeg, if_neg hw]
      by_cases hwl : w ∈ l
      · rw [if_pos hwl, if_pos (List.mem_cons_of_mem u hwl)]
      · rw [if_neg hwl, if_neg (by simp [hw, hwl])]

theorem outer_fold_missing (jobs : List JobNode) (act : List String) :
    ∀ (l : List String), l.Nodup → ∀ (st : DepAnalysis) (w : String),
    (l.foldl (analyzeJob jobs act) st).missing w =
      if w ∈ l then st.missing w ++ missingDepList jobs (depsOf jobs w)
      else st.missing w := by
  intro l
  induction l with
  | nil => simp
  | cons u l ih =>
    intro hl st w
    rw [List.foldl_cons, ih (List.Nodup.of_cons hl)]
    by_cases hw : w = u
    · subst hw
      have hnw : w ∉ l := (List.nodup_cons.mp hl).1
      rw [if_neg hnw, analyzeJob_missing, if_pos rfl, if_pos (List.mem_cons_self w l)]
    · rw [analyzeJob_missing, if_neg hw]
      by_cases hwl : w ∈ l
      · rw [if_pos hwl, if_pos (List.mem_cons_of_mem u hwl)]
      · rw [if_neg hwl, if_neg (by simp [hw, hwl])]

theorem outer_fold_not_done (jobs : List JobNode) (act : List String) :
    ∀ (l : List String), l.Nodup → ∀ (st : DepAnalysis) (w : String),
    (l.foldl (analyzeJob jobs act) st).not_done w =
      if w ∈ l then st.not_done w ++ notDoneDepList jobs act (depsOf jobs w)
      else st.not_done w := by
  intro l
  induction l with
  | nil => simp
  | cons u l ih =>
    intro hl st w
    rw [List.foldl_cons, ih (List.Nodup.of_cons hl)]
    by_cases hw : w = u
    · subst hw
      have hnw : w ∉ l := (List.nodup_cons.mp hl).1
      rw [if_neg hnw, analyzeJob_not_done, if_pos rfl, if_pos (List.mem_cons_self w l)]
    · rw [analyzeJob_not_done, if_neg hw]
      by_cases hwl : w ∈ l
      · rw [if_pos hwl, if_pos (List.mem_cons_of_mem u hwl)]
      · rw [if_neg hwl, if_neg (by simp [hw, hwl])]

theorem outer_fold_adj (jobs : List JobNode) (act : List String) :
    ∀ (l : List String) (st : DepAnalysis) (d c : String),
    (c ∈ (l.foldl (analyzeJob jobs act) st).adj d ↔
      c ∈ st.adj d ∨ (c ∈ l ∧ d ∈ activeDepOcc jobs act (depsOf jobs c))) := by
  intro l
  induction l with
  | nil => simp
  | cons u l ih =>
    intro st d c
    rw [List.foldl_cons, ih]
    rw [analyzeJob_adj]
    simp only [List.mem_cons]
    constructor
    · rintro ((h | ⟨rfl, h⟩) | ⟨h1, h2⟩)
      · exact Or.inl h
      · exact Or.inr ⟨Or.inl rfl, h⟩
      · exact Or.inr ⟨Or.inr h1, h2⟩
    · rintro (h | ⟨(rfl | h1), h2⟩)
      · exact Or.inl (Or.inl h)
      · exact Or.inl (Or.inr ⟨rfl, h2⟩)
      · exact Or.inr ⟨h1, h2⟩

theorem active_ids_nodup {jobs : List JobNode}
    (h : (jobs.map (·.work_item_id)).Nodup) : (active_ids jobs).Nodup :=
  List.Nodup.filter _ (sortStr_nodup h)

theorem analyze_indeg {jobs : List JobNode}
    (h : (jobs.map (·.work_item_id)).Nodup) (w : String) :
    (analyze jobs).indeg w =
      if w ∈ active_ids jobs then
        ((activeDepOcc jobs (active_ids jobs) (depsOf jobs w)).length : ℤ)
      else 0 := by
  unfold analyze
  rw [outer_fold_indeg jobs (active_ids jobs) (active_ids jobs) (active_ids_nodup h)]
  split <;> simp

theorem analyze_missing {jobs : List JobNode}
    (h : (jobs.map (·.work_item_id)).Nodup) (w : String) :
    (analyze jobs).missing w =
      if w ∈ active_ids jobs then missingDepList jobs (depsOf jobs w) else [] := by
  unfold analyze
  rw [outer_fold_missing jobs (active_ids jobs) (active_ids jobs) (active_ids_nodup h)]
  split <;> simp

theorem analyze_not_done {jobs : List JobNode}
    (h : (jobs.map (·.work_item_id)).Nodup) (w : String) :
    (analyze jobs).not_done w =
      if w ∈ active_ids jobs then notDoneDepList jobs (active_ids jobs) (depsOf jobs w)
      else [] := by
  unfold analyze
  rw [outer_fold_not_done jobs (active_ids jobs) (active_ids jobs) (active_ids_nodup h)]
  split <;> simp

theorem analyze_adj {jobs : List JobNode} (d c : String) :
    (c ∈ (analyze jobs).adj d ↔
      c ∈ active_ids jobs ∧ d ∈ activeDepOcc jobs (active_ids jobs) (depsOf jobs c)) := by
  unfold analyze
  rw [outer_fold_adj]
  simp

theorem mem_adjS {jobs : List JobNode} {w c : String} :
    c ∈ sortedDedup ((analyze jobs).adj w) ↔
      c ∈ active_ids jobs ∧ w ∈ occOf jobs c := by
  rw [mem_sortedDedup, analyze_adj]
  exact Iff.rfl

theorem mem_active_elim {jobs : List JobNode} {x : String}
    (hx : x ∈ active_ids jobs) :
    ∃ j, findJob jobs x = some j ∧ RUNNABLE_STATUSES.contains j.status = true := by
  unfold active_ids at hx
  rcases List.mem_filter.mp hx with ⟨-, hcond⟩
  rcases hfind : findJob jobs x with _ | j
  · rw [hfind] at hcond
    cases hcond
  · rw [hfind] at hcond
    exact ⟨j, rfl, hcond⟩

theorem active_mem_ids {jobs : List JobNode} {x : String}
    (hx : x ∈ active_ids jobs) : x ∈ jobs.map (·.work_item_id) := by
  unfold active_ids node_ids at hx
  exact mem_sortStr.mp (List.mem_filter.mp hx).1

theorem childFold_formula (ok : String → Bool) (cs : List String) :
    ∀ (indeg : String → ℤ) (F : List String), cs.Nodup →
    cs.foldl (fun (a : (String → ℤ) × List String) child =>
      let ind2 := fun w => if w = child then a.1 child - 1 else a.1 w
      if ind2 child = 0 ∧ ok child = true then (ind2, a.2 ++ [child])
      else (ind2, a.2)) (indeg, F) =
    ((fun c => if c ∈ cs then indeg c - 1 else indeg c),
     F ++ cs.filter (fun c => decide (indeg c - 1 = 0) && ok c)) := by
  induction cs with
  | nil =>
    intro indeg F _
    simp only [List.foldl_nil, List.filter_nil, List.append_nil]
    have h1 : (fun c : String =>
        if c ∈ ([] : List String) then indeg c - 1 else indeg c) = indeg := by
      funext c
      simp
    rw [h1]
  | cons c cs ih =>
    intro indeg F hnd
    rcases List.nodup_cons.mp hnd with ⟨hc, hcs⟩
    rw [List.foldl_cons]
    have hstep : (fun (a : (String → ℤ) × List String) child =>
        let ind2 := fun w => if w = child then a.1 child - 1 else a.1 w
        if ind2 child = 0 ∧ ok child = true then (ind2, a.2 ++ [child])
        else (ind2, a.2)) (indeg, F) c =
        ((fun w => if w = c then indeg c - 1 else indeg w),
         if indeg c - 1 = 0 ∧ ok c = true then F ++ [c] else F) := by
      show (if (if c = c then indeg c - 1 else indeg c) = 0 ∧ ok c = true
          then ((fun w => if w = c then indeg c - 1 else indeg w), F ++ [c])
          else ((fun w => if w = c then indeg c - 1 else indeg w), F)) = _
      rw [if_pos rfl]
      split
      · rfl
      · rfl
    show List.foldl (fun (a : (String → ℤ) × List String) child =>
        let ind2 := fun w => if w = child then a.1 child - 1 else a.1 w
        if ind2 child = 0 ∧ ok child = true then (ind2, a.2 ++ [child])
        else (ind2, a.2))
      ((fun (a : (String → ℤ) × List String) child =>
        let ind2 := fun w => if w = child then a.1 child - 1 else a.1 w
        if ind2 child = 0 ∧ ok child = true then (ind2, a.2 ++ [child])
        else (ind2, a.2)) (indeg, F) c) cs = _
    rw [hstep, ih _ _ hcs, Prod.mk.injEq]
    refine ⟨?_, ?_⟩
    · funext x
      by_cases hx : x = c
      · subst hx
        simp [hc]
      · by_cases hx2 : x ∈ cs
        · simp [hx, hx2]
        · simp [hx, hx2]
    · rw [List.filter_cons]
      have hfc : cs.filter (fun x =>
            decide ((fun w => if w = c then indeg c - 1 else indeg w) x - 1 = 0) && ok x) =
          cs.filter (fun x => decide (indeg x - 1 = 0) && ok x) := by
        apply List.filter_congr
        intro x hx
        have hxc : x ≠ c := fun h => hc (h ▸ hx)
        simp [hxc]
      rw [hfc]
      by_cases hcond : indeg c - 1 = 0 ∧ ok c = true
      · rw [if_pos hcond]
        have hb : (decide (indeg c - 1 = 0) && ok c) = true := by
          rcases hcond with ⟨h1, h2⟩
          simp [h1, h2]
        rw [if_pos hb]
        simp
      · rw [if_neg hcond]
        have hb : ¬((decide (indeg c - 1 = 0) && ok c) = true) := by
          intro hb
          have hb2 : indeg c - 1 = 0 ∧ ok c = true := by simpa using hb
          exact hcond hb2
        rw [if_neg hb]

theorem waveNode_effect (adjS : String → List String) (ok : String → Bool)
    (indeg : String → ℤ) (F S : List String) (wi : String)
    (h : (adjS wi).Nodup) :
    waveNode adjS ok (indeg, F, S) wi =
      ((fun c => if c ∈ adjS wi then indeg c - 1 else indeg c),
       F ++ (adjS wi).filter (fun c => decide (indeg c - 1 = 0) && ok c),
       S ++ [wi]) := by
  show (((adjS wi).foldl (fun (a : (String → ℤ) × List String) child =>
      let ind2 := fun w => if w = child then a.1 child - 1 else a.1 w
      if ind2 child = 0 ∧ ok child = true then (ind2, a.2 ++ [child])
      else (ind2, a.2)) (indeg, F)).1,
    ((adjS wi).foldl (fun (a : (String → ℤ) × List String) child =>
      let ind2 := fun w => if w = child then a.1 child - 1 else a.1 w
      if ind2 child = 0 ∧ ok child = true then (ind2, a.2 ++ [child])
      else (ind2, a.2)) (indeg, F)).2,
    S ++ [wi]) =
    ((fun c => if c ∈ adjS wi then indeg c - 1 else indeg c),
     F ++ (adjS wi).filter (fun c => decide (indeg c - 1 = 0) && ok c),
     S ++ [wi])
  rw [childFold_formula ok (adjS wi) indeg F h]

theorem filter_mem_append_single {l S : List String} {w : String}
    (hl : l.Nodup) (hw : w ∉ S) :
    (l.filter (fun d => decide (d ∈ S ++ [w]))).length =
      (l.filter (fun d => decide (d ∈ S))).length + (if w ∈ l then 1 else 0) := by
  induction l with
  | nil => simp
  | cons a l ih =>
    rcases List.nodup_cons.mp hl with ⟨ha, hl2⟩
    rw [List.filter_cons, List.filter_cons]
    by_cases haw : a = w
    · subst haw
      have h1 : (decide (a ∈ S ++ [a])) = true := by simp
      have h2 : (decide (a ∈ S)) = false := by simp [hw]
      rw [h1, h2, if_pos rfl, if_neg (by simp), if_pos (List.mem_cons_self a l)]
      have hfc : l.filter (fun d => decide (d ∈ S ++ [a])) =
          l.filter (fun d => decide (d ∈ S)) := by
        apply List.filter_congr
        intro x hx
        have hxa : x ≠ a := fun h => ha (h ▸ hx)
        simp [hxa]
      rw [hfc]
      simp [Nat.add_comm]
    · have h1 : (decide (a ∈ S ++ [w])) = decide (a ∈ S) := by
        simp [haw]
      rw [h1]
      have hmemiff : (if w ∈ a :: l then (1 : ℕ) else 0) = if w ∈ l then 1 else 0 := by
        by_cases hwl : w ∈ l
        · rw [if_pos hwl, if_pos (List.mem_cons_of_mem a hwl)]
        · rw [if_neg hwl, if_neg ?_]
          intro hmm
          rcases List.mem_cons.mp hmm with h | h
          · exact haw h.symm
          · exact hwl h
      rw [hmemiff]
      by_cases hd : (decide (a ∈ S)) = true
      · rw [if_pos hd, if_pos hd]
        simp only [List.length_cons]
        rw [ih hl2]
        omega
      · rw [if_neg hd, if_neg hd]
        exact ih hl2

theorem mem_waveAdj {jobs : List JobNode} {w c : String} :
    c ∈ waveAdj jobs w ↔ c ∈ active_ids jobs ∧ w ∈ occOf jobs c :=
  mem_adjS

theorem getD_append_left {α : Type} :
    ∀ (l l2 : List α) (d : α) (k : ℕ), k < l.length → (l ++ l2).getD k d = l.getD k d
  | [], _, _, k, hk => absurd hk (by simp)
  | _ :: _, _, _, 0, _ => rfl
  | a :: l, l2, d, k + 1, hk =>
    getD_append_left l l2 d k (by simpa using hk)

theorem getD_append_len {α : Type} : ∀ (l : List α) (x : α) (d : α),
    (l ++ [x]).getD l.length d = x
  | [], _, _ => rfl
  | _ :: l, x, d => getD_append_len l x d

theorem WaveInv_refrontier {jobs : List JobNode} {F F2 S : List String}
    {indeg : String → ℤ} (hinv : WaveInv jobs F S indeg)
    (hmem : ∀ x, x ∈ F2 ↔ x ∈ F) (hnd : F2.Nodup) : WaveInv jobs F2 S indeg := by
  simp only [WaveInv] at hinv ⊢
  rcases hinv with ⟨h1, h2, h3, h4, h5⟩
  rcases List.nodup_append.mp h3 with ⟨hF, hS, hdisj⟩
  refine ⟨fun x hx => h1 x ((hmem x).mp hx), h2, ?_, ?_, h5⟩
  · exact List.Nodup.append hnd hS (fun a ha haS => hdisj ((hmem a).mp ha) haS)
  · intro x hx
    rcases List.mem_append.mp hx with h6 | h6
    · exact h4 x (List.mem_append_left _ ((hmem x).mp h6))
    · exact h4 x (List.mem_append_right _ h6)

theorem waveFold_inv {jobs : List JobNode} (S0 : List String) :
    ∀ (cur F S : List String) (indeg : String → ℤ),
    (∀ x ∈ cur, x ∈ active_ids jobs) →
    ((cur ++ (F ++ S)).Nodup) →
    (∀ x ∈ cur, indeg x = 0 ∧ ∀ d ∈ occOf jobs x, d ∈ S0) →
    (∀ x ∈ S0, x ∈ S) →
    WaveInv jobs F S indeg →
    WaveInv jobs
      (cur.foldl (waveNode (waveAdj jobs) (blockedOk (analyze jobs))) (indeg, F, S)).2.1
      (cur.foldl (waveNode (waveAdj jobs) (blockedOk (analyze jobs))) (indeg, F, S)).2.2
      (cur.foldl (waveNode (waveAdj jobs) (blockedOk (analyze jobs))) (indeg, F, S)).1 ∧
    (cur.foldl (waveNode (waveAdj jobs) (blockedOk (analyze jobs))) (indeg, F, S)).2.2
      = S ++ cur := by
  intro cur
  induction cur with
  | nil =>
    intro F S indeg _ _ _ _ hinv
    simp only [List.foldl_nil]
    exact ⟨hinv, (List.append_nil S).symm⟩
  | cons w cur ih =>
    intro F S indeg hact hnd hz hS0 hinv
    have hwact : w ∈ active_ids jobs := hact w (List.mem_cons_self w cur)
    have hw0 : indeg w = 0 := (hz w (List.mem_cons_self w cur)).1
    have hwoccS : ∀ d ∈ occOf jobs w, d ∈ S :=
      fun d hd => hS0 d ((hz w (List.mem_cons_self w cur)).2 d hd)
    rcases List.nodup_append.mp hnd with ⟨hcurN, hFS, hdisj⟩
    rcases List.nodup_cons.mp hcurN with ⟨hwcur, hcurN2⟩
    have hwF : w ∉ F :=
      fun hx => hdisj (List.mem_cons_self w cur) (List.mem_append_left S hx)
    have hwS : w ∉ S :=
      fun hx => hdisj (List.mem_cons_self w cur) (List.mem_append_right F hx)
    have hinv2 := hinv
    simp only [WaveInv] at hinv2
    rcases hinv2 with ⟨hFact, hSact, hFSN, hZ, hI⟩
    have hnotA : ∀ x, (∀ d ∈ occOf jobs x, d ∈ S) → x ∉ waveAdj jobs w := by
      intro x hx hmem
      exact hwS (hx w (mem_waveAdj.mp hmem).2)
    have hwnA : w ∉ waveAdj jobs w := hnotA w hwoccS
    have hFnA : ∀ x ∈ F, x ∉ waveAdj jobs w :=
      fun x hx => hnotA x (hZ x (List.mem_append_left S hx)).2
    have hSnA : ∀ x ∈ S, x ∉ waveAdj jobs w :=
      fun x hx => hnotA x (hZ x (List.mem_append_right F hx)).2
    have hcurnA : ∀ x ∈ cur, x ∉ waveAdj jobs w :=
      fun x hx => hnotA x (fun d hd => hS0 d ((hz x (List.mem_cons_of_mem w hx)).2 d hd))
    have hKid : ∀ c ∈ newKids jobs indeg w, c ∈ waveAdj jobs w ∧ indeg c = 1 := by
      intro c hc
      rcases List.mem_filter.mp hc with ⟨hcA, hcond⟩
      have hcond2 : indeg c - 1 = 0 ∧ blockedOk (analyze jobs) c = true := by
        simpa using hcond
      refine ⟨hcA, ?_⟩
      have := hcond2.1
      omega
    have hKact : ∀ c ∈ newKids jobs indeg w, c ∈ active_ids jobs :=
      fun c hc => (mem_waveAdj.mp (hKid c hc).1).1
    have hKocc : ∀ c ∈ newKids jobs indeg w, w ∈ occOf jobs c :=
      fun c hc => (mem_waveAdj.mp (hKid c hc).1).2
    have hcount : ∀ c,
        ((occOf jobs c).dedup.filter (fun d => decide (d ∈ S ++ [w]))).length =
          ((occOf jobs c).dedup.filter (fun d => decide (d ∈ S))).length +
            (if w ∈ (occOf jobs c).dedup then 1 else 0) :=
      fun _ => filter_mem_append_single (List.nodup_dedup _) hwS
    have hNlN : (newKids jobs indeg w).Nodup := List.Nodup.filter _ (sortedDedup_nodup _)
    have hdisjN : List.Disjoint ((w :: cur) ++ (F ++ S)) (newKids jobs indeg w) := by
      intro a ha haN
      have h1 : indeg a = 1 := (hKid a haN).2
      rcases List.mem_append.mp ha with h2 | h2
      · rcases List.mem_cons.mp h2 with h3 | h3
        · subst h3
          omega
        · have h4 := (hz a (List.mem_cons_of_mem w h3)).1
          omega
      · have h4 := (hZ a h2).1
        omega
    have happ : (((w :: cur) ++ (F ++ S)) ++ newKids jobs indeg w).Nodup :=
      List.Nodup.append hnd hNlN hdisjN
    have hperm : (((w :: cur) ++ (F ++ S)) ++ newKids jobs indeg w).Perm
        (cur ++ ((F ++ newKids jobs indeg w) ++ (S ++ [w]))) := by
      refine List.perm_iff_count.mpr fun a => ?_
      simp [List.count_append, List.count_cons]
      omega
    have hbig : (cur ++ ((F ++ newKids jobs indeg w) ++ (S ++ [w]))).Nodup :=
      hperm.nodup_iff.mp happ
    have hinv' : WaveInv jobs (F ++ newKids jobs indeg w) (S ++ [w])
        (fun c => if c ∈ waveAdj jobs w then indeg c - 1 else indeg c) := by
      simp only [WaveInv]
      refine ⟨?_, ?_, ?_, ?_, ?_⟩
      · intro x hx
        rcases List.mem_append.mp hx with h2 | h2
        · exact hFact x h2
        · exact hKact x h2
      · intro x hx
        rcases List.mem_append.mp hx with h2 | h2
        · exact hSact x h2
        · rcases List.mem_singleton.mp h2 with rfl
          exact hwact
      · exact (List.nodup_append.mp hbig).2.1
      · intro x hx
        rcases List.mem_append.mp hx with h2 | h2
        · rcases List.mem_append.mp h2 with h3 | h3
          · refine ⟨?_, ?_⟩
            · show (if x ∈ waveAdj jobs w then indeg x - 1 else indeg x) = 0
              rw [if_neg (hFnA x h3)]
              exact (hZ x (List.mem_append_left S h3)).1
            · intro d hd
              exact List.mem_append_left _ ((hZ x (List.mem_append_left S h3)).2 d hd)
          · have hxA := (hKid x h3).1
            have hx1 : indeg x = 1 := (hKid x h3).2
            have hxact := hKact x h3
            have hxI := hI x hxact
            have hocc_w : w ∈ (occOf jobs x).dedup := List.mem_dedup.mpr (hKocc x h3)
            have hcnt := hcount x
            rw [if_pos hocc_w] at hcnt
            have hlen1 :
                ((occOf jobs x).dedup.filter (fun d => decide (d ∈ S ++ [w]))).length ≤
                  (occOf jobs x).dedup.length := List.length_filter_le _ _
            have hlen2 : (occOf jobs x).dedup.length ≤ (occOf jobs x).length :=
              (List.dedup_sublist _).length_le
            have hfull :
                ((occOf jobs x).dedup.filter (fun d => decide (d ∈ S ++ [w]))).length =
                  (occOf jobs x).dedup.length := by omega
            have heq : (occOf jobs x).dedup.filter (fun d => decide (d ∈ S ++ [w])) =
                (occOf jobs x).dedup :=
              (List.filter_sublist _).eq_of_length hfull
            refine ⟨?_, ?_⟩
            · show (if x ∈ waveAdj jobs w then indeg x - 1 else indeg x) = 0
              rw [if_pos hxA]
              omega
            · intro d hd
              have hdD : d ∈ (occOf jobs x).dedup := List.mem_dedup.mpr hd
              have hdf : d ∈ (occOf jobs x).dedup.filter
                  (fun d => decide (d ∈ S ++ [w])) := by
                rw [heq]
                exact hdD
              exact of_decide_eq_true (List.mem_filter.mp hdf).2
        · rcases List.mem_append.mp h2 with h3 | h3
          · refine ⟨?_, ?_⟩
            · show (if x ∈ waveAdj jobs w then indeg x - 1 else indeg x) = 0
              rw [if_neg (hSnA x h3)]
              exact (hZ x (List.mem_append_right F h3)).1
            · intro d hd
              exact List.mem_append_left _ ((hZ x (List.mem_append_right F h3)).2 d hd)
          · rcases List.mem_singleton.mp h3 with rfl
            refine ⟨?_, ?_⟩
            · show (if x ∈ waveAdj jobs x then indeg x - 1 else indeg x) = 0
              rw [if_neg hwnA]
              exact hw0
            · intro d hd
              exact List.mem_append_left _ (hwoccS d hd)
      · intro c hcact
        have hxI := hI c hcact
        have hcnt := hcount c
        show (if c ∈ waveAdj jobs w then indeg c - 1 else indeg c) =
          ((occOf jobs c).length : ℤ) -
            (((occOf jobs c).dedup.filter (fun d => decide (d ∈ S ++ [w]))).length : ℤ)
        by_cases hcA : c ∈ waveAdj jobs w
        · rw [if_pos hcA]
          have hwD : w ∈ (occOf jobs c).dedup :=
            List.mem_dedup.mpr (mem_waveAdj.mp hcA).2
          rw [if_pos hwD] at hcnt
          omega
        · rw [if_neg hcA]
          have hwD : w ∉ (occOf jobs c).dedup := by
            intro hmm
            exact hcA (mem_waveAdj.mpr ⟨hcact, List.mem_dedup.mp hmm⟩)
          rw [if_neg hwD] at hcnt
          omega
    have heff : waveNode (waveAdj jobs) (blockedOk (analyze jobs)) (indeg, F, S) w =
        ((fun c => if c ∈ waveAdj jobs w then indeg c - 1 else indeg c),
         F ++ newKids jobs indeg w, S ++ [w]) :=
      waveNode_effect (waveAdj jobs) (blockedOk (analyze jobs)) indeg F S w
        (sortedDedup_nodup _)
    rw [List.foldl_cons, heff]
    have hact' : ∀ x ∈ cur, x ∈ active_ids jobs :=
      fun x hx => hact x (List.mem_cons_of_mem w hx)
    have hz' : ∀ x ∈ cur,
        (fun c => if c ∈ waveAdj jobs w then indeg c - 1 else indeg c) x = 0 ∧
          ∀ d ∈ occOf jobs x, d ∈ S0 := by
      intro x hx
      refine ⟨?_, (hz x (List.mem_cons_of_mem w hx)).2⟩
      show (if x ∈ waveAdj jobs w then indeg x - 1 else indeg x) = 0
      rw [if_neg (hcurnA x hx)]
      exact (hz x (List.mem_cons_of_mem w hx)).1
    have hS0' : ∀ x ∈ S0, x ∈ S ++ [w] :=
      fun x hx => List.mem_append_left _ (hS0 x hx)
    obtain ⟨ha2, hb2⟩ := ih (F ++ newKids jobs indeg w) (S ++ [w])
      (fun c => if c ∈ waveAdj jobs w then indeg c - 1 else indeg c)
      hact' hbig hz' hS0' hinv'
    exact ⟨ha2, hb2.trans (by simp)⟩

theorem waveLoop_good {jobs : List JobNode} (limit : ℕ) :
    ∀ (fuel : ℕ) (frontier : List String) (waves : List (List String))
      (scheduled : List String) (indeg : String → ℤ),
    WaveInv jobs frontier scheduled indeg →
    (∀ d, d ∈ scheduled ↔ ∃ k, k < waves.length ∧ d ∈ waves.getD k []) →
    GoodWaves jobs waves →
    GoodWaves jobs (waveLoop (waveAdj jobs) (blockedOk (analyze jobs)) limit fuel
      frontier waves scheduled indeg).1 := by
  intro fuel
  induction fuel with
  | zero =>
    intro frontier waves scheduled indeg _ _ hgood
    exact hgood
  | succ fuel ih =>
    intro frontier waves scheduled indeg hinv hmem hgood
    rcases frontier with _ | ⟨f, fr⟩
    · exact hgood
    · have hinv2 := hinv
      simp only [WaveInv] at hinv2
      rcases hinv2 with ⟨hFact, hSact, hFSN, hZ, hI⟩
      have htake_act : ∀ x ∈ (f :: fr).take limit, x ∈ active_ids jobs :=
        fun x hx => hFact x (List.take_subset _ _ hx)
      have htake_nodup :
          ((f :: fr).take limit ++ ((f :: fr).drop limit ++ scheduled)).Nodup := by
        rw [← List.append_assoc, List.take_append_drop]
        exact hFSN
      have htake_z : ∀ x ∈ (f :: fr).take limit,
          indeg x = 0 ∧ ∀ d ∈ occOf jobs x, d ∈ scheduled :=
        fun x hx => hZ x (List.mem_append_left _ (List.take_subset _ _ hx))
      have hinvD : WaveInv jobs ((f :: fr).drop limit) scheduled indeg := by
        simp only [WaveInv]
        refine ⟨fun x hx => hFact x (List.drop_subset _ _ hx), hSact, ?_, ?_, hI⟩
        · have hs : ((f :: fr).drop limit ++ scheduled).Sublist ((f :: fr) ++ scheduled) :=
            (List.drop_sublist _ _).append_right scheduled
          exact hs.nodup hFSN
        · intro x hx
          rcases List.mem_append.mp hx with h2 | h2
          · exact hZ x (List.mem_append_left _ (List.drop_subset _ _ h2))
          · exact hZ x (List.mem_append_right _ h2)
      obtain ⟨hinvR, hsched⟩ := waveFold_inv scheduled ((f :: fr).take limit)
        ((f :: fr).drop limit) scheduled indeg htake_act htake_nodup htake_z
        (fun _ hx => hx) hinvD
      have hmem' : ∀ d,
          d ∈ (((f :: fr).take limit).foldl
            (waveNode (waveAdj jobs) (blockedOk (analyze jobs)))
            (indeg, (f :: fr).drop limit, scheduled)).2.2 ↔
          ∃ k, k < (waves ++ [(f :: fr).take limit]).length ∧
            d ∈ (waves ++ [(f :: fr).take limit]).getD k [] := by
        intro d
        rw [hsched]
        constructor
        · intro hd
          rcases List.mem_append.mp hd with h2 | h2
          · rcases (hmem d).mp h2 with ⟨k, hk, hdk⟩
            refine ⟨k, ?_, ?_⟩
            · simp only [List.length_append, List.length_singleton]
              omega
            · rw [getD_append_left _ _ _ _ hk]
              exact hdk
          · refine ⟨waves.length, ?_, ?_⟩
            · simp
            · rw [getD_append_len]
              exact h2
        · rintro ⟨k, hk, hdk⟩
          by_cases hkw : k < waves.length
          · rw [getD_append_left _ _ _ _ hkw] at hdk
            exact List.mem_append_left _ ((hmem d).mpr ⟨k, hkw, hdk⟩)
          · have hkeq : k = waves.length := by
              simp only [List.length_append, List.length_singleton] at hk
              omega
            subst hkeq
            rw [getD_append_len] at hdk
            exact List.mem_append_right _ hdk
      have hgood' : GoodWaves jobs (waves ++ [(f :: fr).take limit]) := by
        simp only [GoodWaves]
        intro k wi hk hwi d hd
        by_cases hkw : k < waves.length
        · rw [getD_append_left _ _ _ _ hkw] at hwi
          rcases hgood k wi hkw hwi d hd with ⟨k2, hk2, hdk2⟩
          refine ⟨k2, hk2, ?_⟩
          rw [getD_append_left _ _ _ _ (hk2.trans hkw)]
          exact hdk2
        · have hkeq : k = waves.length := by
            simp only [List.length_append, List.length_singleton] at hk
            omega
          subst hkeq
          rw [getD_append_len] at hwi
          have hwiF : wi ∈ (f :: fr) := List.take_subset _ _ hwi
          have hocc : d ∈ scheduled := (hZ wi (List.mem_append_left _ hwiF)).2 d hd
          rcases (hmem d).mp hocc with ⟨k2, hk2, hdk2⟩
          refine ⟨k2, hk2, ?_⟩
          rw [getD_append_left _ _ _ _ hk2]
          exact hdk2
      have hinvS := WaveInv_refrontier hinvR (fun _ => mem_sortedDedup)
        (sortedDedup_nodup _)
      show GoodWaves jobs (waveLoop (waveAdj jobs) (blockedOk (analyze jobs)) limit fuel
        (sortedDedup ((((f :: fr).take limit).foldl
          (waveNode (waveAdj jobs) (blockedOk (analyze jobs)))
          (indeg, (f :: fr).drop limit, scheduled)).2.1))
        (waves ++ [(f :: fr).take limit])
        ((((f :: fr).take limit).foldl
          (waveNode (waveAdj jobs) (blockedOk (analyze jobs)))
          (indeg, (f :: fr).drop limit, scheduled)).2.2)
        ((((f :: fr).take limit).foldl
          (waveNode (waveAdj jobs) (blockedOk (analyze jobs)))
          (indeg, (f :: fr).drop limit, scheduled)).1)).1
      exact ih _ _ _ _ hinvS hmem' hgood'

theorem schedule_good {jobs : List JobNode}
    (h : (jobs.map (·.work_item_id)).Nodup) (limit : ℕ) :
    GoodWaves jobs (schedule jobs limit).1 := by
  have hinv0 : WaveInv jobs (initial_frontier jobs) [] (analyze jobs).indeg := by
    simp only [WaveInv]
    refine ⟨?_, ?_, ?_, ?_, ?_⟩
    · intro x hx
      exact (List.mem_filter.mp hx).1
    · intro x hx
      cases hx
    · rw [List.append_nil]
      exact List.Nodup.filter _ (active_ids_nodup h)
    · intro x hx
      rw [List.append_nil] at hx
      have hxact := (List.mem_filter.mp hx).1
      have hcond := (List.mem_filter.mp hx).2
      have hcond2 : (analyze jobs).indeg x = 0 ∧ blockedOk (analyze jobs) x = true := by
        simpa using hcond
      have hid := analyze_indeg h x
      rw [if_pos hxact, hcond2.1] at hid
      have hlen : (activeDepOcc jobs (active_ids jobs) (depsOf jobs x)).length = 0 := by
        exact_mod_cast hid.symm
      have hocc0 : occOf jobs x = [] := List.eq_nil_of_length_eq_zero hlen
      refine ⟨hcond2.1, ?_⟩
      rw [hocc0]
      intro d hd
      cases hd
    · intro c hcact
      have hid := analyze_indeg h c
      rw [if_pos hcact] at hid
      rw [hid]
      simp [occOf]
  have hmem0 : ∀ d, d ∈ ([] : List String) ↔
      ∃ k, k < ([] : List (List String)).length ∧
        d ∈ ([] : List (List String)).getD k [] := by
    intro d
    simp
  have hgood0 : GoodWaves jobs [] := by
    simp only [GoodWaves]
    intro k wi hk
    simp at hk
  have hres := waveLoop_good limit ((active_ids jobs).length + 1)
    (initial_frontier jobs) [] [] (analyze jobs).indeg hinv0 hmem0 hgood0
  show GoodWaves jobs (waveLoop (waveAdj jobs) (blockedOk (analyze jobs)) limit
    ((active_ids jobs).length + 1) (initial_frontier jobs) [] []
    (analyze jobs).indeg).1
  exact hres

theorem runnable_ne_done {s : String}
    (h : RUNNABLE_STATUSES.contains s = true) : s ≠ "done" := by
  intro hs
  subst hs
  exact absurd h (by decide)

theorem waveLoop_nil (adjS : String → List String) (ok : String → Bool)
    (limit fuel fuel2 : ℕ) (waves : List (List String)) (scheduled : List String)
    (indeg : String → ℤ) (hf : fuel = fuel2 + 1) :
    waveLoop adjS ok limit fuel [] waves scheduled indeg = (waves, scheduled) := by
  subst hf
  rfl

theorem waveLoop_step_big (adjS : String → List String) (ok : String → Bool)
    (limit fuel fuel2 : ℕ) (f : String) (fr : List String)
    (waves : List (List String)) (scheduled : List String) (indeg : String → ℤ)
    (hf : fuel = fuel2 + 1) (h : fr.length + 1 ≤ limit) :
    waveLoop adjS ok limit fuel (f :: fr) waves scheduled indeg =
      waveLoop adjS ok limit fuel2
        (sortedDedup (((f :: fr).foldl (waveNode adjS ok)
          (indeg, ([] : List String), scheduled)).2.1))
        (waves ++ [f :: fr])
        (((f :: fr).foldl (waveNode adjS ok)
          (indeg, ([] : List String), scheduled)).2.2)
        (((f :: fr).foldl (waveNode adjS ok)
          (indeg, ([] : List String), scheduled)).1) := by
  subst hf
  have hlen : (f :: fr).length ≤ limit := by
    simp only [List.length_cons]
    omega
  show waveLoop adjS ok limit fuel2
      (sortedDedup ((((f :: fr).take limit).foldl (waveNode adjS ok)
        (indeg, (f :: fr).drop limit, scheduled)).2.1))
      (waves ++ [(f :: fr).take limit])
      ((((f :: fr).take limit).foldl (waveNode adjS ok)
        (indeg, (f :: fr).drop limit, scheduled)).2.2)
      ((((f :: fr).take limit).foldl (waveNode adjS ok)
        (indeg, (f :: fr).drop limit, scheduled)).1) = _
  rw [List.take_of_length_le hlen, List.drop_eq_nil_of_le hlen]

theorem abcd_waves : ∀ (limit : ℕ), 2 ≤ limit →
    (schedule abcdJobs limit).1 = [["WI-A"], ["WI-B", "WI-C"], ["WI-D"]] := by
  intro limit hl
  obtain ⟨m, rfl⟩ : ∃ m, limit = m + 2 := ⟨limit - 2, by omega⟩
  show (waveLoop (waveAdj abcdJobs) (blockedOk (analyze abcdJobs)) (m + 2) 5
    ["WI-A"] [] [] ((analyze abcdJobs).indeg)).1 =
    [["WI-A"], ["WI-B", "WI-C"], ["WI-D"]]
  rw [waveLoop_step_big (waveAdj abcdJobs) (blockedOk (analyze abcdJobs)) (m + 2) 5 4
    "WI-A" [] [] [] ((analyze abcdJobs).indeg) rfl
    (by simp only [List.length_nil]; omega)]
  rw [show sortedDedup (((["WI-A"] : List String).foldl
      (waveNode (waveAdj abcdJobs) (blockedOk (analyze abcdJobs)))
      ((analyze abcdJobs).indeg, ([] : List String), ([] : List String))).2.1) =
    ["WI-B", "WI-C"] from by decide]
  rw [show (((["WI-A"] : List String).foldl
      (waveNode (waveAdj abcdJobs) (blockedOk (analyze abcdJobs)))
      ((analyze abcdJobs).indeg, ([] : List String), ([] : List String))).2.2) =
    ["WI-A"] from by decide]
  rw [waveLoop_step_big (waveAdj abcdJobs) (blockedOk (analyze abcdJobs)) (m + 2) 4 3
    "WI-B" ["WI-C"] _ ["WI-A"] _ rfl
    (by simp only [List.length_cons, List.length_nil]; omega)]
  rw [show sortedDedup (((["WI-B", "WI-C"] : List String).foldl
      (waveNode (waveAdj abcdJobs) (blockedOk (analyze abcdJobs)))
      (((["WI-A"] : List String).foldl
        (waveNode (waveAdj abcdJobs) (blockedOk (analyze abcdJobs)))
        ((analyze abcdJobs).indeg, ([] : List String), ([] : List String))).1,
       ([] : List String), (["WI-A"] : List String))).2.1) = ["WI-D"] from by decide]
  rw [show (((["WI-B", "WI-C"] : List String).foldl
      (waveNode (waveAdj abcdJobs) (blockedOk (analyze abcdJobs)))
      (((["WI-A"] : List String).foldl
        (waveNode (waveAdj abcdJobs) (blockedOk (analyze abcdJobs)))
        ((analyze abcdJobs).indeg, ([] : List String), ([] : List String))).1,
       ([] : List String), (["WI-A"] : List String))).2.2) =
    ["WI-A", "WI-B", "WI-C"] from by decide]
  rw [waveLoop_step_big (waveAdj abcdJobs) (blockedOk (analyze abcdJobs)) (m + 2) 3 2
    "WI-D" [] _ ["WI-A", "WI-B", "WI-C"] _ rfl
    (by simp only [List.length_nil]; omega)]
  rw [show sortedDedup (((["WI-D"] : List String).foldl
      (waveNode (waveAdj abcdJobs) (blockedOk (analyze abcdJobs)))
      (((["WI-B", "WI-C"] : List String).foldl
        (waveNode (waveAdj abcdJobs) (blockedOk (analyze abcdJobs)))
        (((["WI-A"] : List String).foldl
          (waveNode (waveAdj abcdJobs) (blockedOk (analyze abcdJobs)))
          ((analyze abcdJobs).indeg, ([] : List String), ([] : List String))).1,
         ([] : List String), (["WI-A"] : List String))).1,
       ([] : List String), (["WI-A", "WI-B", "WI-C"] : List String))).2.1) =
    ([] : List String) from by decide]
  rw [waveLoop_nil (waveAdj abcdJobs) (blockedOk (analyze abcdJobs)) (m + 2) 2 1
    _ _ _ rfl]
  decide

theorem abcd_cp : critical_path (node_ids abcdJobs) (all_edges abcdJobs) abcdWeights =
    (["WI-A", "WI-C", "WI-D"], 5, true) := by
  have h_topo : kahnLoop (cpBuild (node_ids abcdJobs) (all_edges abcdJobs)).adj
      ((node_ids abcdJobs).length + (all_edges abcdJobs).length + 1)
      (sortStr ((node_ids abcdJobs).filter
        (fun n => decide ((cpBuild (node_ids abcdJobs) (all_edges abcdJobs)).indeg n = 0))))
      (cpBuild (node_ids abcdJobs) (all_edges abcdJobs)).indeg []
      = ["WI-A", "WI-B", "WI-C", "WI-D"] := by decide
  have h_dist : distFold (cpBuild (node_ids abcdJobs) (all_edges abcdJobs)).preds
      abcdWeights ["WI-A", "WI-B", "WI-C", "WI-D"] =
      ([("WI-A", 1), ("WI-B", 2), ("WI-C", 4), ("WI-D", 5)],
       [("WI-A", none), ("WI-B", some "WI-A"), ("WI-C", some "WI-A"),
        ("WI-D", some "WI-C")]) := by
    have hpA : (cpBuild (node_ids abcdJobs) (all_edges abcdJobs)).preds "WI-A" = [] := by
      decide
    have hpB : (cpBuild (node_ids abcdJobs) (all_edges abcdJobs)).preds "WI-B" =
        ["WI-A"] := by decide
    have hpC : (cpBuild (node_ids abcdJobs) (all_edges abcdJobs)).preds "WI-C" =
        ["WI-A"] := by decide
    have hpD : (cpBuild (node_ids abcdJobs) (all_edges abcdJobs)).preds "WI-D" =
        ["WI-B", "WI-C"] := by decide
    have hwA : abcdWeights "WI-A" = 1 := rfl
    have hwB : abcdWeights "WI-B" = 1 := rfl
    have hwC : abcdWeights "WI-C" = 3 := rfl
    have hwD : abcdWeights "WI-D" = 1 := rfl
    simp only [distFold, List.foldl_cons, List.foldl_nil, hpA, hpB, hpC, hpD,
      hwA, hwB, hwC, hwD]
    simp only [List.lookup, String.reduceBEq]
    norm_num
  have h_arg : firstArgmax [("WI-A", (1 : ℚ)), ("WI-B", 2), ("WI-C", 4), ("WI-D", 5)] =
      some ("WI-D", 5) := by
    simp only [firstArgmax, List.foldl_cons, List.foldl_nil]
    norm_num
  simp only [critical_path]
  rw [h_topo]
  rw [if_neg (by decide :
    Not (["WI-A", "WI-B", "WI-C", "WI-D"].length ≠ (node_ids abcdJobs).length))]
  rw [h_dist]
  simp only []
  rw [h_arg]
  decide

/-! ### Assoc-list lookup helpers -/

theorem lookup_append {β : Type} (l1 l2 : List (String × β)) (k : String) :
    (l1 ++ l2).lookup k =
      (match l1.lookup k with
       | some v => some v
       | none => l2.lookup k) := by
  induction l1 with
  | nil => rfl
  | cons a l ih =>
    rcases a with ⟨k0, v0⟩
    by_cases h : (k == k0) = true
    · simp [List.lookup, h]
    · simp [List.lookup, h, ih]

theorem lookup_eq_none_of_not_mem {β : Type} :
    ∀ (l : List (String × β)) (k : String), k ∉ l.map Prod.fst → l.lookup k = none := by
  intro l
  induction l with
  | nil =>
    intro k _
    rfl
  | cons a l ih =>
    intro k hk
    rcases a with ⟨k0, v0⟩
    have h1 : ¬(k == k0) = true := by
      intro hmm
      exact hk (by simp [List.mem_map]; exact Or.inl (by simpa using hmm))
    simp only [List.lookup, h1]
    exact ih k (fun hmm => hk (List.mem_cons_of_mem _ hmm))

theorem lookup_isSome_of_mem {β : Type} :
    ∀ (l : List (String × β)) (k : String), k ∈ l.map Prod.fst →
      ∃ v, l.lookup k = some v := by
  intro l
  induction l with
  | nil =>
    intro k hk
    cases hk
  | cons a l ih =>
    intro k hk
    rcases a with ⟨k0, v0⟩
    by_cases h : (k == k0) = true
    · exact ⟨v0, by simp [List.lookup, h]⟩
    · have hk2 : k ∈ l.map Prod.fst := by
        rcases List.mem_cons.mp hk with h2 | h2
        · exact absurd (by simpa using h2 : (k == k0) = true) h
        · exact h2
      obtain ⟨v, hv⟩ := ih k hk2
      exact ⟨v, by simp [List.lookup, h, hv]⟩

/-! ### `cpBuild` characterization -/

theorem cpBuild_fold (nodeIds : List String) (edges : List (String × String)) :
    ∀ (st : CPState),
    ((edges.foldl (fun st e =>
      if nodeIds.contains e.1 && nodeIds.contains e.2 then
        { indeg := fun w => if w = e.2 then st.indeg e.2 + 1 else st.indeg w,
          adj := fun w => if w = e.1 then st.adj e.1 ++ [e.2] else st.adj w,
          preds := fun w => if w = e.2 then st.preds e.2 ++ [e.1] else st.preds w }
      else st) st).preds = fun d => st.preds d ++
        ((edges.filter (fun e => nodeIds.contains e.1 && nodeIds.contains e.2 &&
          decide (e.2 = d))).map Prod.fst)) ∧
    ((edges.foldl (fun st e =>
      if nodeIds.contains e.1 && nodeIds.contains e.2 then
        { indeg := fun w => if w = e.2 then st.indeg e.2 + 1 else st.indeg w,
          adj := fun w => if w = e.1 then st.adj e.1 ++ [e.2] else st.adj w,
          preds := fun w => if w = e.2 then st.preds e.2 ++ [e.1] else st.preds w }
      else st) st).adj = fun s => st.adj s ++
        ((edges.filter (fun e => nodeIds.contains e.1 && nodeIds.contains e.2 &&
          decide (e.1 = s))).map Prod.snd)) ∧
    ((edges.foldl (fun st e =>
      if nodeIds.contains e.1 && nodeIds.contains e.2 then
        { indeg := fun w => if w = e.2 then st.indeg e.2 + 1 else st.indeg w,
          adj := fun w => if w = e.1 then st.adj e.1 ++ [e.2] else st.adj w,
          preds := fun w => if w = e.2 then st.preds e.2 ++ [e.1] else st.preds w }
      else st) st).indeg = fun d => st.indeg d +
        ((edges.filter (fun e => nodeIds.contains e.1 && nodeIds.contains e.2 &&
          decide (e.2 = d))).length : ℤ)) := by
  induction edges with
  | nil =>
    intro st
    refine ⟨?_, ?_, ?_⟩ <;> funext d <;> simp
  | cons e es ih =>
    intro st
    rw [List.foldl_cons]
    by_cases hc : (nodeIds.contains e.1 && nodeIds.contains e.2) = true
    · have hm : e.1 ∈ nodeIds ∧ e.2 ∈ nodeIds := by simpa using hc
      rw [if_pos hc]
      obtain ⟨ihp, iha, ihi⟩ := ih
        { indeg := fun w => if w = e.2 then st.indeg e.2 + 1 else st.indeg w,
          adj := fun w => if w = e.1 then st.adj e.1 ++ [e.2] else st.adj w,
          preds := fun w => if w = e.2 then st.preds e.2 ++ [e.1] else st.preds w }
      refine ⟨?_, ?_, ?_⟩
      · rw [ihp]
        funext d
        rw [List.filter_cons]
        by_cases hd : e.2 = d
        · subst hd
          rw [if_pos (by simp [hm.1, hm.2])]
          simp [List.append_assoc]
        · rw [if_neg (by simp [hd])]
          have hd2 : ¬ d = e.2 := fun h => hd h.symm
          simp [hd2]
      · rw [iha]
        funext s
        rw [List.filter_cons]
        by_cases hs : e.1 = s
        · subst hs
          rw [if_pos (by simp [hm.1, hm.2])]
          simp [List.append_assoc]
        · rw [if_neg (by simp [hs])]
          have hs2 : ¬ s = e.1 := fun h => hs h.symm
          simp [hs2]
      · rw [ihi]
        funext d
        rw [List.filter_cons]
        by_cases hd : e.2 = d
        · subst hd
          rw [if_pos (by simp [hm.1, hm.2])]
          simp only [CPState.indeg, if_pos rfl, List.length_cons]
          push_cast
          ring
        · rw [if_neg (by simp [hd])]
          have hd2 : ¬ d = e.2 := fun h => hd h.symm
          simp [hd2]
    · rw [if_neg hc]
      obtain ⟨ihp, iha, ihi⟩ := ih st
      have hm : ¬(e.1 ∈ nodeIds ∧ e.2 ∈ nodeIds) := by
        intro hmm
        exact hc (by simp [hmm.1, hmm.2])
      have hcf : ∀ c : Bool,
          ¬((nodeIds.contains e.1 && nodeIds.contains e.2 && c) = true) := by
        intro c hmm
        have h2 : (e.1 ∈ nodeIds ∧ e.2 ∈ nodeIds) ∧ c = true := by simpa using hmm
        exact hm h2.1
      refine ⟨?_, ?_, ?_⟩
      · rw [ihp]
        funext d
        rw [List.filter_cons, if_neg (hcf _)]
      · rw [iha]
        funext s
        rw [List.filter_cons, if_neg (hcf _)]
      · rw [ihi]
        funext d
        rw [List.filter_cons, if_neg (hcf _)]

theorem cpBuild_preds (nodeIds : List String) (edges : List (String × String)) :
    (cpBuild nodeIds edges).preds = fun d =>
      ((edges.filter (fun e => nodeIds.contains e.1 && nodeIds.contains e.2 &&
        decide (e.2 = d))).map Prod.fst) := by
  have h := (cpBuild_fold nodeIds edges ⟨fun _ => 0, fun _ => [], fun _ => []⟩).1
  rw [show cpBuild nodeIds edges = edges.foldl _ ⟨fun _ => 0, fun _ => [], fun _ => []⟩
    from rfl, h]
  funext d
  simp

theorem cpBuild_adj (nodeIds : List String) (edges : List (String × String)) :
    (cpBuild nodeIds edges).adj = fun s =>
      ((edges.filter (fun e => nodeIds.contains e.1 && nodeIds.contains e.2 &&
        decide (e.1 = s))).map Prod.snd) := by
  have h := (cpBuild_fold nodeIds edges ⟨fun _ => 0, fun _ => [], fun _ => []⟩).2.1
  rw [show cpBuild nodeIds edges = edges.foldl _ ⟨fun _ => 0, fun _ => [], fun _ => []⟩
    from rfl, h]
  funext s
  simp

theorem cpBuild_indeg (nodeIds : List String) (edges : List (String × String)) :
    (cpBuild nodeIds edges).indeg = fun d =>
      ((((cpBuild nodeIds edges).preds d).length : ℤ)) := by
  have h := (cpBuild_fold nodeIds edges ⟨fun _ => 0, fun _ => [], fun _ => []⟩).2.2
  rw [cpBuild_preds]
  rw [show cpBuild nodeIds edges = edges.foldl _ ⟨fun _ => 0, fun _ => [], fun _ => []⟩
    from rfl, h]
  funext d
  simp

theorem mem_cpBuild_preds {nodeIds : List String} {edges : List (String × String)}
    {p c : String} :
    p ∈ (cpBuild nodeIds edges).preds c ↔
      ((p, c) ∈ edges ∧ p ∈ nodeIds ∧ c ∈ nodeIds) := by
  rw [cpBuild_preds]
  simp only [List.mem_map, List.mem_filter]
  constructor
  · rintro ⟨e, ⟨he, hcond⟩, rfl⟩
    have h2 : (e.1 ∈ nodeIds ∧ e.2 ∈ nodeIds) ∧ e.2 = c := by simpa using hcond
    refine ⟨?_, h2.1.1, ?_⟩
    · rw [show (e.1, c) = e from by rw [← h2.2]]
      exact he
    · rw [← h2.2]
      exact h2.1.2
  · rintro ⟨hpc, hp, hc⟩
    exact ⟨(p, c), ⟨hpc, by simp [hp, hc]⟩, rfl⟩

theorem mem_cpBuild_adj {nodeIds : List String} {edges : List (String × String)}
    {s c : String} :
    c ∈ (cpBuild nodeIds edges).adj s ↔
      ((s, c) ∈ edges ∧ s ∈ nodeIds ∧ c ∈ nodeIds) := by
  rw [cpBuild_adj]
  simp only [List.mem_map, List.mem_filter]
  constructor
  · rintro ⟨e, ⟨he, hcond⟩, rfl⟩
    have h2 : (e.1 ∈ nodeIds ∧ e.2 ∈ nodeIds) ∧ e.1 = s := by simpa using hcond
    refine ⟨?_, ?_, h2.1.2⟩
    · rw [show (s, e.2) = e from by rw [← h2.2]]
      exact he
    · rw [← h2.2]
      exact h2.1.1
  · rintro ⟨hsc, hs, hc⟩
    exact ⟨(s, c), ⟨hsc, by simp [hs, hc]⟩, rfl⟩

theorem cpBuild_adj_iff_preds {nodeIds : List String} {edges : List (String × String)}
    {s c : String} :
    c ∈ (cpBuild nodeIds edges).adj s ↔ s ∈ (cpBuild nodeIds edges).preds c := by
  rw [mem_cpBuild_adj, mem_cpBuild_preds]

theorem cpBuild_preds_sub {nodeIds : List String} {edges : List (String × String)}
    {p c : String} (h : p ∈ (cpBuild nodeIds edges).preds c) :
    p ∈ nodeIds ∧ c ∈ nodeIds :=
  (mem_cpBuild_preds.mp h).2

theorem cpBuild_preds_nodup {nodeIds : List String} {edges : List (String × String)}
    (hE : edges.Nodup) (c : String) : ((cpBuild nodeIds edges).preds c).Nodup := by
  rw [cpBuild_preds]
  refine List.Nodup.map_on ?_ (List.Nodup.filter _ hE)
  intro x hx y hy hxy
  have hx3 : (x.1 ∈ nodeIds ∧ x.2 ∈ nodeIds) ∧ x.2 = c := by
    simpa using (List.mem_filter.mp hx).2
  have hy3 : (y.1 ∈ nodeIds ∧ y.2 ∈ nodeIds) ∧ y.2 = c := by
    simpa using (List.mem_filter.mp hy).2
  exact Prod.ext hxy (by rw [hx3.2, hy3.2])

theorem cpBuild_adj_nodup {nodeIds : List String} {edges : List (String × String)}
    (hE : edges.Nodup) (s : String) : ((cpBuild nodeIds edges).adj s).Nodup := by
  rw [cpBuild_adj]
  refine List.Nodup.map_on ?_ (List.Nodup.filter _ hE)
  intro x hx y hy hxy
  have hx3 : (x.1 ∈ nodeIds ∧ x.2 ∈ nodeIds) ∧ x.1 = s := by
    simpa using (List.mem_filter.mp hx).2
  have hy3 : (y.1 ∈ nodeIds ∧ y.2 ∈ nodeIds) ∧ y.1 = s := by
    simpa using (List.mem_filter.mp hy).2
  exact Prod.ext (by rw [hx3.2, hy3.2]) hxy

/-! ### `PredPath` basics -/

theorem predPath_ne_nil {preds : String → List String} {l : List String} {n : String}
    (h : PredPath preds l n) : l ≠ [] := by
  cases h with
  | single => simp
  | snoc h1 h2 => simp

theorem getLast_append_single {α : Type} :
    ∀ (l : List α) (a : α), (l ++ [a]).getLast? = some a
  | [], _ => rfl
  | [_], _ => rfl
  | _ :: b :: l, a => getLast_append_single (b :: l) a

theorem predPath_getLast {preds : String → List String} {l : List String} {n : String}
    (h : PredPath preds l n) : l.getLast? = some n := by
  induction h with
  | single m => rfl
  | snoc h1 h2 ih => exact getLast_append_single _ _

theorem predPath_cons_aux {preds : String → List String} {l : List String} {n : String}
    (hp : PredPath preds l n) : ∀ (h h2 : String) (t : List String), l = h2 :: t →
      h ∈ preds h2 → PredPath preds (h :: l) n := by
  induction hp with
  | single m =>
    intro h h2 t hl hh
    cases hl
    exact PredPath.snoc (PredPath.single h) hh
  | snoc hp1 hstep ih =>
    intro h h2 t hl hh
    rename_i l2 p m
    cases l2 with
    | nil => exact absurd rfl (predPath_ne_nil hp1)
    | cons a l3 =>
      have ha : a = h2 := by
        have := congrArg (fun z => z.headI) hl
        simpa using this
      subst ha
      have hstep2 := ih h a l3 rfl hh
      exact PredPath.snoc hstep2 hstep

theorem predPath_cons {preds : String → List String} {h h2 : String} {t : List String}
    {n : String} (hh : h ∈ preds h2) (hp : PredPath preds (h2 :: t) n) :
    PredPath preds (h :: h2 :: t) n :=
  predPath_cons_aux hp h h2 t rfl hh

theorem predPath_mem_nodes {preds : String → List String} {nodeIds : List String}
    (hsub : ∀ p c, p ∈ preds c → p ∈ nodeIds ∧ c ∈ nodeIds)
    {l : List String} {n : String} (hp : PredPath preds l n) :
    2 ≤ l.length → ∀ y ∈ l, y ∈ nodeIds := by
  induction hp with
  | single m =>
    intro hlen
    rw [List.length_singleton] at hlen
    omega
  | snoc hp1 hstep ih =>
    rename_i l2 p m
    intro _ y hy
    rcases List.mem_append.mp hy with h2 | h2
    · by_cases hl2 : 2 ≤ l2.length
      · exact ih hl2 y h2
      · have hone : l2 = [p] := by
          cases l2 with
          | nil => exact absurd rfl (predPath_ne_nil hp1)
          | cons a t =>
            cases t with
            | nil =>
              have hlast := predPath_getLast hp1
              simp only [List.getLast?_singleton, Option.some.injEq] at hlast
              rw [hlast]
            | cons b t2 =>
              simp only [List.length_cons] at hl2
              omega
        rw [hone] at h2
        have hyp := List.mem_singleton.mp h2
        rw [hyp]
        exact (hsub p m hstep).1
    · have hyp := List.mem_singleton.mp h2
      rw [hyp]
      exact (hsub p m hstep).2

/-! ### Positions in a duplicate-free topological order -/

theorem nodup_split_unique {n : String} :
    ∀ {topo pre post pre2 post2 : List String}, topo.Nodup →
    topo = pre ++ n :: post → topo = pre2 ++ n :: post2 → pre = pre2 ∧ post = post2 := by
  intro topo
  induction topo with
  | nil =>
    intro pre post pre2 post2 _ h1 _
    exact absurd h1.symm (by simp)
  | cons a t ih =>
    intro pre post pre2 post2 hnd h1 h2
    rcases List.nodup_cons.mp hnd with ⟨hat, htnd⟩
    cases pre with
    | nil =>
      simp only [List.nil_append] at h1
      cases pre2 with
      | nil =>
        simp only [List.nil_append] at h2
        injection h1 with h1a h1b
        injection h2 with h2a h2b
        subst h1b
        exact ⟨rfl, by rw [← h2b]⟩
      | cons b pre3 =>
        simp only [List.cons_append] at h2
        injection h1 with h1a h1b
        injection h2 with h2a h2b
        refine absurd ?_ hat
        rw [h2b, h1a]
        exact List.mem_append_right _ (List.mem_cons_self _ _)
    | cons b pre3 =>
      simp only [List.cons_append] at h1
      injection h1 with h1a h1b
      cases pre2 with
      | nil =>
        simp only [List.nil_append] at h2
        injection h2 with h2a h2b
        refine absurd ?_ hat
        rw [h1b, h2a]
        exact List.mem_append_right _ (List.mem_cons_self _ _)
      | cons c pre4 =>
        simp only [List.cons_append] at h2
        injection h2 with h2a h2b
        obtain ⟨hp, hq⟩ := ih htnd h1b h2b
        refine ⟨?_, hq⟩
        rw [← h1a, ← h2a, hp]

theorem before_of_topoOrdered {preds : String → List String} {topo : List String}
    (hord : TopoOrdered preds topo) {p n : String} (hn : n ∈ topo) (hp : p ∈ preds n) :
    Before topo p n := by
  obtain ⟨pre, post, hsplit⟩ := List.append_of_mem hn
  exact ⟨pre, post, hsplit, hord pre n post hsplit p hp⟩

theorem before_mem {topo : List String} {a b : String} (h : Before topo a b) :
    a ∈ topo ∧ b ∈ topo := by
  obtain ⟨pre, post, hsplit, ha⟩ := h
  rw [hsplit]
  exact ⟨List.mem_append_left _ ha,
    List.mem_append_right _ (List.mem_cons_self b post)⟩

theorem before_trans {topo : List String} (hnd : topo.Nodup) {a b c : String}
    (h1 : Before topo a b) (h2 : Before topo b c) : Before topo a c := by
  obtain ⟨pre1, post1, hs1, ha⟩ := h1
  obtain ⟨pre2, post2, hs2, hb⟩ := h2
  obtain ⟨s, t, hst⟩ := List.append_of_mem hb
  have hs3 : topo = s ++ b :: (t ++ c :: post2) := by
    rw [hs2, hst]
    simp
  obtain ⟨hpre, _⟩ := nodup_split_unique hnd hs1 hs3
  refine ⟨pre2, post2, hs2, ?_⟩
  rw [hst]
  exact List.mem_append_left _ (hpre ▸ ha)

theorem before_irrefl {topo : List String} (hnd : topo.Nodup) (a : String) :
    ¬ Before topo a a := by
  rintro ⟨pre, post, hsplit, ha⟩
  rw [hsplit] at hnd
  rcases List.nodup_append.mp hnd with ⟨_, _, hdisj⟩
  exact hdisj ha (List.mem_cons_self a post)

theorem predPath_before {preds : String → List String} {topo : List String}
    (hord : TopoOrdered preds topo) (hnd : topo.Nodup) :
    ∀ {l : List String} {n : String}, PredPath preds l n → n ∈ topo →
      ∀ y ∈ l, y = n ∨ Before topo y n := by
  intro l n hp
  induction hp with
  | single m =>
    intro _ y hy
    exact Or.inl (List.mem_singleton.mp hy)
  | snoc hp1 hstep ih =>
    rename_i l2 p m
    intro hm y hy
    have hB : Before topo p m := before_of_topoOrdered hord hm hstep
    rcases List.mem_append.mp hy with h2 | h2
    · rcases ih (before_mem hB).1 y h2 with h3 | h3
      · exact Or.inr (h3 ▸ hB)
      · exact Or.inr (before_trans hnd h3 hB)
    · exact Or.inl (List.mem_singleton.mp h2)

theorem predPath_inv {preds : String → List String} {l : List String} {n : String}
    (h : PredPath preds l n) :
    l = [n] ∨ ∃ l2 p, l = l2 ++ [n] ∧ PredPath preds l2 p ∧ p ∈ preds n := by
  cases h with
  | single => exact Or.inl rfl
  | snoc h1 h2 => exact Or.inr ⟨_, _, rfl, h1, h2⟩

theorem topo_no_cycle {preds : String → List String} {topo : List String}
    (hord : TopoOrdered preds topo) (hnd : topo.Nodup) {x : String} {m : List String}
    (hm : m ≠ []) (hcyc : PredPath preds (x :: m) x) (hx : x ∈ topo) : False := by
  rcases predPath_inv hcyc with h1 | ⟨l2, p, heq, hp1, hstep⟩
  · injection h1 with _ h1b
    exact hm h1b
  · have hB : Before topo p x := before_of_topoOrdered hord hx hstep
    have hxl : x ∈ l2 := by
      cases l2 with
      | nil => exact absurd rfl (predPath_ne_nil hp1)
      | cons a t =>
        have ha : x = a := by
          have hh := congrArg (fun z => z.headI) heq
          simpa using hh
        rw [ha]
        exact List.mem_cons_self a t
    rcases predPath_before hord hnd hp1 (before_mem hB).1 x hxl with h3 | h3
    · exact before_irrefl hnd x (h3 ▸ hB)
    · exact before_irrefl hnd x (before_trans hnd h3 hB)

/-! ### The Kahn phase of `critical_path` -/

theorem append_singleton_inj {α : Type} :
    ∀ {l1 l2 : List α} {a b : α}, l1 ++ [a] = l2 ++ [b] → l1 = l2 ∧ a = b := by
  intro l1 l2 a b h
  have h1 : (l1 ++ [a]).reverse = (l2 ++ [b]).reverse := by rw [h]
  simp only [List.reverse_append, List.reverse_singleton, List.singleton_append] at h1
  injection h1 with h2 h3
  exact ⟨List.reverse_injective h3, h2⟩

theorem topoOrdered_append {preds : String → List String} {topo : List String} {n : String}
    (h : TopoOrdered preds topo) (hn : ∀ p ∈ preds n, p ∈ topo) :
    TopoOrdered preds (topo ++ [n]) := by
  intro pre m post heq p hp
  rcases List.eq_nil_or_concat post with h0 | ⟨post2, z, h0⟩
  · subst h0
    obtain ⟨ht, hm⟩ := append_singleton_inj heq
    subst hm
    rw [← ht]
    exact hn p hp
  · subst h0
    have heq2 : topo ++ [n] = (pre ++ m :: post2) ++ [z] := by
      rw [heq]
      simp
    obtain ⟨ht, _⟩ := append_singleton_inj heq2
    exact h pre m post2 ht p hp

theorem kahnChildFold_formula (cs : List String) :
    ∀ (indeg : String → ℤ) (F : List String), cs.Nodup →
    cs.foldl (fun (a : (String → ℤ) × List String) child =>
      let ind2 := fun w => if w = child then a.1 child - 1 else a.1 w
      if ind2 child = 0 then (ind2, a.2 ++ [child]) else (ind2, a.2)) (indeg, F) =
    ((fun c => if c ∈ cs then indeg c - 1 else indeg c),
     F ++ cs.filter (fun c => decide (indeg c - 1 = 0))) := by
  induction cs with
  | nil =>
    intro indeg F _
    simp only [List.foldl_nil, List.filter_nil, List.append_nil]
    have h1 : (fun c : String =>
        if c ∈ ([] : List String) then indeg c - 1 else indeg c) = indeg := by
      funext c
      simp
    rw [h1]
  | cons c cs ih =>
    intro indeg F hnd
    rcases List.nodup_cons.mp hnd with ⟨hc, hcs⟩
    rw [List.foldl_cons]
    have hstep : (fun (a : (String → ℤ) × List String) child =>
        let ind2 := fun w => if w = child then a.1 child - 1 else a.1 w
        if ind2 child = 0 then (ind2, a.2 ++ [child])
        else (ind2, a.2)) (indeg, F) c =
        ((fun w => if w = c then indeg c - 1 else indeg w),
         if indeg c - 1 = 0 then F ++ [c] else F) := by
      show (if (if c = c then indeg c - 1 else indeg c) = 0
          then ((fun w => if w = c then indeg c - 1 else indeg w), F ++ [c])
          else ((fun w => if w = c then indeg c - 1 else indeg w), F)) = _
      rw [if_pos rfl]
      split
      · rfl
      · rfl
    show List.foldl (fun (a : (String → ℤ) × List String) child =>
        let ind2 := fun w => if w = child then a.1 child - 1 else a.1 w
        if ind2 child = 0 then (ind2, a.2 ++ [child])
        else (ind2, a.2))
      ((fun (a : (String → ℤ) × List String) child =>
        let ind2 := fun w => if w = child then a.1 child - 1 else a.1 w
        if ind2 child = 0 then (ind2, a.2 ++ [child])
        else (ind2, a.2)) (indeg, F) c) cs = _
    rw [hstep, ih _ _ hcs, Prod.mk.injEq]
    refine ⟨?_, ?_⟩
    · funext x
      by_cases hx : x = c
      · subst hx
        simp [hc]
      · by_cases hx2 : x ∈ cs
        · simp [hx, hx2]
        · simp [hx, hx2]
    · rw [List.filter_cons]
      have hfc : cs.filter (fun x =>
            decide ((fun w => if w = c then indeg c - 1 else indeg w) x - 1 = 0)) =
          cs.filter (fun x => decide (indeg x - 1 = 0)) := by
        apply List.filter_congr
        intro x hx
        have hxc : x ≠ c := fun h => hc (h ▸ hx)
        simp [hxc]
      rw [hfc]
      by_cases hcond : indeg c - 1 = 0
      · rw [if_pos hcond, if_pos (by simp [hcond])]
        simp
      · rw [if_neg hcond, if_neg (by simp [hcond])]

theorem kahnLoop_step (adjS : String → List String) (fuel fuel2 : ℕ)
    (hf : fuel = fuel2 + 1) (cur : String) (rest : List String)
    (indeg : String → ℤ) (topo : List String) :
    kahnLoop adjS fuel (cur :: rest) indeg topo =
      kahnLoop adjS fuel2
        (sortStr ((sortStr (adjS cur)).foldl
          (fun (a : (String → ℤ) × List String) child =>
            let ind2 := fun w => if w = child then a.1 child - 1 else a.1 w
            if ind2 child = 0 then (ind2, a.2 ++ [child]) else (ind2, a.2))
          (indeg, rest)).2)
        ((sortStr (adjS cur)).foldl
          (fun (a : (String → ℤ) × List String) child =>
            let ind2 := fun w => if w = child then a.1 child - 1 else a.1 w
            if ind2 child = 0 then (ind2, a.2 ++ [child]) else (ind2, a.2))
          (indeg, rest)).1
        (topo ++ [cur]) := by
  subst hf
  rfl

theorem KahnInv_refrontier {nodeIds : List String} {preds : String → List String}
    {F F2 S : List String} {indeg : String → ℤ}
    (hinv : KahnInv nodeIds preds F S indeg)
    (hmem : ∀ x, x ∈ F2 ↔ x ∈ F) (hnd : F2.Nodup) : KahnInv nodeIds preds F2 S indeg := by
  obtain ⟨h1, h2, h3, h4, h5, h6⟩ := hinv
  rcases List.nodup_append.mp h3 with ⟨hF, hS, hdisj⟩
  refine ⟨fun x hx => h1 x ((hmem x).mp hx), h2, ?_, ?_, h5, ?_⟩
  · exact List.Nodup.append hnd hS (fun a ha haS => hdisj ((hmem a).mp ha) haS)
  · intro x hx
    rcases List.mem_append.mp hx with h7 | h7
    · exact h4 x (List.mem_append_left _ ((hmem x).mp h7))
    · exact h4 x (List.mem_append_right _ h7)
  · intro c hc hz
    rcases List.mem_append.mp (h6 c hc hz) with h7 | h7
    · exact List.mem_append_left _ ((hmem c).mpr h7)
    · exact List.mem_append_right _ h7

theorem kahnStep_inv {nodeIds : List String} {preds adjS : String → List String}
    (hadj : ∀ s c, c ∈ adjS s ↔ s ∈ preds c)
    (hadjN : ∀ s, (adjS s).Nodup)
    (hpredN : ∀ c, (preds c).Nodup)
    (hsub : ∀ p c, p ∈ preds c → p ∈ nodeIds ∧ c ∈ nodeIds)
    {cur : String} {rest topo : List String} {indeg : String → ℤ}
    (hinv : KahnInv nodeIds preds (cur :: rest) topo indeg)
    (hord : TopoOrdered preds topo) :
    KahnInv nodeIds preds
      (sortStr (rest ++
        (sortStr (adjS cur)).filter (fun c => decide (indeg c - 1 = 0))))
      (topo ++ [cur])
      (fun c => if c ∈ sortStr (adjS cur) then indeg c - 1 else indeg c) ∧
    TopoOrdered preds (topo ++ [cur]) := by
  obtain ⟨h1, h2, h3, h4, h5, h6⟩ := hinv
  rcases List.nodup_append.mp h3 with ⟨hFN, hTN, hdisj⟩
  rcases List.nodup_cons.mp hFN with ⟨hcr, hrestN⟩
  have hcurT : cur ∉ topo := fun h => hdisj (List.mem_cons_self _ _) h
  have hcurNode : cur ∈ nodeIds := h1 cur (List.mem_cons_self _ _)
  have hcur0 := h4 cur (List.mem_append_left _ (List.mem_cons_self _ _))
  have hA : ∀ c, c ∈ sortStr (adjS cur) ↔ cur ∈ preds c :=
    fun c => mem_sortStr.trans (hadj cur c)
  have hAN : (sortStr (adjS cur)).Nodup := sortStr_nodup (hadjN cur)
  have hnotA : ∀ x, (∀ p ∈ preds x, p ∈ topo) → x ∉ sortStr (adjS cur) := by
    intro x hx hmem
    exact hcurT (hx cur ((hA x).mp hmem))
  have hrestA : ∀ x ∈ rest, x ∉ sortStr (adjS cur) :=
    fun x hx => hnotA x (h4 x (List.mem_append_left _ (List.mem_cons_of_mem _ hx))).2
  have htopoA : ∀ x ∈ topo, x ∉ sortStr (adjS cur) :=
    fun x hx => hnotA x (h4 x (List.mem_append_right _ hx)).2
  have hcurA : cur ∉ sortStr (adjS cur) := hnotA cur hcur0.2
  have hkid1 : ∀ c ∈ (sortStr (adjS cur)).filter (fun c => decide (indeg c - 1 = 0)),
      c ∈ sortStr (adjS cur) ∧ indeg c = 1 := by
    intro c hc
    rcases List.mem_filter.mp hc with ⟨hcA, hcond⟩
    have hcond2 : indeg c - 1 = 0 := of_decide_eq_true hcond
    exact ⟨hcA, by omega⟩
  have hkidN : ((sortStr (adjS cur)).filter (fun c => decide (indeg c - 1 = 0))).Nodup :=
    List.Nodup.filter _ hAN
  have hkidNode : ∀ c ∈ (sortStr (adjS cur)).filter (fun c => decide (indeg c - 1 = 0)),
      c ∈ nodeIds :=
    fun c hc => (hsub cur c ((hA c).mp (hkid1 c hc).1)).2
  have hdisjK : List.Disjoint ((cur :: rest) ++ topo)
      ((sortStr (adjS cur)).filter (fun c => decide (indeg c - 1 = 0))) := by
    intro a ha haK
    have hia : indeg a = 1 := (hkid1 a haK).2
    have h0 : indeg a = 0 := (h4 a ha).1
    omega
  have happ : (((cur :: rest) ++ topo) ++
      (sortStr (adjS cur)).filter (fun c => decide (indeg c - 1 = 0))).Nodup :=
    List.Nodup.append h3 hkidN hdisjK
  have hperm : (((cur :: rest) ++ topo) ++
      (sortStr (adjS cur)).filter (fun c => decide (indeg c - 1 = 0))).Perm
      ((rest ++ (sortStr (adjS cur)).filter (fun c => decide (indeg c - 1 = 0))) ++
        (topo ++ [cur])) := by
    refine List.perm_iff_count.mpr fun a => ?_
    simp [List.count_append, List.count_cons]
    omega
  have hbig : ((rest ++ (sortStr (adjS cur)).filter (fun c => decide (indeg c - 1 = 0))) ++
      (topo ++ [cur])).Nodup := hperm.nodup_iff.mp happ
  have hcount : ∀ c,
      ((preds c).filter (fun d => decide (d ∈ topo ++ [cur]))).length =
        ((preds c).filter (fun d => decide (d ∈ topo))).length +
          (if cur ∈ preds c then 1 else 0) :=
    fun c => filter_mem_append_single (hpredN c) hcurT
  have hord2 : TopoOrdered preds (topo ++ [cur]) := topoOrdered_append hord hcur0.2
  have hmain : KahnInv nodeIds preds
      (rest ++ (sortStr (adjS cur)).filter (fun c => decide (indeg c - 1 = 0)))
      (topo ++ [cur])
      (fun c => if c ∈ sortStr (adjS cur) then indeg c - 1 else indeg c) := by
    refine ⟨?_, ?_, ?_, ?_, ?_, ?_⟩
    · intro x hx
      rcases List.mem_append.mp hx with h7 | h7
      · exact h1 x (List.mem_cons_of_mem _ h7)
      · exact hkidNode x h7
    · intro x hx
      rcases List.mem_append.mp hx with h7 | h7
      · exact h2 x h7
      · rcases List.mem_singleton.mp h7 with rfl
        exact hcurNode
    · exact hbig
    · intro x hx
      rcases List.mem_append.mp hx with h7 | h7
      · rcases List.mem_append.mp h7 with h8 | h8
        · refine ⟨?_, ?_⟩
          · show (if x ∈ sortStr (adjS cur) then indeg x - 1 else indeg x) = 0
            rw [if_neg (hrestA x h8)]
            exact (h4 x (List.mem_append_left _ (List.mem_cons_of_mem _ h8))).1
          · intro p hp
            exact List.mem_append_left _
              ((h4 x (List.mem_append_left _ (List.mem_cons_of_mem _ h8))).2 p hp)
        · have hxA := (hkid1 x h8).1
          have hx1 : indeg x = 1 := (hkid1 x h8).2
          have hxNode := hkidNode x h8
          have hxI := h5 x hxNode
          have hcnt := hcount x
          rw [if_pos ((hA x).mp hxA)] at hcnt
          have hlen1 : ((preds x).filter (fun d => decide (d ∈ topo ++ [cur]))).length ≤
              (preds x).length := List.length_filter_le _ _
          have hfull : ((preds x).filter (fun d => decide (d ∈ topo ++ [cur]))).length =
              (preds x).length := by omega
          have heq : (preds x).filter (fun d => decide (d ∈ topo ++ [cur])) = preds x :=
            (List.filter_sublist _).eq_of_length hfull
          refine ⟨?_, ?_⟩
          · show (if x ∈ sortStr (adjS cur) then indeg x - 1 else indeg x) = 0
            rw [if_pos hxA]
            omega
          · intro p hp
            have hpf : p ∈ (preds x).filter (fun d => decide (d ∈ topo ++ [cur])) := by
              rw [heq]
              exact hp
            exact of_decide_eq_true (List.mem_filter.mp hpf).2
      · rcases List.mem_append.mp h7 with h8 | h8
        · refine ⟨?_, ?_⟩
          · show (if x ∈ sortStr (adjS cur) then indeg x - 1 else indeg x) = 0
            rw [if_neg (htopoA x h8)]
            exact (h4 x (List.mem_append_right _ h8)).1
          · intro p hp
            exact List.mem_append_left _ ((h4 x (List.mem_append_right _ h8)).2 p hp)
        · rcases List.mem_singleton.mp h8 with rfl
          refine ⟨?_, ?_⟩
          · show (if x ∈ sortStr (adjS x) then indeg x - 1 else indeg x) = 0
            rw [if_neg hcurA]
            exact hcur0.1
          · intro p hp
            exact List.mem_append_left _ (hcur0.2 p hp)
    · intro c hcNode
      have hxI := h5 c hcNode
      have hcnt := hcount c
      show (if c ∈ sortStr (adjS cur) then indeg c - 1 else indeg c) =
        ((preds c).length : ℤ) -
          (((preds c).filter (fun d => decide (d ∈ topo ++ [cur]))).length : ℤ)
      by_cases hcA : c ∈ sortStr (adjS cur)
      · rw [if_pos hcA]
        rw [if_pos ((hA c).mp hcA)] at hcnt
        omega
      · rw [if_neg hcA]
        rw [if_neg (fun hmm => hcA ((hA c).mpr hmm))] at hcnt
        omega
    · intro c hcNode hz
      have hz2 : (if c ∈ sortStr (adjS cur) then indeg c - 1 else indeg c) = 0 := hz
      by_cases hcA : c ∈ sortStr (adjS cur)
      · rw [if_pos hcA] at hz2
        refine List.mem_append_left _ (List.mem_append_right _ ?_)
        exact List.mem_filter.mpr ⟨hcA, decide_eq_true hz2⟩
      · rw [if_neg hcA] at hz2
        rcases List.mem_append.mp (h6 c hcNode hz2) with h7 | h7
        · rcases List.mem_cons.mp h7 with h8 | h8
          · subst h8
            exact List.mem_append_right _ (List.mem_append_right _
              (List.mem_singleton.mpr rfl))
          · exact List.mem_append_left _ (List.mem_append_left _ h8)
        · exact List.mem_append_right _ (List.mem_append_left _ h7)
  refine ⟨?_, hord2⟩
  refine KahnInv_refrontier hmain (fun x => mem_sortStr) ?_
  refine sortStr_nodup ?_
  exact (List.nodup_append.mp hbig).1

theorem kahnLoop_spec {nodeIds : List String} {preds adjS : String → List String}
    (hadj : ∀ s c, c ∈ adjS s ↔ s ∈ preds c)
    (hadjN : ∀ s, (adjS s).Nodup)
    (hpredN : ∀ c, (preds c).Nodup)
    (hsub : ∀ p c, p ∈ preds c → p ∈ nodeIds ∧ c ∈ nodeIds) :
    ∀ (fuel : ℕ) (frontier topo : List String) (indeg : String → ℤ),
    KahnInv nodeIds preds frontier topo indeg →
    TopoOrdered preds topo →
    nodeIds.length + 1 ≤ fuel + topo.length →
    ∃ indeg2, KahnInv nodeIds preds [] (kahnLoop adjS fuel frontier indeg topo) indeg2 ∧
      TopoOrdered preds (kahnLoop adjS fuel frontier indeg topo) := by
  intro fuel
  induction fuel with
  | zero =>
    intro frontier topo indeg hinv hord hfuel
    exfalso
    obtain ⟨h1, h2, h3, h4, h5, h6⟩ := hinv
    have hTN : topo.Nodup := (List.nodup_append.mp h3).2.1
    have hlen : topo.length ≤ nodeIds.length := Invalidate.nodup_subset_length hTN h2
    omega
  | succ fuel ih =>
    intro frontier topo indeg hinv hord hfuel
    cases frontier with
    | nil =>
      have hres : kahnLoop adjS (fuel + 1) [] indeg topo = topo := rfl
      rw [hres]
      exact ⟨indeg, hinv, hord⟩
    | cons cur rest =>
      rw [kahnLoop_step adjS (fuel + 1) fuel rfl cur rest indeg topo]
      have hAN : (sortStr (adjS cur)).Nodup := sortStr_nodup (hadjN cur)
      rw [kahnChildFold_formula (sortStr (adjS cur)) indeg rest hAN]
      obtain ⟨hinv2, hord2⟩ := kahnStep_inv hadj hadjN hpredN hsub hinv hord
      refine ih _ (topo ++ [cur]) _ hinv2 hord2 ?_
      rw [List.length_append, List.length_singleton]
      omega

theorem topoOrdered_nil {preds : String → List String} : TopoOrdered preds [] := by
  intro pre n post h p hp
  exact absurd h.symm (by simp)

theorem kahnTopo_spec (nodeIds : List String) (edges : List (String × String))
    (hN : nodeIds.Nodup) (hE : edges.Nodup) :
    ∃ indeg2,
      KahnInv nodeIds (cpBuild nodeIds edges).preds [] (kahnTopo nodeIds edges) indeg2 ∧
      TopoOrdered (cpBuild nodeIds edges).preds (kahnTopo nodeIds edges) := by
  have hinit : KahnInv nodeIds (cpBuild nodeIds edges).preds
      (sortStr (nodeIds.filter (fun n => decide ((cpBuild nodeIds edges).indeg n = 0))))
      [] (cpBuild nodeIds edges).indeg := by
    refine ⟨?_, ?_, ?_, ?_, ?_, ?_⟩
    · intro x hx
      exact (List.mem_filter.mp (mem_sortStr.mp hx)).1
    · intro x hx
      cases hx
    · rw [List.append_nil]
      exact sortStr_nodup (List.Nodup.filter _ hN)
    · intro x hx
      rw [List.append_nil] at hx
      have hx2 := List.mem_filter.mp (mem_sortStr.mp hx)
      have hz : (cpBuild nodeIds edges).indeg x = 0 := of_decide_eq_true hx2.2
      have hlen : (((cpBuild nodeIds edges).preds x).length : ℤ) = 0 := by
        rw [← congrFun (cpBuild_indeg nodeIds edges) x]
        exact hz
      have hnil : (cpBuild nodeIds edges).preds x = [] :=
        List.eq_nil_of_length_eq_zero (by exact_mod_cast hlen)
      refine ⟨hz, ?_⟩
      rw [hnil]
      intro p hp
      cases hp
    · intro c _
      rw [show (cpBuild nodeIds edges).indeg c =
          (((cpBuild nodeIds edges).preds c).length : ℤ) from
        congrFun (cpBuild_indeg nodeIds edges) c]
      simp
    · intro c hc hz
      rw [List.append_nil]
      exact mem_sortStr.mpr (List.mem_filter.mpr ⟨hc, decide_eq_true hz⟩)
  have hres := kahnLoop_spec (fun s c => cpBuild_adj_iff_preds)
    (cpBuild_adj_nodup hE) (cpBuild_preds_nodup hE) (fun p c h => cpBuild_preds_sub h)
    (nodeIds.length + edges.length + 1) _ [] _ hinit topoOrdered_nil
    (by simp only [List.length_nil]; omega)
  exact hres

theorem list_all_mem_of_length_eq {l1 l2 : List String} (h1 : l1.Nodup) (h2 : l2.Nodup)
    (hsub : ∀ x ∈ l1, x ∈ l2) (hlen : l2.length ≤ l1.length) : ∀ x ∈ l2, x ∈ l1 := by
  intro x hx
  have hfin : l1.toFinset = l2.toFinset := by
    apply Finset.eq_of_subset_of_card_le
    · intro a ha
      exact List.mem_toFinset.mpr (hsub a (List.mem_toFinset.mp ha))
    · rw [List.toFinset_card_of_nodup h1, List.toFinset_card_of_nodup h2]
      exact hlen
  have hx2 : x ∈ l1.toFinset := by
    rw [hfin]
    exact List.mem_toFinset.mpr hx
  exact List.mem_toFinset.mp hx2

theorem kahnTopo_complete (nodeIds : List String) (edges : List (String × String))
    (hN : nodeIds.Nodup) (hE : edges.Nodup)
    (hacyc : ∀ x m, PredPath (cpBuild nodeIds edges).preds (x :: m) x → m = []) :
    (kahnTopo nodeIds edges).length = nodeIds.length ∧
    (kahnTopo nodeIds edges).Nodup ∧
    TopoOrdered (cpBuild nodeIds edges).preds (kahnTopo nodeIds edges) ∧
    (∀ x ∈ kahnTopo nodeIds edges, x ∈ nodeIds) ∧
    (∀ x ∈ nodeIds, x ∈ kahnTopo nodeIds edges) := by
  obtain ⟨indeg2, hinv, hord⟩ := kahnTopo_spec nodeIds edges hN hE
  obtain ⟨h1, h2, h3, h4, h5, h6⟩ := hinv
  rw [List.nil_append] at h3
  by_cases hall : ∀ x ∈ nodeIds, x ∈ kahnTopo nodeIds edges
  · have hlen : (kahnTopo nodeIds edges).length = nodeIds.length :=
      le_antisymm (Invalidate.nodup_subset_length h3 h2)
        (Invalidate.nodup_subset_length hN hall)
    exact ⟨hlen, h3, hord, h2, hall⟩
  · exfalso
    push_neg at hall
    obtain ⟨x0, hx0N, hx0T⟩ := hall
    have hdesc : ∀ c, c ∈ nodeIds → c ∉ kahnTopo nodeIds edges →
        ∃ p, p ∈ (cpBuild nodeIds edges).preds c ∧ p ∈ nodeIds ∧
          p ∉ kahnTopo nodeIds edges := by
      intro c hc hcT
      have hnz : indeg2 c ≠ 0 := by
        intro hz
        have hmm := h6 c hc hz
        rw [List.nil_append] at hmm
        exact hcT hmm
      have hI := h5 c hc
      by_contra hnone
      push_neg at hnone
      have hallp : ∀ p ∈ (cpBuild nodeIds edges).preds c, p ∈ kahnTopo nodeIds edges := by
        intro p hp
        exact hnone p hp (cpBuild_preds_sub hp).1
      have hfeq : ((cpBuild nodeIds edges).preds c).filter
          (fun p => decide (p ∈ kahnTopo nodeIds edges)) =
          (cpBuild nodeIds edges).preds c := by
        apply List.filter_eq_self.mpr
        intro p hp
        exact decide_eq_true (hallp p hp)
      rw [hfeq] at hI
      omega
    let f : {c // c ∈ nodeIds ∧ c ∉ kahnTopo nodeIds edges} →
        {c // c ∈ nodeIds ∧ c ∉ kahnTopo nodeIds edges} := fun c =>
      ⟨Classical.choose (hdesc c.1 c.2.1 c.2.2),
       (Classical.choose_spec (hdesc c.1 c.2.1 c.2.2)).2.1,
       (Classical.choose_spec (hdesc c.1 c.2.1 c.2.2)).2.2⟩
    let g : ℕ → {c // c ∈ nodeIds ∧ c ∉ kahnTopo nodeIds edges} := fun k =>
      f^[k] ⟨x0, hx0N, hx0T⟩
    have hstepall : ∀ k : ℕ, (g (k + 1)).1 ∈ (cpBuild nodeIds edges).preds ((g k).1) := by
      intro k
      have h7 : g (k + 1) = f (g k) := Function.iterate_succ_apply' f k _
      rw [h7]
      exact (Classical.choose_spec (hdesc (g k).1 (g k).2.1 (g k).2.2)).1
    have hchain : ∀ d : ℕ, ∀ k : ℕ, ∃ l : List String, l.length = d ∧
        PredPath (cpBuild nodeIds edges).preds ((g (k + d)).1 :: l) ((g k).1) := by
      intro d
      induction d with
      | zero =>
        intro k
        exact ⟨[], rfl, PredPath.single _⟩
      | succ d ihd =>
        intro k
        obtain ⟨l, hl, hp⟩ := ihd k
        refine ⟨(g (k + d)).1 :: l, by simp [hl], ?_⟩
        have hkd : k + (d + 1) = (k + d) + 1 := by omega
        rw [hkd]
        exact predPath_cons (hstepall (k + d)) hp
    have hfinal : ∀ a b : ℕ, a < b → (g b).1 = (g a).1 → False := by
      intro a b hab heqg
      obtain ⟨l, hl, hp⟩ := hchain (b - a) a
      have hba : a + (b - a) = b := by omega
      rw [hba, heqg] at hp
      have hm : l = [] := hacyc _ _ hp
      rw [hm] at hl
      simp only [List.length_nil] at hl
      omega
    have hcard : nodeIds.toFinset.card <
        (Finset.univ : Finset (Fin (nodeIds.length + 1))).card := by
      rw [Finset.card_univ, Fintype.card_fin]
      exact Nat.lt_succ_of_le nodeIds.toFinset_card_le
    have hmaps : ∀ k ∈ (Finset.univ : Finset (Fin (nodeIds.length + 1))),
        (g k.1).1 ∈ nodeIds.toFinset :=
      fun k _ => List.mem_toFinset.mpr (g k.1).2.1
    obtain ⟨i, _, j, _, hij, hgij⟩ :=
      Finset.exists_ne_map_eq_of_card_lt_of_maps_to hcard hmaps
    rcases lt_or_gt_of_ne hij with h | h
    · exact hfinal i.1 j.1 h (hgij.symm)
    · exact hfinal j.1 i.1 h hgij

theorem kahnTopo_cycle (nodeIds : List String) (edges : List (String × String))
    (hN : nodeIds.Nodup) (hE : edges.Nodup) {x : String} {m : List String}
    (hm : m ≠ []) (hcyc : PredPath (cpBuild nodeIds edges).preds (x :: m) x) :
    (kahnTopo nodeIds edges).length ≠ nodeIds.length := by
  intro hlen
  obtain ⟨indeg2, hinv, hord⟩ := kahnTopo_spec nodeIds edges hN hE
  obtain ⟨h1, h2, h3, h4, h5, h6⟩ := hinv
  rw [List.nil_append] at h3
  have hall : ∀ y ∈ nodeIds, y ∈ kahnTopo nodeIds edges :=
    list_all_mem_of_length_eq h3 hN h2 (le_of_eq hlen.symm)
  have hlen2 : 2 ≤ (x :: m).length := by
    cases m with
    | nil => exact absurd rfl hm
    | cons a t =>
      simp only [List.length_cons]
      omega
  have hxN : x ∈ nodeIds :=
    predPath_mem_nodes (fun p c hp => cpBuild_preds_sub hp) hcyc hlen2 x
      (List.mem_cons_self _ _)
  exact topo_no_cycle hord h3 hm hcyc (hall x hxN)

/-! ### The longest-distance pass -/

theorem distFold_eq (preds : String → List String) (w : String → ℚ)
    (topo : List String) :
    distFold preds w topo = topo.foldl (distStep preds w) ([], []) := rfl

theorem distSteps_structure (preds : String → List String) (w : String → ℚ) :
    ∀ (topo : List String) (acc : List (String × ℚ) × List (String × Option String)),
    ∃ E P, topo.foldl (distStep preds w) acc = (acc.1 ++ E, acc.2 ++ P) ∧
      E.map Prod.fst = topo ∧ P.map Prod.fst = topo := by
  intro topo
  induction topo with
  | nil =>
    intro acc
    exact ⟨[], [], by simp, rfl, rfl⟩
  | cons n t ih =>
    intro acc
    rw [List.foldl_cons]
    obtain ⟨E, P, h1, h2, h3⟩ := ih (distStep preds w acc n)
    refine ⟨(n, (bestPred acc.1 w n (preds n)).1) :: E,
            (n, (bestPred acc.1 w n (preds n)).2) :: P, ?_, ?_, ?_⟩
    · rw [h1]
      show ((distStep preds w acc n).1 ++ E, (distStep preds w acc n).2 ++ P) = _
      simp [distStep, List.append_assoc]
    · simp [h2]
    · simp [h3]

theorem distFold_keys (preds : String → List String) (w : String → ℚ)
    (topo : List String) :
    (distFold preds w topo).1.map Prod.fst = topo ∧
    (distFold preds w topo).2.map Prod.fst = topo := by
  obtain ⟨E, P, h1, h2, h3⟩ := distSteps_structure preds w topo ([], [])
  rw [distFold_eq, h1]
  simpa using ⟨h2, h3⟩

theorem distFold_decomp (preds : String → List String) (w : String → ℚ)
    (pre : List String) (n : String) (post : List String) :
    ∃ E P, (distFold preds w (pre ++ n :: post)).1 =
        (distFold preds w pre).1 ++
          (n, (bestPred (distFold preds w pre).1 w n (preds n)).1) :: E ∧
      (distFold preds w (pre ++ n :: post)).2 =
        (distFold preds w pre).2 ++
          (n, (bestPred (distFold preds w pre).1 w n (preds n)).2) :: P ∧
      E.map Prod.fst = post ∧ P.map Prod.fst = post := by
  obtain ⟨E, P, h1, h2, h3⟩ := distSteps_structure preds w post
    (distStep preds w (pre.foldl (distStep preds w) ([], [])) n)
  refine ⟨E, P, ?_, ?_, h2, h3⟩
  · rw [distFold_eq, List.foldl_append, List.foldl_cons, h1, distFold_eq]
    show (distStep preds w (pre.foldl (distStep preds w) ([], [])) n).1 ++ E = _
    simp [distStep, List.append_assoc]
  · rw [distFold_eq, List.foldl_append, List.foldl_cons, h1, distFold_eq]
    show (distStep preds w (pre.foldl (distStep preds w) ([], [])) n).2 ++ P = _
    simp [distStep, List.append_assoc]

theorem distFold_lookup_node {preds : String → List String} {w : String → ℚ}
    {pre : List String} {n : String} {post : List String}
    (hnd : (pre ++ n :: post).Nodup) :
    (distFold preds w (pre ++ n :: post)).1.lookup n =
      some ((bestPred (distFold preds w pre).1 w n (preds n)).1) ∧
    (distFold preds w (pre ++ n :: post)).2.lookup n =
      some ((bestPred (distFold preds w pre).1 w n (preds n)).2) := by
  obtain ⟨E, P, h1, h2, hE, hP⟩ := distFold_decomp preds w pre n post
  have hnpre : n ∉ pre := by
    intro hmm
    rcases List.nodup_append.mp hnd with ⟨_, _, hdisj⟩
    exact hdisj hmm (List.mem_cons_self _ _)
  have hd_none : (distFold preds w pre).1.lookup n = none := by
    apply lookup_eq_none_of_not_mem
    rw [(distFold_keys preds w pre).1]
    exact hnpre
  have hp_none : (distFold preds w pre).2.lookup n = none := by
    apply lookup_eq_none_of_not_mem
    rw [(distFold_keys preds w pre).2]
    exact hnpre
  constructor
  · rw [h1, lookup_append, hd_none]
    simp [List.lookup]
  · rw [h2, lookup_append, hp_none]
    simp [List.lookup]

theorem distFold_lookup_prefix {preds : String → List String} {w : String → ℚ}
    {pre : List String} {n : String} {post : List String} {x : String}
    (hx : x ∈ pre) :
    (distFold preds w (pre ++ n :: post)).1.lookup x =
      (distFold preds w pre).1.lookup x := by
  obtain ⟨E, P, h1, _, _, _⟩ := distFold_decomp preds w pre n post
  rw [h1, lookup_append]
  obtain ⟨v, hv⟩ := lookup_isSome_of_mem (distFold preds w pre).1 x
    (by rw [(distFold_keys preds w pre).1]; exact hx)
  rw [hv]

theorem bestPred_congr (D1 D2 : List (String × ℚ)) (w : String → ℚ) (n : String) :
    ∀ (ps : List String), (∀ p ∈ ps, D1.lookup p = D2.lookup p) →
    bestPred D1 w n ps = bestPred D2 w n ps := by
  have haux : ∀ (ps : List String), (∀ p ∈ ps, D1.lookup p = D2.lookup p) →
      ∀ (b : ℚ × Option String),
      ps.foldl (fun (b : ℚ × Option String) pred =>
        match D1.lookup pred with
        | none => b
        | some dp => if dp + w n > b.1 then (dp + w n, some pred) else b) b =
      ps.foldl (fun (b : ℚ × Option String) pred =>
        match D2.lookup pred with
        | none => b
        | some dp => if dp + w n > b.1 then (dp + w n, some pred) else b) b := by
    intro ps
    induction ps with
    | nil =>
      intro _ b
      rfl
    | cons p ps ih =>
      intro h b
      rw [List.foldl_cons, List.foldl_cons]
      rw [h p (List.mem_cons_self _ _)]
      exact ih (fun q hq => h q (List.mem_cons_of_mem _ hq)) _
  intro ps h
  exact haux ps h (w n, none)

theorem bestPred_fold (D : List (String × ℚ)) (w : String → ℚ) (n : String) :
    ∀ (ps : List String) (b : ℚ × Option String),
    b.1 ≤ (ps.foldl (fun (b : ℚ × Option String) pred =>
        match D.lookup pred with
        | none => b
        | some dp => if dp + w n > b.1 then (dp + w n, some pred) else b) b).1 ∧
    (ps.foldl (fun (b : ℚ × Option String) pred =>
        match D.lookup pred with
        | none => b
        | some dp => if dp + w n > b.1 then (dp + w n, some pred) else b) b = b ∨
      ∃ l1 p l2 dp, ps = l1 ++ p :: l2 ∧ D.lookup p = some dp ∧
        ps.foldl (fun (b : ℚ × Option String) pred =>
          match D.lookup pred with
          | none => b
          | some dp => if dp + w n > b.1 then (dp + w n, some pred) else b) b =
          (dp + w n, some p) ∧
        b.1 < dp + w n ∧
        (∀ q ∈ l1, ∀ dq, D.lookup q = some dq → dq + w n < dp + w n)) ∧
    (∀ q ∈ ps, ∀ dq, D.lookup q = some dq → dq + w n ≤
      (ps.foldl (fun (b : ℚ × Option String) pred =>
        match D.lookup pred with
        | none => b
        | some dp => if dp + w n > b.1 then (dp + w n, some pred) else b) b).1) := by
  intro ps
  induction ps with
  | nil =>
    intro b
    refine ⟨le_refl _, Or.inl rfl, ?_⟩
    intro q hq
    cases hq
  | cons p0 ps ih =>
    intro b
    rcases Option.eq_none_or_eq_some (D.lookup p0) with hl | ⟨dp0, hl⟩
    · have hcons : (p0 :: ps).foldl (fun (b : ℚ × Option String) pred =>
          match D.lookup pred with
          | none => b
          | some dp => if dp + w n > b.1 then (dp + w n, some pred) else b) b =
        ps.foldl (fun (b : ℚ × Option String) pred =>
          match D.lookup pred with
          | none => b
          | some dp => if dp + w n > b.1 then (dp + w n, some pred) else b) b := by
        rw [List.foldl_cons, hl]
      rw [hcons]
      obtain ⟨ih1, ih2, ih3⟩ := ih b
      refine ⟨ih1, ?_, ?_⟩
      · rcases ih2 with h2 | ⟨l1, p, l2, dp, hps, hlp, hr, hlt, hq⟩
        · exact Or.inl h2
        · refine Or.inr ⟨p0 :: l1, p, l2, dp, by rw [hps, List.cons_append], hlp, hr, hlt, ?_⟩
          intro q hq2 dq hdq
          rcases List.mem_cons.mp hq2 with h3 | h3
          · rw [h3, hl] at hdq
            cases hdq
          · exact hq q h3 dq hdq
      · intro q hq dq hdq
        rcases List.mem_cons.mp hq with h3 | h3
        · rw [h3, hl] at hdq
          cases hdq
        · exact ih3 q h3 dq hdq
    · by_cases hgt : dp0 + w n > b.1
      · have hcons : (p0 :: ps).foldl (fun (b : ℚ × Option String) pred =>
            match D.lookup pred with
            | none => b
            | some dp => if dp + w n > b.1 then (dp + w n, some pred) else b) b =
          ps.foldl (fun (b : ℚ × Option String) pred =>
            match D.lookup pred with
            | none => b
            | some dp => if dp + w n > b.1 then (dp + w n, some pred) else b)
            (dp0 + w n, some p0) := by
          rw [List.foldl_cons, hl]
          show ps.foldl _ (if dp0 + w n > b.1 then (dp0 + w n, some p0) else b) = _
          rw [if_pos hgt]
        rw [hcons]
        obtain ⟨ih1, ih2, ih3⟩ := ih (dp0 + w n, some p0)
        refine ⟨?_, ?_, ?_⟩
        · exact le_trans (le_of_lt hgt) ih1
        · rcases ih2 with h2 | ⟨l1, p, l2, dp, hps, hlp, hr, hlt, hq⟩
          · refine Or.inr ⟨[], p0, ps, dp0, rfl, hl, h2, hgt, ?_⟩
            intro q hq2
            cases hq2
          · refine Or.inr ⟨p0 :: l1, p, l2, dp, by rw [hps, List.cons_append], hlp, hr,
              lt_trans hgt hlt, ?_⟩
            intro q hq2 dq hdq
            rcases List.mem_cons.mp hq2 with h3 | h3
            · rw [h3, hl] at hdq
              have h4 : dp0 = dq := Option.some.inj hdq
              rw [← h4]
              exact hlt
            · exact hq q h3 dq hdq
        · intro q hq dq hdq
          rcases List.mem_cons.mp hq with h3 | h3
          · rw [h3, hl] at hdq
            have h4 : dp0 = dq := Option.some.inj hdq
            rw [← h4]
            exact ih1
          · exact ih3 q h3 dq hdq
      · have hcons : (p0 :: ps).foldl (fun (b : ℚ × Option String) pred =>
            match D.lookup pred with
            | none => b
            | some dp => if dp + w n > b.1 then (dp + w n, some pred) else b) b =
          ps.foldl (fun (b : ℚ × Option String) pred =>
            match D.lookup pred with
            | none => b
            | some dp => if dp + w n > b.1 then (dp + w n, some pred) else b) b := by
          rw [List.foldl_cons, hl]
          show ps.foldl _ (if dp0 + w n > b.1 then (dp0 + w n, some p0) else b) = _
          rw [if_neg hgt]
        rw [hcons]
        obtain ⟨ih1, ih2, ih3⟩ := ih b
        refine ⟨ih1, ?_, ?_⟩
        · rcases ih2 with h2 | ⟨l1, p, l2, dp, hps, hlp, hr, hlt, hq⟩
          · exact Or.inl h2
          · refine Or.inr ⟨p0 :: l1, p, l2, dp, by rw [hps, List.cons_append], hlp, hr, hlt, ?_⟩
            intro q hq2 dq hdq
            rcases List.mem_cons.mp hq2 with h3 | h3
            · rw [h3, hl] at hdq
              have h4 : dp0 = dq := Option.some.inj hdq
              rw [← h4]
              exact lt_of_le_of_lt (not_lt.mp hgt) hlt
            · exact hq q h3 dq hdq
        · intro q hq dq hdq
          rcases List.mem_cons.mp hq with h3 | h3
          · rw [h3, hl] at hdq
            have h4 : dp0 = dq := Option.some.inj hdq
            rw [← h4]
            exact le_trans (not_lt.mp hgt) ih1
          · exact ih3 q h3 dq hdq

theorem bestPred_spec (D : List (String × ℚ)) (w : String → ℚ) (n : String)
    (ps : List String) :
    w n ≤ (bestPred D w n ps).1 ∧
    (bestPred D w n ps = (w n, none) ∨
      ∃ l1 p l2 dp, ps = l1 ++ p :: l2 ∧ D.lookup p = some dp ∧
        bestPred D w n ps = (dp + w n, some p) ∧ w n < dp + w n ∧
        (∀ q ∈ l1, ∀ dq, D.lookup q = some dq → dq + w n < dp + w n)) ∧
    (∀ q ∈ ps, ∀ dq, D.lookup q = some dq → dq + w n ≤ (bestPred D w n ps).1) :=
  bestPred_fold D w n ps (w n, none)

theorem foldr_max_le (l : List ℚ) (x : ℚ) (h0 : 0 ≤ x) (h : ∀ y ∈ l, y ≤ x) :
    l.foldr max 0 ≤ x := by
  induction l with
  | nil => simpa using h0
  | cons a t ih =>
    rw [List.foldr_cons]
    exact max_le (h a (List.mem_cons_self _ _))
      (ih (fun y hy => h y (List.mem_cons_of_mem _ hy)))

theorem le_foldr_max (l : List ℚ) (x : ℚ) (h : x ∈ l) : x ≤ l.foldr max 0 := by
  induction l with
  | nil => cases h
  | cons a t ih =>
    rw [List.foldr_cons]
    rcases List.mem_cons.mp h with h2 | h2
    · exact h2 ▸ le_max_left _ _
    · exact le_trans (ih h2) (le_max_right _ _)

theorem foldr_max_nonneg (l : List ℚ) : 0 ≤ l.foldr max 0 := by
  induction l with
  | nil => exact le_refl 0
  | cons a t ih =>
    rw [List.foldr_cons]
    exact le_trans ih (le_max_right _ _)

theorem foldr_max_eq (l : List ℚ) (x : ℚ) (hmem : x ∈ l) (hub : ∀ y ∈ l, y ≤ x)
    (h0 : 0 ≤ x) : l.foldr max 0 = x :=
  le_antisymm (foldr_max_le l x h0 hub) (le_foldr_max l x hmem)

theorem lookup_mem {β : Type} : ∀ {l : List (String × β)} {k : String} {v : β},
    l.lookup k = some v → (k, v) ∈ l := by
  intro l
  induction l with
  | nil =>
    intro k v h
    cases h
  | cons a t ih =>
    intro k v h
    rcases a with ⟨k0, v0⟩
    by_cases hb : (k == k0) = true
    · have hk : k = k0 := by simpa using hb
      simp only [List.lookup, hb] at h
      have hv : v0 = v := Option.some.inj h
      rw [hk, ← hv]
      exact List.mem_cons_self _ _
    · have hb2 : (k == k0) = false := by simpa using hb
      simp only [List.lookup, hb2] at h
      exact List.mem_cons_of_mem _ (ih h)

theorem lookup_self_of_mem {β : Type} :
    ∀ {l : List (String × β)} {e : String × β}, (l.map Prod.fst).Nodup → e ∈ l →
      l.lookup e.1 = some e.2 := by
  intro l
  induction l with
  | nil =>
    intro e _ he
    cases he
  | cons a t ih =>
    intro e hnd he
    rcases a with ⟨k0, v0⟩
    have hnd2 : (k0 :: t.map Prod.fst).Nodup := by simpa using hnd
    rcases List.nodup_cons.mp hnd2 with ⟨hk0, htnd⟩
    rcases List.mem_cons.mp he with h2 | h2
    · rw [h2]
      simp [List.lookup]
    · have hne : ¬(e.1 == k0) = true := by
        intro hmm
        have heq : e.1 = k0 := by simpa using hmm
        exact hk0 (heq ▸ List.mem_map.mpr ⟨e, h2, rfl⟩)
      simp [List.lookup, hne, ih htnd h2]

theorem distFold_values_pos (preds : String → List String) (w : String → ℚ)
    (hW : ∀ x, 0 < w x) :
    ∀ (topo : List String) (acc : List (String × ℚ) × List (String × Option String)),
    (∀ e ∈ acc.1, 0 < e.2) →
    ∀ e ∈ (topo.foldl (distStep preds w) acc).1, 0 < e.2 := by
  intro topo
  induction topo with
  | nil =>
    intro acc hacc
    exact hacc
  | cons n t ih =>
    intro acc hacc
    rw [List.foldl_cons]
    refine ih (distStep preds w acc n) ?_
    intro e he
    rcases List.mem_append.mp he with h2 | h2
    · exact hacc e h2
    · rcases List.mem_singleton.mp h2 with rfl
      have h3 := (bestPred_spec acc.1 w n (preds n)).1
      exact lt_of_lt_of_le (hW n) h3

theorem distD_lookup_pos {preds : String → List String} {w : String → ℚ}
    (hW : ∀ x, 0 < w x) (topo : List String) {p : String} {dp : ℚ}
    (h : (distFold preds w topo).1.lookup p = some dp) : 0 < dp := by
  have hmem := lookup_mem h
  have hpos := distFold_values_pos preds w hW topo ([], [])
    (fun e he => absurd he (List.not_mem_nil e))
  rw [distFold_eq] at hmem
  exact hpos (p, dp) hmem

theorem getLast?_cons_ne {α : Type} {l : List α} (a : α) (h : l ≠ []) :
    (a :: l).getLast? = l.getLast? := by
  cases l with
  | nil => exact absurd rfl h
  | cons b t => rfl

theorem firstArgmax_fold (l : List (String × ℚ)) :
    ∀ (b : String × ℚ),
    ∃ e, l.foldl (fun best e =>
        match best with
        | none => some e
        | some b => if e.2 > b.2 then some e else some b) (some b) = some e ∧
      b.2 ≤ e.2 ∧
      (e = b ∨ ∃ l1 l2, l = l1 ++ e :: l2 ∧ b.2 < e.2 ∧ ∀ x ∈ l1, x.2 < e.2) ∧
      (∀ x ∈ l, x.2 ≤ e.2) := by
  induction l with
  | nil =>
    intro b
    exact ⟨b, rfl, le_refl _, Or.inl rfl, fun x hx => absurd hx (List.not_mem_nil x)⟩
  | cons a l ih =>
    intro b
    by_cases hgt : a.2 > b.2
    · have hcons : (a :: l).foldl (fun best e =>
          match best with
          | none => some e
          | some b => if e.2 > b.2 then some e else some b) (some b) =
        l.foldl (fun best e =>
          match best with
          | none => some e
          | some b => if e.2 > b.2 then some e else some b) (some a) := by
        rw [List.foldl_cons]
        show l.foldl _ (if a.2 > b.2 then some a else some b) = _
        rw [if_pos hgt]
      rw [hcons]
      obtain ⟨e, he, hbe, hor, hub⟩ := ih a
      refine ⟨e, he, le_trans (le_of_lt hgt) hbe, ?_, ?_⟩
      · rcases hor with h2 | ⟨l1, l2, hl, hlt, hall⟩
        · refine Or.inr ⟨[], l, by rw [h2, List.nil_append],
            ?_, fun x hx => absurd hx (List.not_mem_nil x)⟩
          rw [h2]
          exact hgt
        · refine Or.inr ⟨a :: l1, l2, by rw [hl, List.cons_append],
            lt_trans hgt hlt, ?_⟩
          intro x hx
          rcases List.mem_cons.mp hx with h3 | h3
          · rw [h3]
            exact hlt
          · exact hall x h3
      · intro x hx
        rcases List.mem_cons.mp hx with h3 | h3
        · rw [h3]
          exact hbe
        · exact hub x h3
    · have hcons : (a :: l).foldl (fun best e =>
          match best with
          | none => some e
          | some b => if e.2 > b.2 then some e else some b) (some b) =
        l.foldl (fun best e =>
          match best with
          | none => some e
          | some b => if e.2 > b.2 then some e else some b) (some b) := by
        rw [List.foldl_cons]
        show l.foldl _ (if a.2 > b.2 then some a else some b) = _
        rw [if_neg hgt]
      rw [hcons]
      obtain ⟨e, he, hbe, hor, hub⟩ := ih b
      refine ⟨e, he, hbe, ?_, ?_⟩
      · rcases hor with h2 | ⟨l1, l2, hl, hlt, hall⟩
        · exact Or.inl h2
        · refine Or.inr ⟨a :: l1, l2, by rw [hl, List.cons_append], hlt, ?_⟩
          intro x hx
          rcases List.mem_cons.mp hx with h3 | h3
          · rw [h3]
            exact lt_of_le_of_lt (not_lt.mp hgt) hlt
          · exact hall x h3
      · intro x hx
        rcases List.mem_cons.mp hx with h3 | h3
        · rw [h3]
          exact le_trans (not_lt.mp hgt) hbe
        · exact hub x h3

theorem firstArgmax_spec (l : List (String × ℚ)) (hl : l ≠ []) :
    ∃ e, firstArgmax l = some e ∧
      (∃ l1 l2, l = l1 ++ e :: l2 ∧ ∀ x ∈ l1, x.2 < e.2) ∧
      (∀ x ∈ l, x.2 ≤ e.2) := by
  cases l with
  | nil => exact absurd rfl hl
  | cons a l =>
    have hcons : firstArgmax (a :: l) = l.foldl (fun best e =>
        match best with
        | none => some e
        | some b => if e.2 > b.2 then some e else some b) (some a) := rfl
    obtain ⟨e, he, hae, hor, hub⟩ := firstArgmax_fold l a
    refine ⟨e, by rw [hcons, he], ?_, ?_⟩
    · rcases hor with h2 | ⟨l1, l2, hl2, hlt, hall⟩
      · exact ⟨[], l, by rw [h2, List.nil_append],
          fun x hx => absurd hx (List.not_mem_nil x)⟩
      · refine ⟨a :: l1, l2, by rw [hl2, List.cons_append], ?_⟩
        intro x hx
        rcases List.mem_cons.mp hx with h3 | h3
        · rw [h3]
          exact hlt
        · exact hall x h3
    · intro x hx
      rcases List.mem_cons.mp hx with h3 | h3
      · rw [h3]
        exact hae
      · exact hub x h3

theorem firstArgmax_none (l : List (String × ℚ)) (hl : l = []) :
    firstArgmax l = none := by
  rw [hl]
  rfl

/-! ### The parent-pointer walk -/

theorem parentChain_spec {preds : String → List String} {w : String → ℚ}
    {topo : List String} (hnd : topo.Nodup) (hord : TopoOrdered preds topo)
    (hW : ∀ x, 0 < w x) (hEmp : "" ∉ topo) :
    ∀ (k : ℕ) (pre : List String) (n : String) (post : List String),
      topo = pre ++ n :: post → pre.length = k →
      ∀ fuel : ℕ, k + 1 ≤ fuel →
      PredPath preds (parentChain (distFold preds w topo).2 fuel n).reverse n ∧
      (((parentChain (distFold preds w topo).2 fuel n).reverse.map w).sum =
        ((distFold preds w topo).1.lookup n).getD 0) ∧
      (∀ y ∈ parentChain (distFold preds w topo).2 fuel n, y ∈ topo) ∧
      (∃ r, (parentChain (distFold preds w topo).2 fuel n).getLast? = some r ∧
        preds r = []) := by
  intro k
  induction k using Nat.strong_induction_on with
  | _ k ihk =>
    intro pre n post heq hk fuel hfuel
    have hnT : n ∈ topo := by
      rw [heq]
      exact List.mem_append_right _ (List.mem_cons_self _ _)
    have hne : n ≠ "" := fun hmm => hEmp (hmm ▸ hnT)
    cases fuel with
    | zero => omega
    | succ fuel2 =>
      have hunfold : parentChain (distFold preds w topo).2 (fuel2 + 1) n =
          if n = "" then []
          else n :: (match (distFold preds w topo).2.lookup n with
            | some (some p) => parentChain (distFold preds w topo).2 fuel2 p
            | _ => []) := rfl
      obtain ⟨hD, hP⟩ := distFold_lookup_node (heq ▸ hnd)
      rw [← heq] at hD hP
      obtain ⟨hb1, hb2, hb3⟩ := bestPred_spec (distFold preds w pre).1 w n (preds n)
      rcases hb2 with hnone | ⟨l1, p, l2, dp, hps, hlp, hbp, hwlt, hfirst⟩
      · have hPn : (distFold preds w topo).2.lookup n = some none := by
          rw [hP, hnone]
        have hchain : parentChain (distFold preds w topo).2 (fuel2 + 1) n = [n] := by
          rw [hunfold, if_neg hne, hPn]
        have hDn : (distFold preds w topo).1.lookup n = some (w n) := by
          rw [hD, hnone]
        have hpn : preds n = [] := by
          apply List.eq_nil_iff_forall_not_mem.mpr
          intro p hp
          have hppre : p ∈ pre := hord pre n post heq p hp
          obtain ⟨dp, hdp⟩ := lookup_isSome_of_mem (distFold preds w pre).1 p
            (by rw [(distFold_keys preds w pre).1]; exact hppre)
          have hub := hb3 p hp dp hdp
          rw [hnone] at hub
          have hub2 : dp + w n ≤ w n := hub
          have hdp_pos : 0 < dp := distD_lookup_pos hW pre hdp
          linarith
        rw [hchain]
        refine ⟨?_, ?_, ?_, ?_⟩
        · exact PredPath.single n
        · rw [hDn]
          simp
        · intro y hy
          rcases List.mem_singleton.mp hy with rfl
          exact hnT
        · exact ⟨n, rfl, hpn⟩
      · have hpPred : p ∈ preds n := by
          rw [hps]
          exact List.mem_append_right _ (List.mem_cons_self _ _)
        have hppre : p ∈ pre := hord pre n post heq p hpPred
        obtain ⟨pre2, post2, hpre2⟩ := List.append_of_mem hppre
        have heq2 : topo = pre2 ++ p :: (post2 ++ n :: post) := by
          rw [heq, hpre2]
          simp
        have hklt : pre2.length < k := by
          rw [← hk, hpre2, List.length_append, List.length_cons]
          omega
        have hPn : (distFold preds w topo).2.lookup n = some (some p) := by
          rw [hP, hbp]
        have hDn : (distFold preds w topo).1.lookup n = some (dp + w n) := by
          rw [hD, hbp]
        have hchain : parentChain (distFold preds w topo).2 (fuel2 + 1) n =
            n :: parentChain (distFold preds w topo).2 fuel2 p := by
          rw [hunfold, if_neg hne, hPn]
        obtain ⟨ihpath, ihsum, ihmem, ihroot⟩ := ihk pre2.length hklt pre2 p
          (post2 ++ n :: post) heq2 rfl fuel2 (by omega)
        have hDp : (distFold preds w topo).1.lookup p = some dp := by
          rw [heq, distFold_lookup_prefix hppre]
          exact hlp
        rw [hchain]
        refine ⟨?_, ?_, ?_, ?_⟩
        · rw [List.reverse_cons]
          exact PredPath.snoc ihpath hpPred
        · rw [List.reverse_cons, List.map_append, List.sum_append, ihsum, hDp, hDn]
          simp
        · intro y hy
          rcases List.mem_cons.mp hy with h3 | h3
          · rw [h3]
            exact hnT
          · exact ihmem y h3
        · obtain ⟨r, hr1, hr2⟩ := ihroot
          have hchne : parentChain (distFold preds w topo).2 fuel2 p ≠ [] := by
            intro hmm
            rw [hmm] at ihpath
            exact predPath_ne_nil ihpath rfl
          refine ⟨r, ?_, hr2⟩
          rw [getLast?_cons_ne n hchne, hr1]

/-! ### Optimality of the computed distances -/

theorem distFold_ub {preds : String → List String} {w : String → ℚ} {topo : List String}
    (hnd : topo.Nodup) (hord : TopoOrdered preds topo) :
    ∀ n ∈ topo, ∃ dn, (distFold preds w topo).1.lookup n = some dn ∧ w n ≤ dn ∧
      (∀ p ∈ preds n, ∀ dp2, (distFold preds w topo).1.lookup p = some dp2 →
        dp2 + w n ≤ dn) := by
  intro n hn
  obtain ⟨pre, post, heq⟩ := List.append_of_mem hn
  obtain ⟨hD, _⟩ := distFold_lookup_node (heq ▸ hnd)
  rw [← heq] at hD
  obtain ⟨hb1, _, hb3⟩ := bestPred_spec (distFold preds w pre).1 w n (preds n)
  refine ⟨_, hD, hb1, ?_⟩
  intro p hp dp2 hdp2
  have hppre : p ∈ pre := hord pre n post heq p hp
  have hpre_eq : (distFold preds w topo).1.lookup p =
      (distFold preds w pre).1.lookup p := by
    rw [heq]
    exact distFold_lookup_prefix hppre
  rw [hpre_eq] at hdp2
  exact hb3 p hp dp2 hdp2

theorem predPath_sum_le {preds : String → List String} {w : String → ℚ}
    {topo : List String} (hnd : topo.Nodup) (hord : TopoOrdered preds topo)
    {l : List String} {n : String} (hp : PredPath preds l n) :
    (∀ y ∈ l, y ∈ topo) → ∀ dn, (distFold preds w topo).1.lookup n = some dn →
    (l.map w).sum ≤ dn := by
  induction hp with
  | single m =>
    intro hmem dn hdn
    obtain ⟨dn2, hD2, hw, _⟩ := distFold_ub hnd hord m
      (hmem m (List.mem_singleton.mpr rfl))
    have hdneq : dn2 = dn := by
      rw [hdn] at hD2
      exact (Option.some.inj hD2).symm
    have h5 : ([m].map w).sum = w m := by simp
    rw [h5, ← hdneq]
    exact hw
  | snoc hp1 hstep ih =>
    rename_i l2 p m
    intro hmem dn hdn
    have hmT : m ∈ topo := hmem m (List.mem_append_right _ (List.mem_singleton.mpr rfl))
    have hpT : p ∈ topo := (before_mem (before_of_topoOrdered hord hmT hstep)).1
    obtain ⟨dp2, hdp2⟩ := lookup_isSome_of_mem (distFold preds w topo).1 p
      (by rw [(distFold_keys preds w topo).1]; exact hpT)
    obtain ⟨dn2, hD2, hw, hub⟩ := distFold_ub hnd hord m hmT
    have hdneq : dn2 = dn := by
      rw [hdn] at hD2
      exact (Option.some.inj hD2).symm
    have hq := hub p hstep dp2 hdp2
    have hsum := ih (fun y hy => hmem y (List.mem_append_left _ hy)) dp2 hdp2
    rw [List.map_append, List.sum_append]
    have h5 : ([m].map w).sum = w m := by simp
    rw [h5, ← hdneq]
    linarith

theorem distFold_recurrence {preds : String → List String} {w : String → ℚ}
    {topo : List String} (hnd : topo.Nodup) (hord : TopoOrdered preds topo)
    (hW : ∀ x, 0 < w x) :
    ∀ n ∈ topo,
      (distFold preds w topo).1.lookup n =
        some (w n + ((preds n).map
          (fun p => ((distFold preds w topo).1.lookup p).getD 0)).foldr max 0) ∧
      (preds n = [] → (distFold preds w topo).2.lookup n = some none) ∧
      (preds n ≠ [] → ∃ p l1 l2,
        (distFold preds w topo).2.lookup n = some (some p) ∧
        preds n = l1 ++ p :: l2 ∧
        ((distFold preds w topo).1.lookup p).getD 0 =
          ((preds n).map
            (fun q => ((distFold preds w topo).1.lookup q).getD 0)).foldr max 0 ∧
        (∀ q ∈ l1, ((distFold preds w topo).1.lookup q).getD 0 <
          ((preds n).map
            (fun q2 => ((distFold preds w topo).1.lookup q2).getD 0)).foldr max 0)) := by
  intro n hn
  obtain ⟨pre, post, heq⟩ := List.append_of_mem hn
  obtain ⟨hD, hP⟩ := distFold_lookup_node (heq ▸ hnd)
  rw [← heq] at hD hP
  have hdval : ∀ q ∈ preds n, ∃ dq, (distFold preds w pre).1.lookup q = some dq ∧
      (distFold preds w topo).1.lookup q = some dq := by
    intro q hq
    have hqpre : q ∈ pre := hord pre n post heq q hq
    obtain ⟨dq, hdq⟩ := lookup_isSome_of_mem (distFold preds w pre).1 q
      (by rw [(distFold_keys preds w pre).1]; exact hqpre)
    refine ⟨dq, hdq, ?_⟩
    rw [heq, distFold_lookup_prefix hqpre]
    exact hdq
  obtain ⟨hb1, hb2, hb3⟩ := bestPred_spec (distFold preds w pre).1 w n (preds n)
  rcases hb2 with hnone | ⟨l1, p, l2, dp, hps, hlp, hbp, hwlt, hfirst⟩
  · have hpn : preds n = [] := by
      apply List.eq_nil_iff_forall_not_mem.mpr
      intro p hp
      obtain ⟨dq, hdq, _⟩ := hdval p hp
      have hub := hb3 p hp dq hdq
      rw [hnone] at hub
      have hub2 : dq + w n ≤ w n := hub
      have hdp_pos : 0 < dq := distD_lookup_pos hW pre hdq
      linarith
    refine ⟨?_, fun _ => by rw [hP, hnone], fun hmm => absurd hpn hmm⟩
    rw [hD, hnone, hpn]
    simp
  · have hpPred : p ∈ preds n := by
      rw [hps]
      exact List.mem_append_right _ (List.mem_cons_self _ _)
    obtain ⟨dpq, hdpq, hdpq2⟩ := hdval p hpPred
    have hdp_eq : dpq = dp := by
      rw [hlp] at hdpq
      exact (Option.some.inj hdpq).symm
    rw [hdp_eq] at hdpq2
    have hM : ((preds n).map
        (fun q => ((distFold preds w topo).1.lookup q).getD 0)).foldr max 0 = dp := by
      apply foldr_max_eq
      · refine List.mem_map.mpr ⟨p, hpPred, ?_⟩
        rw [hdpq2]
        rfl
      · intro y hy
        obtain ⟨q, hq, hqy⟩ := List.mem_map.mp hy
        obtain ⟨dq, hdq, hdq2⟩ := hdval q hq
        have hub := hb3 q hq dq hdq
        rw [hbp] at hub
        have hub2 : dq + w n ≤ dp + w n := hub
        rw [← hqy, hdq2]
        show (some dq).getD 0 ≤ dp
        simp only [Option.getD_some]
        linarith
      · have hdp_pos : 0 < dp := by
          rw [← hdp_eq]
          exact distD_lookup_pos hW pre hdpq
        linarith
    refine ⟨?_, ?_, ?_⟩
    · rw [hD, hbp, hM]
      rw [add_comm]
    · intro hmm
      rw [hmm] at hpPred
      cases hpPred
    · intro _
      refine ⟨p, l1, l2, by rw [hP, hbp], hps, ?_, ?_⟩
      · rw [hdpq2, hM]
        rfl
      · intro q hq
        obtain ⟨dq, hdq, hdq2⟩ := hdval q (by rw [hps]; exact List.mem_append_left _ hq)
        have hlt := hfirst q hq dq hdq
        rw [hdq2, hM]
        show (some dq).getD 0 < dp
        simp only [Option.getD_some]
        linarith

theorem argmax_leaf {preds : String → List String} {w : String → ℚ}
    {topo : List String} (hnd : topo.Nodup) (hord : TopoOrdered preds topo)
    (hW : ∀ x, 0 < w x) {nstar : String} {dstar : ℚ}
    (hstar : (distFold preds w topo).1.lookup nstar = some dstar)
    (hmax : ∀ x ∈ (distFold preds w topo).1, x.2 ≤ dstar) :
    ∀ c ∈ topo, nstar ∉ preds c := by
  intro c hc hmem
  obtain ⟨dc, hdc, _, hub⟩ := distFold_ub hnd hord c hc
  have h1 := hub nstar hmem dstar hstar
  have h2 : (c, dc) ∈ (distFold preds w topo).1 := lookup_mem hdc
  have h3 := hmax (c, dc) h2
  have h4 : 0 < w c := hW c
  have h5 : dc ≤ dstar := h3
  linarith

/-! ### Assembling `critical_path` -/

theorem critical_path_eq (nodeIds : List String) (edges : List (String × String))
    (w : String → ℚ) :
    critical_path nodeIds edges w =
      if (kahnTopo nodeIds edges).length ≠ nodeIds.length then ([], 0, false)
      else match firstArgmax (distD nodeIds edges w) with
        | none => ([], 0, true)
        | some e => ((parentChain (distP nodeIds edges w)
            ((distD nodeIds edges w).length + 1) e.1).reverse, e.2, true) := rfl

theorem reverse_cons_of_getLast {α : Type} {l : List α} {r : α}
    (h : l.getLast? = some r) : ∃ t, l.reverse = r :: t := by
  have h2 : l.reverse.head? = some r := by
    rw [List.head?_reverse]
    exact h
  cases hrev : l.reverse with
  | nil =>
    rw [hrev] at h2
    cases h2
  | cons a t =>
    rw [hrev] at h2
    have ha : a = r := Option.some.inj h2
    exact ⟨t, by rw [ha]⟩

theorem depgraph_preds_eq {nodeIds : List String} {edges : List (String × String)}
    (hend : ∀ e ∈ edges, e.1 ∈ nodeIds ∧ e.2 ∈ nodeIds) :
    (fun d => ((edges.filter (fun e => e.2 = d)).map (fun e => e.1))) =
      (cpBuild nodeIds edges).preds := by
  funext d
  rw [cpBuild_preds]
  have hfe : edges.filter (fun e => decide (e.2 = d)) = edges.filter (fun e =>
      nodeIds.contains e.1 && nodeIds.contains e.2 && decide (e.2 = d)) := by
    apply List.filter_congr
    intro e he
    have h2 := hend e he
    simp [h2.1, h2.2]
  show (edges.filter (fun e => decide (e.2 = d))).map (fun e => e.1) = _
  rw [hfe]

theorem predPath_end_mem {preds : String → List String} {l : List String} {n : String}
    (h : PredPath preds l n) : n ∈ l := by
  cases h with
  | single => exact List.mem_singleton.mpr rfl
  | snoc h1 h2 => exact List.mem_append_right _ (List.mem_singleton.mpr rfl)

theorem depgraph_bridge {nodeIds : List String} {edges : List (String × String)}
    (w : String → ℚ)
    (hend : ∀ e ∈ edges, e.1 ∈ nodeIds ∧ e.2 ∈ nodeIds)
    (hlen : (kahnTopo nodeIds edges).length = nodeIds.length) :
    DependencyGraph.critical_path (kahnTopo nodeIds edges) edges w =
      ((critical_path nodeIds edges w).1, (critical_path nodeIds edges w).2.1) := by
  by_cases htopo : kahnTopo nodeIds edges = []
  · have hD : distD nodeIds edges w = [] := by
      have hk := (distFold_keys (cpBuild nodeIds edges).preds w (kahnTopo nodeIds edges)).1
      rw [show (distFold (cpBuild nodeIds edges).preds w (kahnTopo nodeIds edges)).1 =
        distD nodeIds edges w from rfl, htopo] at hk
      exact List.map_eq_nil_iff.mp hk
    have hR : critical_path nodeIds edges w = ([], 0, true) := by
      rw [critical_path_eq, if_neg (fun hmm => hmm hlen), hD]
      rfl
    rw [hR]
    simp only [DependencyGraph.critical_path]
    rw [if_pos htopo]
  · have hDne : distD nodeIds edges w ≠ [] := by
      intro hmm
      have hk := (distFold_keys (cpBuild nodeIds edges).preds w (kahnTopo nodeIds edges)).1
      rw [show (distFold (cpBuild nodeIds edges).preds w (kahnTopo nodeIds edges)).1 =
        distD nodeIds edges w from rfl, hmm] at hk
      exact htopo hk.symm
    obtain ⟨e, he, _, _⟩ := firstArgmax_spec _ hDne
    have hR : critical_path nodeIds edges w =
        ((parentChain (distP nodeIds edges w)
          ((distD nodeIds edges w).length + 1) e.1).reverse, e.2, true) := by
      rw [critical_path_eq, if_neg (fun hmm => hmm hlen), he]
    rw [hR]
    simp only [DependencyGraph.critical_path]
    rw [if_neg htopo, depgraph_preds_eq hend]
    rw [show (distFold (cpBuild nodeIds edges).preds w (kahnTopo nodeIds edges)).1 =
      distD nodeIds edges w from rfl]
    rw [show (distFold (cpBuild nodeIds edges).preds w (kahnTopo nodeIds edges)).2 =
      distP nodeIds edges w from rfl]
    rw [he]

end Orchestrate

/-- C6 counterexample: a present dependency with status `cancelled` DOES
block its dependent: `WI-Q` (active, depending only on the present,
cancelled, hence inactive `WI-P`) is not in the ready set and is never
scheduled, although the claim says it should be immediately
schedulable. -/
theorem C6_cancelled_dep_counterexample :
    Orchestrate.findJob c6jobs "WI-P" = some ⟨"WI-P", "cancelled", 1, []⟩ ∧
    "WI-Q" ∈ Orchestrate.active_ids c6jobs ∧
    Orchestrate.depsOf c6jobs "WI-Q" = ["WI-P"] ∧
    "WI-P" ∉ Orchestrate.active_ids c6jobs ∧
    Orchestrate.initial_frontier c6jobs = [] ∧
    (Orchestrate.schedule c6jobs 2).1 = [] := by
  refine ⟨by decide, by decide, by decide, by decide, by decide, by decide⟩

/-- C6 (amended): an active job is immediately schedulable (in the
initial ready set) exactly when every one of its (nonempty) declared
dependency ids resolves to an existing job whose status is `done`; a
dependency that is missing, or present but not `done` — whether it is in
the active set or outside it (e.g. `cancelled`) — blocks the job. -/
theorem C6_first_wave_characterization {jobs : List Orchestrate.JobNode}
    (h : (jobs.map (·.work_item_id)).Nodup) (wi : String) :
    wi ∈ Orchestrate.initial_frontier jobs ↔
      (wi ∈ Orchestrate.active_ids jobs ∧
        ∀ dep ∈ Orchestrate.depsOf jobs wi, pyStrip dep ≠ "" →
          ∃ dj, Orchestrate.findJob jobs (pyStrip dep) = some dj ∧ dj.status = "done") := by
  unfold Orchestrate.initial_frontier
  rw [List.mem_filter]
  constructor
  · rintro ⟨hact, hcond⟩
    refine ⟨hact, ?_⟩
    rw [Bool.and_eq_true, Orchestrate.blockedOk, Bool.and_eq_true,
      decide_eq_true_iff, decide_eq_true_iff, decide_eq_true_iff] at hcond
    obtain ⟨hindeg, hmiss, hnd⟩ := hcond
    rw [Orchestrate.analyze_indeg h, if_pos hact] at hindeg
    rw [Orchestrate.analyze_missing h, if_pos hact] at hmiss
    rw [Orchestrate.analyze_not_done h, if_pos hact] at hnd
    have hocc : Orchestrate.activeDepOcc jobs (Orchestrate.active_ids jobs)
        (Orchestrate.depsOf jobs wi) = [] := by
      have := hindeg
      rw [Nat.cast_eq_zero, List.length_eq_zero] at this
      exact this
    simp only [Orchestrate.activeDepOcc] at hocc
    simp only [Orchestrate.missingDepList] at hmiss
    simp only [Orchestrate.notDoneDepList] at hnd
    rw [List.filterMap_eq_nil_iff] at hocc hmiss hnd
    intro dep hdep hne
    have hm := hmiss dep hdep
    rw [if_neg hne] at hm
    split at hm
    · simp at hm
    · rename_i dj hf
      refine ⟨dj, hf, ?_⟩
      by_cases hdone : dj.status = "done"
      · exact hdone
      exfalso
      have ho := hocc dep hdep
      rw [if_neg hne] at ho
      split at ho
      · rename_i hf2
        rw [hf] at hf2
        cases hf2
      · rename_i dn hf2
        rw [hf] at hf2
        injection hf2 with hdn
        subst hdn
        rw [if_neg hdone] at ho
        by_cases hmem : (Orchestrate.active_ids jobs).contains (pyStrip dep) = true
        · rw [if_pos hmem] at ho
          simp at ho
        · have hn := hnd dep hdep
          rw [if_neg hne] at hn
          split at hn
          · rename_i hf3
            rw [hf] at hf3
            cases hf3
          · rename_i dn2 hf3
            rw [hf] at hf3
            injection hf3 with hdn2
            subst hdn2
            rw [if_neg hdone, if_neg hmem] at hn
            simp at hn
  · rintro ⟨hact, hdeps⟩
    refine ⟨hact, ?_⟩
    have hocc : Orchestrate.activeDepOcc jobs (Orchestrate.active_ids jobs)
        (Orchestrate.depsOf jobs wi) = [] := by
      simp only [Orchestrate.activeDepOcc]
      rw [List.filterMap_eq_nil_iff]
      intro dep hdep
      by_cases hne : pyStrip dep = ""
      · simp [hne]
      · obtain ⟨dj, hf, hdone⟩ := hdeps dep hdep hne
        simp [hne, hf, hdone]
    have hmiss : Orchestrate.missingDepList jobs (Orchestrate.depsOf jobs wi) = [] := by
      simp only [Orchestrate.missingDepList]
      rw [List.filterMap_eq_nil_iff]
      intro dep hdep
      by_cases hne : pyStrip dep = ""
      · simp [hne]
      · obtain ⟨dj, hf, hdone⟩ := hdeps dep hdep hne
        simp [hne, hf]
    have hnd : Orchestrate.notDoneDepList jobs (Orchestrate.active_ids jobs)
        (Orchestrate.depsOf jobs wi) = [] := by
      simp only [Orchestrate.notDoneDepList]
      rw [List.filterMap_eq_nil_iff]
      intro dep hdep
      by_cases hne : pyStrip dep = ""
      · simp [hne]
      · obtain ⟨dj, hf, hdone⟩ := hdeps dep hdep hne
        simp [hne, hf, hdone]
    rw [Bool.and_eq_true, Orchestrate.blockedOk, Bool.and_eq_true,
      decide_eq_true_iff, decide_eq_true_iff, decide_eq_true_iff]
    refine ⟨?_, ?_, ?_⟩
    · rw [Orchestrate.analyze_indeg h, if_pos hact, hocc]
      simp
    · rw [Orchestrate.analyze_missing h, if_pos hact, hmiss]
    · rw [Orchestrate.analyze_not_done h, if_pos hact, hnd]

/-- C6 witness: with a `done` dependency, the dependent is immediately
schedulable. -/
theorem C6_first_wave_witness :
    "WI-B" ∈ Orchestrate.initial_frontier c6okJobs :=
  (@C6_first_wave_characterization c6okJobs (by decide) "WI-B").mpr
    ⟨by decide, by
      intro dep hdep hne
      have hd : Orchestrate.depsOf c6okJobs "WI-B" = ["WI-A"] := by decide
      rw [hd] at hdep
      have : dep = "WI-A" := by simpa using hdep
      subst this
      exact ⟨⟨"WI-A", "done", 1, []⟩, by decide, rfl⟩⟩

/-- C8 witness: the immediate-error rule at a concrete attempt with
runner exit code 7, and the exit-code mapping on its outcome. -/
theorem C8_loop_error_witness :
    Loop.loop_run false "" 2 1 1
        [{ walltime_exceeded := false, cancel_marker := false, result := ⟨7, ""⟩,
           gates_ok := false, gate_stage := "", fm := c8fm, fsenv := c1env,
           job_complete_exit := 0 }] =
      some ⟨"error", "exit_code_7", 7, false, 1, false, none⟩ ∧
    Loop.process_exit ⟨"error", "exit_code_7", 7, false, 1, false, none⟩ = 7 :=
  have H := C8_loop_error_and_exit_codes.1 false "" 2 1 1
    { walltime_exceeded := false, cancel_marker := false, result := ⟨7, ""⟩,
      gates_ok := false, gate_stage := "", fm := c8fm, fsenv := c1env,
      job_complete_exit := 0 } [] rfl (by decide) rfl (by decide)
  ⟨H, by decide⟩

/-- C5: the wave scheduler is topologically sound — for every job set
with unique nonempty work-item ids (as `scan_jobs` guarantees), a job
never appears in a wave before every one of its dependencies that
resolves to an active job has appeared in a strictly earlier wave; this
holds for all inputs, in particular for acyclic active subgraphs. The
A(1h)/B(1h,dep A)/C(3h,dep A)/D(1h,dep B,C) example with any concurrency
limit ≥ 2 produces waves [[A],[B,C],[D]], and its whole-graph critical
path is A, C, D totaling 5 hours. -/
theorem C5_wave_schedule_topological :
    (∀ (jobs : List Orchestrate.JobNode) (limit : ℕ),
      (jobs.map (fun j => j.work_item_id)).Nodup →
      "" ∉ jobs.map (fun j => j.work_item_id) →
      ∀ (k : ℕ) (wi : String), k < (Orchestrate.schedule jobs limit).1.length →
        wi ∈ (Orchestrate.schedule jobs limit).1.getD k [] →
        ∀ dep ∈ Orchestrate.depsOf jobs wi,
          pyStrip dep ∈ Orchestrate.active_ids jobs →
          ∃ k2, k2 < k ∧
            pyStrip dep ∈ (Orchestrate.schedule jobs limit).1.getD k2 []) ∧
    (∀ limit : ℕ, 2 ≤ limit →
      (Orchestrate.schedule abcdJobs limit).1 = [["WI-A"], ["WI-B", "WI-C"], ["WI-D"]]) ∧
    Orchestrate.critical_path (Orchestrate.node_ids abcdJobs)
      (Orchestrate.all_edges abcdJobs) abcdWeights =
      (["WI-A", "WI-C", "WI-D"], 5, true) := by
  refine ⟨?_, Orchestrate.abcd_waves, Orchestrate.abcd_cp⟩
  intro jobs limit h hne k wi hk hwi dep hdep hact
  have hgood := Orchestrate.schedule_good h limit
  have hne2 : pyStrip dep ≠ "" := by
    intro heq
    rw [heq] at hact
    exact hne (Orchestrate.active_mem_ids hact)
  rcases Orchestrate.mem_active_elim hact with ⟨j, hfind, hstat⟩
  have hdone : j.status ≠ "done" := Orchestrate.runnable_ne_done hstat
  have hcont : (Orchestrate.active_ids jobs).contains (pyStrip dep) = true := by
    simpa using hact
  have hocc : pyStrip dep ∈ Orchestrate.occOf jobs wi := by
    simp only [Orchestrate.occOf, Orchestrate.activeDepOcc]
    refine List.mem_filterMap.mpr ⟨dep, hdep, ?_⟩
    simp only [hfind]
    simp [hne2, hdone, hcont, hact]
  exact hgood k wi hk hwi (pyStrip dep) hocc

/-- C5 witness: the theorem applied to the concrete A/B/C/D fixture — at
limit 2 the dependency C of D (scheduled in wave 2) is found in an
earlier wave, and at limit 4 the waves are [[A],[B,C],[D]]. -/
theorem C5_wave_schedule_topological_witness :
    (∃ k2, k2 < 2 ∧
      pyStrip "WI-C" ∈ (Orchestrate.schedule abcdJobs 2).1.getD k2 []) ∧
    (Orchestrate.schedule abcdJobs 4).1 = [["WI-A"], ["WI-B", "WI-C"], ["WI-D"]] :=
  ⟨C5_wave_schedule_topological.1 abcdJobs 2 (by decide) (by decide) 2 "WI-D"
      (by decide) (by decide) "WI-C" (by decide) (by decide),
   C5_wave_schedule_topological.2.1 4 (by decide)⟩

/-- C3: invalidation scoped to a trigger visits exactly the
reverse-dependency closure of the trigger (BFS over `build_reverse_deps`
equals reflexive-transitive reachability, minus the trigger itself, and
a reverse-dependency edge is exactly a stripped nonempty `depends_on`
reference from an existing job); every scoped job that is `done` with a
nonempty stored snapshot failing the comparison is rewritten by
`markStale` — status `blocked`, cleared `completed_at`,
`truth_last_status` `fail` with the specific mismatch reason, audit line
appended — and reported stale; and mutating a dependency's declared
output after the consumer completed, then invalidating from the
upstream job, leaves the consumer `blocked` with an empty completion
timestamp. -/
theorem C3_invalidation_scoped_transition :
    (∀ (jobs : List Invalidate.JobRec) (trigger x : String),
      x ∈ Invalidate.downstream_closure trigger
        (Invalidate.build_reverse_deps jobs) (jobs.length + 1) ↔
      x ≠ trigger ∧
        Relation.ReflTransGen
          (fun a b => b ∈ Invalidate.build_reverse_deps jobs a) trigger x) ∧
    (∀ (jobs : List Invalidate.JobRec) (a b : String),
      b ∈ Invalidate.build_reverse_deps jobs a ↔
        (b ∈ jobs.map (fun j => j.work_item_id) ∧ a ≠ "" ∧
          ∃ dep ∈ Invalidate.depsOfRec jobs b, pyStrip dep = a)) ∧
    (∀ (fs : String → String → Option Invalidate.FileMeta) (ts : String)
       (jobs : List Invalidate.JobRec) (trigger wi : String)
       (rec : Invalidate.JobRec) (res : List Invalidate.JobRec × List String)
       (e : Invalidate.SnapEntry) (es : List Invalidate.SnapEntry),
      Invalidate.invalidate_main fs ts jobs trigger = some res →
      wi ∈ Invalidate.downstream_closure trigger
        (Invalidate.build_reverse_deps jobs) (jobs.length + 1) →
      Invalidate.findRec jobs wi = some rec →
      pyStrip (pyOr rec.status "planned") = "done" →
      rec.truth_input_snapshot = some (e :: es) →
      (Invalidate.compare_snapshot
        (Invalidate.make_current_input_entries jobs fs wi) (some (e :: es))).1 = false →
      Invalidate.findRec res.1 wi =
        some (Invalidate.markStale ts
          (Invalidate.compare_snapshot
            (Invalidate.make_current_input_entries jobs fs wi) (some (e :: es))).2 rec) ∧
      wi ∈ res.2) ∧
    ((Invalidate.invalidate_main c3fs "T2" c3jobs "WI-U").map Prod.snd =
      some ["WI-C"] ∧
     (Invalidate.invalidate_main c3fs "T2" c3jobs "WI-U").map (fun r =>
        (Invalidate.findRec r.1 "WI-C").map (fun j =>
          (j.status, j.completed_at, j.truth_last_status, j.truth_last_failures))) =
       some (some ("blocked", "", "fail",
         ["freshness_inputs: WI-U::out.txt hash changed"]))) := by
  refine ⟨?_, fun jobs a b => Invalidate.mem_build_reverse_deps, ?_, by decide, by decide⟩
  · intro jobs trigger x
    have hU : ∀ a b, b ∈ Invalidate.build_reverse_deps jobs a →
        b ∈ jobs.map (·.work_item_id) :=
      fun a b hb => (Invalidate.mem_build_reverse_deps.mp hb).1
    have hfuel : (jobs.map (·.work_item_id)).length + 1 ≤ jobs.length + 1 := by
      rw [List.length_map]
    exact (Invalidate.downstream_closure_spec _ _ hU trigger _ hfuel).1 x
  · intro fs ts jobs trigger wi rec res e es hmain hwi hfind hdone hsnap hcmp
    have hU : ∀ a b, b ∈ Invalidate.build_reverse_deps jobs a →
        b ∈ jobs.map (·.work_item_id) :=
      fun a b hb => (Invalidate.mem_build_reverse_deps.mp hb).1
    have hfuel : (jobs.map (·.work_item_id)).length + 1 ≤ jobs.length + 1 := by
      rw [List.length_map]
    have hnd : (Invalidate.downstream_closure trigger
        (Invalidate.build_reverse_deps jobs) (jobs.length + 1)).Nodup :=
      (Invalidate.downstream_closure_spec _ _ hU trigger _ hfuel).2
    unfold Invalidate.invalidate_main at hmain
    split at hmain
    · injection hmain with hres
      subst hres
      have hspec := Invalidate.scan_spec fs ts jobs
        (Invalidate.downstream_closure trigger
          (Invalidate.build_reverse_deps jobs) (jobs.length + 1)) hnd
        (jobs, []) rfl wi hwi rec hfind
      exact hspec.1 hdone e es hsnap hcmp
    · cases hmain

/-- C3 witness: the theorem's transition clause applied to the concrete
mutated-output fixture: `WI-C` ends `blocked` via `markStale` and is
reported stale. -/
theorem C3_invalidation_scoped_transition_witness :
    Invalidate.findRec c3res.1 "WI-C" =
      some (Invalidate.markStale "T"
        (Invalidate.compare_snapshot
          (Invalidate.make_current_input_entries c3jobs c3fs "WI-C")
          (some (c3snapEntry :: []))).2 c3jobC) ∧
    "WI-C" ∈ c3res.2 :=
  C3_invalidation_scoped_transition.2.2.1 c3fs "T" c3jobs "WI-U" "WI-C" c3jobC c3res
    c3snapEntry [] (by decide) (by decide) (by decide) (by decide) (by decide) (by decide)

/-- C9: invalidation is idempotent — a second scoped run over the state
left by a first run (same disk, no intervening changes) stales nothing
and leaves every record unchanged. -/
theorem C9_invalidation_idempotent :
    ∀ (jobs : List Invalidate.JobRec)
      (fs : String → String → Option Invalidate.FileMeta)
      (ts ts2 trigger : String) (res : List Invalidate.JobRec × List String),
    Invalidate.invalidate_main fs ts jobs trigger = some res →
    Invalidate.invalidate_main fs ts2 res.1 trigger = some (res.1, []) := by
  intro jobs fs ts ts2 trigger res hmain
  have hU : ∀ a b, b ∈ Invalidate.build_reverse_deps jobs a →
      b ∈ jobs.map (·.work_item_id) :=
    fun a b hb => (Invalidate.mem_build_reverse_deps.mp hb).1
  have hfuel : (jobs.map (·.work_item_id)).length + 1 ≤ jobs.length + 1 := by
    rw [List.length_map]
  have hnd : (Invalidate.downstream_closure trigger
      (Invalidate.build_reverse_deps jobs) (jobs.length + 1)).Nodup :=
    (Invalidate.downstream_closure_spec _ _ hU trigger _ hfuel).2
  unfold Invalidate.invalidate_main at hmain
  split at hmain
  case isFalse => cases hmain
  case isTrue hfound =>
  injection hmain with hres
  subst hres
  have hskel1 : ((Invalidate.invalidate_scan fs ts jobs
      (Invalidate.downstream_closure trigger
        (Invalidate.build_reverse_deps jobs) (jobs.length + 1))).1).map Invalidate.skel =
      jobs.map Invalidate.skel :=
    Invalidate.scanFold_skel fs ts _ (jobs, [])
  have hrd : Invalidate.build_reverse_deps ((Invalidate.invalidate_scan fs ts jobs
      (Invalidate.downstream_closure trigger
        (Invalidate.build_reverse_deps jobs) (jobs.length + 1))).1) =
      Invalidate.build_reverse_deps jobs := Invalidate.build_reverse_deps_skel hskel1
  have hlen : ((Invalidate.invalidate_scan fs ts jobs
      (Invalidate.downstream_closure trigger
        (Invalidate.build_reverse_deps jobs) (jobs.length + 1))).1).length =
      jobs.length := by
    have h1 := congrArg List.length hskel1
    simpa using h1
  have hmapeq := Invalidate.findRec_skel _ _ hskel1 trigger
  have htrig : (Invalidate.findRec ((Invalidate.invalidate_scan fs ts jobs
      (Invalidate.downstream_closure trigger
        (Invalidate.build_reverse_deps jobs) (jobs.length + 1))).1) trigger).isSome =
      true := by
    rcases h1 : Invalidate.findRec ((Invalidate.invalidate_scan fs ts jobs
        (Invalidate.downstream_closure trigger
          (Invalidate.build_reverse_deps jobs) (jobs.length + 1))).1) trigger with _ | j
    · rw [h1] at hmapeq
      rcases h2 : Invalidate.findRec jobs trigger with _ | j2
      · rw [h2] at hfound
        cases hfound
      · rw [h2] at hmapeq
        simp at hmapeq
    · rfl
  show Invalidate.invalidate_main fs ts2 ((Invalidate.invalidate_scan fs ts jobs
    (Invalidate.downstream_closure trigger
      (Invalidate.build_reverse_deps jobs) (jobs.length + 1))).1) trigger = _
  unfold Invalidate.invalidate_main
  rw [if_pos htrig, hrd, hlen]
  refine congrArg some ?_
  show (Invalidate.downstream_closure trigger
      (Invalidate.build_reverse_deps jobs) (jobs.length + 1)).foldl
    (Invalidate.scanStep fs ts2)
    ((Invalidate.invalidate_scan fs ts jobs
      (Invalidate.downstream_closure trigger
        (Invalidate.build_reverse_deps jobs) (jobs.length + 1))).1, []) = _
  refine Invalidate.scan_skip fs ts2 _ _ ?_
  intro wi hwi
  rcases h0 : Invalidate.findRec jobs wi with _ | rec0
  · have h1 : Invalidate.findRec ((Invalidate.invalidate_scan fs ts jobs
        (Invalidate.downstream_closure trigger
          (Invalidate.build_reverse_deps jobs) (jobs.length + 1))).1) wi = none := by
      have hm := Invalidate.findRec_skel _ _ hskel1 wi
      rw [h0] at hm
      rcases h2 : Invalidate.findRec ((Invalidate.invalidate_scan fs ts jobs
          (Invalidate.downstream_closure trigger
            (Invalidate.build_reverse_deps jobs) (jobs.length + 1))).1) wi with _ | j
      · rfl
      · rw [h2] at hm
        simp at hm
    simp only [Invalidate.scanStep, h1]
  · have hspec := Invalidate.scan_spec fs ts jobs
      (Invalidate.downstream_closure trigger
        (Invalidate.build_reverse_deps jobs) (jobs.length + 1)) hnd
      (jobs, []) rfl wi hwi rec0 h0
    have hentries : Invalidate.make_current_input_entries
        ((Invalidate.invalidate_scan fs ts jobs
          (Invalidate.downstream_closure trigger
            (Invalidate.build_reverse_deps jobs) (jobs.length + 1))).1) fs wi =
        Invalidate.make_current_input_entries jobs fs wi :=
      Invalidate.make_current_skel hskel1 fs wi
    by_cases hdone : pyStrip (pyOr rec0.status "planned") = "done"
    · rcases hsnap : rec0.truth_input_snapshot with _ | snap
      · have h1 := hspec.2.2.1 hsnap
        exact (Invalidate.scanStep_char fs ts2 ((Invalidate.invalidate_scan fs ts jobs
          (Invalidate.downstream_closure trigger
            (Invalidate.build_reverse_deps jobs) (jobs.length + 1))).1,
          ([] : List String)) wi rec0 h1).2.2.1 hsnap
      · rcases snap with _ | ⟨e, es⟩
        · have h1 := hspec.2.2.2.1 hsnap
          exact (Invalidate.scanStep_char fs ts2 ((Invalidate.invalidate_scan fs ts jobs
          (Invalidate.downstream_closure trigger
            (Invalidate.build_reverse_deps jobs) (jobs.length + 1))).1,
          ([] : List String)) wi rec0 h1).2.2.2.1 hsnap
        · by_cases hcmp : (Invalidate.compare_snapshot
              (Invalidate.make_current_input_entries jobs fs wi)
              (some (e :: es))).1 = true
          · have h1 := hspec.2.2.2.2 e es hsnap hcmp
            refine (Invalidate.scanStep_char fs ts2 ((Invalidate.invalidate_scan fs ts jobs
          (Invalidate.downstream_closure trigger
            (Invalidate.build_reverse_deps jobs) (jobs.length + 1))).1,
          ([] : List String)) wi rec0 h1).2.2.2.2 e es hsnap ?_
            show (Invalidate.compare_snapshot
              (Invalidate.make_current_input_entries
                ((Invalidate.invalidate_scan fs ts jobs
                  (Invalidate.downstream_closure trigger
                    (Invalidate.build_reverse_deps jobs) (jobs.length + 1))).1, []).1
                fs wi) (some (e :: es))).1 = true
            rw [show ((Invalidate.invalidate_scan fs ts jobs
              (Invalidate.downstream_closure trigger
                (Invalidate.build_reverse_deps jobs) (jobs.length + 1))).1,
              ([] : List String)).1 = (Invalidate.invalidate_scan fs ts jobs
                (Invalidate.downstream_closure trigger
                  (Invalidate.build_reverse_deps jobs) (jobs.length + 1))).1 from rfl,
              hentries]
            exact hcmp
          · have hfalse : (Invalidate.compare_snapshot
                (Invalidate.make_current_input_entries jobs fs wi)
                (some (e :: es))).1 = false := by
              rcases Bool.eq_false_or_eq_true ((Invalidate.compare_snapshot
                (Invalidate.make_current_input_entries jobs fs wi)
                (some (e :: es))).1) with ht | hf
              · exact absurd ht hcmp
              · exact hf
            obtain ⟨h1, -⟩ := hspec.1 hdone e es hsnap hfalse
            refine (Invalidate.scanStep_char fs ts2 ((Invalidate.invalidate_scan fs ts jobs
          (Invalidate.downstream_closure trigger
            (Invalidate.build_reverse_deps jobs) (jobs.length + 1))).1,
          ([] : List String)) wi _ h1).2.1 ?_
            show pyStrip (pyOr "blocked" "planned") ≠ "done"
            decide
    · have h1 := hspec.2.1 hdone
      exact (Invalidate.scanStep_char fs ts2 ((Invalidate.invalidate_scan fs ts jobs
          (Invalidate.downstream_closure trigger
            (Invalidate.build_reverse_deps jobs) (jobs.length + 1))).1,
          ([] : List String)) wi rec0 h1).2.1 hdone

/-- C9 witness: the idempotence theorem applied to the mutated-output
fixture — the second scoped run over the post-invalidation state stales
nothing. -/
theorem C9_invalidation_idempotent_witness :
    Invalidate.invalidate_main c3fs "T2" c3res.1 "WI-U" = some (c3res.1, []) :=
  C9_invalidation_idempotent c3jobs c3fs "T" "T2" "WI-U" c3res (by decide)

/-- C2: the whole-graph critical-path computation, for duplicate-free
node and edge lists, nonempty node ids and strictly positive weights (as
`parse_estimate_hours` guarantees). (a) If the built predecessor graph
has a nontrivial cycle, the result is the unavailable triple
`([], 0, false)` rather than an error. (b) If it is acyclic, the
computation reports available; every node's final `dist` entry satisfies
the recurrence `dist[n] = weight n + max(0, max over predecessors p of
dist[p])`, with the parent pointer `None` exactly for source nodes and
otherwise on the first-seen maximal predecessor; the returned path is
the reversed parent-pointer chain from the first node of maximal `dist`;
that path runs from a root (no predecessors) to a leaf (no successors)
along predecessor edges, its weight sum equals the reported total, and
every predecessor path over the nodes has weight sum at most that total
— so the total is the maximum root-to-leaf path weight; finally,
`dependency_graph.critical_path` on the same topological order returns
the same path and total whenever every edge endpoint is a node. -/
theorem C2_critical_path_longest (nodeIds : List String)
    (edges : List (String × String)) (w : String → ℚ)
    (hN : nodeIds.Nodup) (hE : edges.Nodup) (hW : ∀ x, 0 < w x)
    (hEmp : "" ∉ nodeIds) :
    ((∃ x m, m ≠ [] ∧
        Orchestrate.PredPath (Orchestrate.cpBuild nodeIds edges).preds (x :: m) x) →
      Orchestrate.critical_path nodeIds edges w = ([], 0, false)) ∧
    ((∀ x m, Orchestrate.PredPath (Orchestrate.cpBuild nodeIds edges).preds (x :: m) x →
        m = []) →
      (Orchestrate.critical_path nodeIds edges w).2.2 = true ∧
      (∀ n ∈ nodeIds,
        (Orchestrate.distD nodeIds edges w).lookup n =
          some (w n + (((Orchestrate.cpBuild nodeIds edges).preds n).map
            (fun p => ((Orchestrate.distD nodeIds edges w).lookup p).getD 0)).foldr
              max 0) ∧
        ((Orchestrate.cpBuild nodeIds edges).preds n = [] →
          (Orchestrate.distP nodeIds edges w).lookup n = some none) ∧
        ((Orchestrate.cpBuild nodeIds edges).preds n ≠ [] → ∃ p l1 l2,
          (Orchestrate.distP nodeIds edges w).lookup n = some (some p) ∧
          (Orchestrate.cpBuild nodeIds edges).preds n = l1 ++ p :: l2 ∧
          ((Orchestrate.distD nodeIds edges w).lookup p).getD 0 =
            (((Orchestrate.cpBuild nodeIds edges).preds n).map
              (fun q => ((Orchestrate.distD nodeIds edges w).lookup q).getD 0)).foldr
                max 0 ∧
          (∀ q ∈ l1, ((Orchestrate.distD nodeIds edges w).lookup q).getD 0 <
            (((Orchestrate.cpBuild nodeIds edges).preds n).map
              (fun q2 => ((Orchestrate.distD nodeIds edges w).lookup q2).getD 0)).foldr
                max 0))) ∧
      (nodeIds = [] → Orchestrate.critical_path nodeIds edges w = ([], 0, true)) ∧
      (nodeIds ≠ [] → ∃ nstar dstar root rest,
        Orchestrate.firstArgmax (Orchestrate.distD nodeIds edges w) =
          some (nstar, dstar) ∧
        (Orchestrate.critical_path nodeIds edges w).1 =
          (Orchestrate.parentChain (Orchestrate.distP nodeIds edges w)
            ((Orchestrate.distD nodeIds edges w).length + 1) nstar).reverse ∧
        (Orchestrate.critical_path nodeIds edges w).2.1 = dstar ∧
        (Orchestrate.critical_path nodeIds edges w).1 = root :: rest ∧
        Orchestrate.PredPath (Orchestrate.cpBuild nodeIds edges).preds
          (Orchestrate.critical_path nodeIds edges w).1 nstar ∧
        (∀ y ∈ (Orchestrate.critical_path nodeIds edges w).1, y ∈ nodeIds) ∧
        (Orchestrate.cpBuild nodeIds edges).preds root = [] ∧
        (∀ c, nstar ∉ (Orchestrate.cpBuild nodeIds edges).preds c) ∧
        ((Orchestrate.critical_path nodeIds edges w).1.map w).sum = dstar ∧
        (∀ l n2, Orchestrate.PredPath (Orchestrate.cpBuild nodeIds edges).preds l n2 →
          (∀ y ∈ l, y ∈ nodeIds) → (l.map w).sum ≤ dstar)) ∧
      ((∀ e ∈ edges, e.1 ∈ nodeIds ∧ e.2 ∈ nodeIds) →
        DependencyGraph.critical_path (Orchestrate.kahnTopo nodeIds edges) edges w =
          ((Orchestrate.critical_path nodeIds edges w).1,
           (Orchestrate.critical_path nodeIds edges w).2.1))) := by
  constructor
  · rintro ⟨x, m, hm, hcyc⟩
    have hnelen := Orchestrate.kahnTopo_cycle nodeIds edges hN hE hm hcyc
    rw [Orchestrate.critical_path_eq, if_pos hnelen]
  · intro hacyc
    obtain ⟨hlen, hTnd, hTord, hTsub, hTall⟩ :=
      Orchestrate.kahnTopo_complete nodeIds edges hN hE hacyc
    have havail : (Orchestrate.critical_path nodeIds edges w).2.2 = true := by
      rcases Option.eq_none_or_eq_some
          (Orchestrate.firstArgmax (Orchestrate.distD nodeIds edges w)) with hfa | ⟨e, hfa⟩
      · rw [Orchestrate.critical_path_eq, if_neg (fun hmm => hmm hlen), hfa]
      · rw [Orchestrate.critical_path_eq, if_neg (fun hmm => hmm hlen), hfa]
    refine ⟨havail, ?_, ?_, ?_, ?_⟩
    · intro n hn
      exact Orchestrate.distFold_recurrence hTnd hTord hW n (hTall n hn)
    · intro hnil
      have hkt : Orchestrate.kahnTopo nodeIds edges = [] := by
        apply List.eq_nil_of_length_eq_zero
        rw [hlen, hnil]
        rfl
      have hD : Orchestrate.distD nodeIds edges w = [] := by
        have hk := (Orchestrate.distFold_keys (Orchestrate.cpBuild nodeIds edges).preds w
          (Orchestrate.kahnTopo nodeIds edges)).1
        rw [show (Orchestrate.distFold (Orchestrate.cpBuild nodeIds edges).preds w
          (Orchestrate.kahnTopo nodeIds edges)).1 = Orchestrate.distD nodeIds edges w
          from rfl, hkt] at hk
        exact List.map_eq_nil_iff.mp hk
      rw [Orchestrate.critical_path_eq, if_neg (fun hmm => hmm hlen), hD]
      rfl
    · intro hnonnil
      have hktne : Orchestrate.kahnTopo nodeIds edges ≠ [] := by
        intro hmm
        apply hnonnil
        apply List.eq_nil_of_length_eq_zero
        rw [← hlen, hmm]
        rfl
      have hDkeys2 : (Orchestrate.distD nodeIds edges w).map Prod.fst =
          Orchestrate.kahnTopo nodeIds edges :=
        (Orchestrate.distFold_keys (Orchestrate.cpBuild nodeIds edges).preds w
          (Orchestrate.kahnTopo nodeIds edges)).1
      have hDne : Orchestrate.distD nodeIds edges w ≠ [] := by
        intro hmm
        rw [hmm] at hDkeys2
        exact hktne hDkeys2.symm
      obtain ⟨e, he, ⟨l1, l2, hdec, hfirstmax⟩, hub⟩ :=
        Orchestrate.firstArgmax_spec _ hDne
      have heD : e ∈ Orchestrate.distD nodeIds edges w := by
        rw [hdec]
        exact List.mem_append_right _ (List.mem_cons_self _ _)
      have hkeysnd : ((Orchestrate.distD nodeIds edges w).map Prod.fst).Nodup := by
        rw [hDkeys2]
        exact hTnd
      have hstarlook : (Orchestrate.distD nodeIds edges w).lookup e.1 = some e.2 :=
        Orchestrate.lookup_self_of_mem hkeysnd heD
      have hstarT : e.1 ∈ Orchestrate.kahnTopo nodeIds edges := by
        rw [← hDkeys2]
        exact List.mem_map.mpr ⟨e, heD, rfl⟩
      obtain ⟨preS, postS, hSdec⟩ := List.append_of_mem hstarT
      have hEmpT : "" ∉ Orchestrate.kahnTopo nodeIds edges :=
        fun hmm => hEmp (hTsub "" hmm)
      have hlenD : (Orchestrate.distD nodeIds edges w).length =
          (Orchestrate.kahnTopo nodeIds edges).length := by
        rw [← hDkeys2, List.length_map]
      have hfuel : preS.length + 1 ≤ (Orchestrate.distD nodeIds edges w).length + 1 := by
        rw [hlenD, hSdec, List.length_append, List.length_cons]
        omega
      obtain ⟨hpath, hsum, hmemT, hroot⟩ :=
        Orchestrate.parentChain_spec hTnd hTord hW hEmpT preS.length preS e.1 postS
          hSdec rfl ((Orchestrate.distD nodeIds edges w).length + 1) hfuel
      obtain ⟨r0, hr0last, hr0preds⟩ := hroot
      obtain ⟨rest0, hrev⟩ := Orchestrate.reverse_cons_of_getLast hr0last
      have hr1 : (Orchestrate.critical_path nodeIds edges w).1 =
          (Orchestrate.parentChain (Orchestrate.distP nodeIds edges w)
            ((Orchestrate.distD nodeIds edges w).length + 1) e.1).reverse := by
        rw [Orchestrate.critical_path_eq, if_neg (fun hmm => hmm hlen), he]
      have hr2 : (Orchestrate.critical_path nodeIds edges w).2.1 = e.2 := by
        rw [Orchestrate.critical_path_eq, if_neg (fun hmm => hmm hlen), he]
      refine ⟨e.1, e.2, r0, rest0, he, hr1, hr2, ?_, ?_, ?_, hr0preds, ?_, ?_, ?_⟩
      · rw [hr1]
        exact hrev
      · rw [hr1]
        exact hpath
      · rw [hr1]
        intro y hy
        exact hTsub y (hmemT y (List.mem_reverse.mp hy))
      · intro c hmemc
        have hcN : c ∈ nodeIds := (Orchestrate.cpBuild_preds_sub hmemc).2
        exact Orchestrate.argmax_leaf hTnd hTord hW hstarlook hub c (hTall c hcN) hmemc
      · have hsum2 : (((Orchestrate.parentChain (Orchestrate.distP nodeIds edges w)
            ((Orchestrate.distD nodeIds edges w).length + 1) e.1).reverse).map w).sum =
            ((Orchestrate.distD nodeIds edges w).lookup e.1).getD 0 := hsum
        rw [hr1, hsum2, hstarlook]
        rfl
      · intro l n2 hpth hmeml
        have hmemTl : ∀ y ∈ l, y ∈ Orchestrate.kahnTopo nodeIds edges :=
          fun y hy => hTall y (hmeml y hy)
        have hn2T : n2 ∈ Orchestrate.kahnTopo nodeIds edges :=
          hmemTl n2 (Orchestrate.predPath_end_mem hpth)
        obtain ⟨dn, hdn⟩ := Orchestrate.lookup_isSome_of_mem
          (Orchestrate.distD nodeIds edges w) n2 (by rw [hDkeys2]; exact hn2T)
        have hle := Orchestrate.predPath_sum_le hTnd hTord hpth hmemTl dn hdn
        have hdnD : (n2, dn) ∈ Orchestrate.distD nodeIds edges w :=
          Orchestrate.lookup_mem hdn
        have hdnle : dn ≤ e.2 := hub (n2, dn) hdnD
        linarith
    · intro hend
      exact Orchestrate.depgraph_bridge w hend hlen

/-- C2 witness: the theorem applied to the concrete A/B/C/D job graph —
positive weights discharged from the `parse_estimate_hours` clamp, the
graph shown acyclic through its completed topological order, and the
conclusions read back: the run reports available, the returned path's
weight sum equals the reported total, and every predecessor path over
the nodes is bounded by that total. -/
theorem C2_critical_path_longest_witness :
    (∀ x, 0 < abcdWeights x) ∧
    (Orchestrate.critical_path (Orchestrate.node_ids abcdJobs)
      (Orchestrate.all_edges abcdJobs) abcdWeights).2.2 = true ∧
    ((Orchestrate.critical_path (Orchestrate.node_ids abcdJobs)
      (Orchestrate.all_edges abcdJobs) abcdWeights).1.map abcdWeights).sum =
      (Orchestrate.critical_path (Orchestrate.node_ids abcdJobs)
        (Orchestrate.all_edges abcdJobs) abcdWeights).2.1 ∧
    (∀ l n2, Orchestrate.PredPath
        (Orchestrate.cpBuild (Orchestrate.node_ids abcdJobs)
          (Orchestrate.all_edges abcdJobs)).preds l n2 →
      (∀ y ∈ l, y ∈ Orchestrate.node_ids abcdJobs) →
      (l.map abcdWeights).sum ≤
        (Orchestrate.critical_path (Orchestrate.node_ids abcdJobs)
          (Orchestrate.all_edges abcdJobs) abcdWeights).2.1) := by
  have hW : ∀ x, 0 < abcdWeights x := by
    intro x
    show 0 < ((Orchestrate.findJob abcdJobs x).map (·.estimate_hours)).getD 1
    rcases hfj : Orchestrate.findJob abcdJobs x with _ | j
    · norm_num
    · have hmem : j ∈ abcdJobs := List.mem_of_find?_eq_some hfj
      simp only [abcdJobs, List.mem_cons, List.not_mem_nil, or_false] at hmem
      rcases hmem with rfl | rfl | rfl | rfl <;> norm_num
  have hacyc : ∀ x m, Orchestrate.PredPath (Orchestrate.cpBuild
      (Orchestrate.node_ids abcdJobs) (Orchestrate.all_edges abcdJobs)).preds
      (x :: m) x → m = [] := by
    intro x m hcyc
    by_contra hm
    exact Orchestrate.kahnTopo_cycle (Orchestrate.node_ids abcdJobs)
      (Orchestrate.all_edges abcdJobs) (by decide) (by decide) hm hcyc (by decide)
  have H := (C2_critical_path_longest (Orchestrate.node_ids abcdJobs)
    (Orchestrate.all_edges abcdJobs) abcdWeights (by decide) (by decide) hW
    (by decide)).2 hacyc
  obtain ⟨h1, _, _, h4, _⟩ := H
  obtain ⟨nstar, dstar, root, rest, _, _, hr2, _, _, _, _, _, hsum, hbound⟩ :=
    h4 (by decide)
  refine ⟨hW, h1, ?_, ?_⟩
  · rw [hr2]
    exact hsum
  · intro l n2 hp hmem
    rw [hr2]
    exact hbound l n2 hp hmem

end TheWorkshop
